import Mathlib

/-!
# kana-tools: conversion.go

A shallow embedding of `conversion.go` (package `kana`) and the properties of
its conversions.

* A Go `rune` (an `int32`) is an `Int`; the only arithmetic on runes is
  `r + 0x60` / `r - 0x60` under a range guard, where no overflow occurs.
* A Go `string` holds well-formed UTF-8 text and is the list of its Unicode
  scalar values (`List Char`), the unit of processing of the pipelines.
* A `*bytes.Buffer` is the list of scalars written to it so far; the two
  buffers taken from the `sync.Pool` arrive with arbitrary contents.
* The rule tables (`*strings.Replacer` values) and `parseRomajiDoubles` are
  declared in another file of the package; the conversions take them as a
  parameter (`Tables`).
-/

namespace Kana

/-! ## Runes and strings -/

/-- Go's `rune`. -/
abbrev Rune := Int

/-- A Go string of well-formed UTF-8 text, as its sequence of scalar values. -/
abbrev GoString := List Char

/-- The conversion `[]rune(s)`. -/
def toRunes (s : GoString) : List Rune := s.map (fun c => (c.toNat : Int))

/-- The scalar written by `WriteRune(r)` for `r >= 0`: `r` itself when it is a
valid scalar value, `utf8.RuneError` (U+FFFD) otherwise. -/
def runeToChar (r : Rune) : Char :=
  if r.toNat.isValidChar then Char.ofNat r.toNat else Char.ofNat 0xFFFD

/-- `strings.Map(mapping, s)`: every scalar of `s` is replaced by its image;
a negative image drops the scalar. -/
def stringsMap (mapping : Rune → Rune) (s : GoString) : GoString :=
  s.filterMap (fun c =>
    let r := mapping (c.toNat : Int)
    if 0 ≤ r then some (runeToChar r) else none)

/-! ## Single-character script swap -/

/-- `HiraganaToKatakana`: `'ぁ'` = U+3041, `'ゖ'` = U+3096, `'ゝ'` = U+309D,
`'ゞ'` = U+309E. -/
def HiraganaToKatakana (r : Rune) : Rune :=
  if (r ≥ 0x3041 ∧ r ≤ 0x3096) ∨ (r ≥ 0x309D ∧ r ≤ 0x309E) then
    r + 0x60
  else
    r

/-- `KatakanaToHiragana`: `'ァ'` = U+30A1, `'ヶ'` = U+30F6, `'ヽ'` = U+30FD,
`'ヾ'` = U+30FE. -/
def KatakanaToHiragana (r : Rune) : Rune :=
  if (r ≥ 0x30A1 ∧ r ≤ 0x30F6) ∨ (r ≥ 0x30FD ∧ r ≤ 0x30FE) then
    r - 0x60
  else
    r

/-! ## Unicode script classes (`unicode.In`) -/

/-- An entry `{Lo, Hi, Stride}` of a `unicode.RangeTable`. -/
structure Range where
  lo : Int
  hi : Int
  stride : Int
deriving Repr, DecidableEq

/-- A `unicode.RangeTable` (its 16-bit and 32-bit entries in one list). -/
abbrev RangeTable := List Range

/-- `unicode.In(r, tab)`: `r` is a member of the range table. -/
def unicodeIn (r : Rune) (tab : RangeTable) : Bool :=
  tab.any (fun rg => decide (rg.lo ≤ r) && decide (r ≤ rg.hi) && decide ((r - rg.lo) % rg.stride = 0))

/-- The table `unicode.Hiragana` (script Hiragana, Unicode 15.0.0). -/
def unicodeHiragana : RangeTable :=
  [ ⟨0x3041, 0x3096, 1⟩, ⟨0x309D, 0x309F, 1⟩,
    ⟨0x1B001, 0x1B11F, 1⟩, ⟨0x1B132, 0x1B150, 30⟩, ⟨0x1B151, 0x1B152, 1⟩,
    ⟨0x1F200, 0x1F200, 1⟩ ]

/-- The table `unicode.Katakana` (script Katakana, Unicode 15.0.0). -/
def unicodeKatakana : RangeTable :=
  [ ⟨0x30A1, 0x30FA, 1⟩, ⟨0x30FD, 0x30FF, 1⟩, ⟨0x31F0, 0x31FF, 1⟩,
    ⟨0x32D0, 0x32FE, 1⟩, ⟨0x3300, 0x3357, 1⟩, ⟨0xFF66, 0xFF6F, 1⟩,
    ⟨0xFF71, 0xFF9D, 1⟩,
    ⟨0x1AFF0, 0x1AFF3, 1⟩, ⟨0x1AFF5, 0x1AFFB, 1⟩, ⟨0x1AFFD, 0x1AFFE, 1⟩,
    ⟨0x1B000, 0x1B120, 288⟩, ⟨0x1B121, 0x1B122, 1⟩, ⟨0x1B155, 0x1B164, 15⟩,
    ⟨0x1B165, 0x1B167, 1⟩ ]

/-! ## Case folding (`strings.ToLower`, `strings.ToUpper`) -/

/-- The case mapping of package `unicode` outside ASCII: the results of
`unicode.To(unicode.LowerCase, r)` and `unicode.To(unicode.UpperCase, r)`,
the standard library's case tables, taken as given. -/
structure CaseTables where
  toLower : Rune → Rune
  toUpper : Rune → Rune

/-- `unicode.ToLower`: the ASCII letters are folded directly (`'A'` = 0x41,
`'Z'` = 0x5A), every other rune through the case tables. -/
def unicodeToLower (U : CaseTables) (r : Rune) : Rune :=
  if r ≤ 0x7F then
    if 0x41 ≤ r ∧ r ≤ 0x5A then r + (0x61 - 0x41) else r
  else
    U.toLower r

/-- `unicode.ToUpper`: the ASCII letters are folded directly (`'a'` = 0x61,
`'z'` = 0x7A), every other rune through the case tables. -/
def unicodeToUpper (U : CaseTables) (r : Rune) : Rune :=
  if r ≤ 0x7F then
    if 0x61 ≤ r ∧ r ≤ 0x7A then r - (0x61 - 0x41) else r
  else
    U.toUpper r

/-- Whether every byte of the string is below `utf8.RuneSelf`. -/
def isASCII (s : GoString) : Bool := s.all (fun c => decide (c.toNat < 0x80))

/-- The ASCII branch of `strings.ToLower` on one byte: `c += 'a' - 'A'` for
`'A' <= c && c <= 'Z'`. -/
def asciiToLower (c : Char) : Char :=
  if 0x41 ≤ c.toNat ∧ c.toNat ≤ 0x5A then Char.ofNat (c.toNat + (0x61 - 0x41)) else c

/-- The ASCII branch of `strings.ToUpper` on one byte: `c -= 'a' - 'A'` for
`'a' <= c && c <= 'z'`. -/
def asciiToUpper (c : Char) : Char :=
  if 0x61 ≤ c.toNat ∧ c.toNat ≤ 0x7A then Char.ofNat (c.toNat - (0x61 - 0x41)) else c

/-- `strings.ToLower`: an all-ASCII string without an upper-case letter is
returned as it is, an all-ASCII string has its letters `A..Z` shifted, and
any other string is mapped rune by rune with `unicode.ToLower`. -/
def stringsToLower (U : CaseTables) (s : GoString) : GoString :=
  let hasUpper := s.any (fun c => decide (0x41 ≤ c.toNat ∧ c.toNat ≤ 0x5A))
  if isASCII s then
    if !hasUpper then s else s.map asciiToLower
  else
    stringsMap (unicodeToLower U) s

/-- `strings.ToUpper`: the mirror of `strings.ToLower`. -/
def stringsToUpper (U : CaseTables) (s : GoString) : GoString :=
  let hasLower := s.any (fun c => decide (0x61 ≤ c.toNat ∧ c.toNat ≤ 0x7A))
  if isASCII s then
    if !hasLower then s else s.map asciiToUpper
  else
    stringsMap (unicodeToUpper U) s

/-! ## Buffers and replacers -/

/-- A `bytes.Buffer`, as the text written to it since its last `Reset`. -/
structure Buffer where
  contents : GoString
deriving Repr, DecidableEq

/-- `(*bytes.Buffer).Reset`. -/
def Buffer.Reset (_b : Buffer) : Buffer := ⟨[]⟩

/-- `(*bytes.Buffer).String`. -/
def Buffer.String (b : Buffer) : GoString := b.contents

/-- `unsafeString`: the contents of the buffer as a string, the empty string
for an empty buffer. -/
def unsafeString (buf : Buffer) : GoString :=
  let tmp := buf.contents
  if tmp.length = 0 then [] else tmp

/-- A `*strings.Replacer`, as the function `Replace` it computes. -/
abbrev Replacer := GoString → GoString

/-- `(*strings.Replacer).WriteString(w, s)`: appends `Replace(s)` to `w`. -/
def Replacer.WriteString (r : Replacer) (w : Buffer) (s : GoString) : Buffer :=
  ⟨w.contents ++ r s⟩

/-- The package-level rule tables used by `conversion.go` and the helper
`parseRomajiDoubles`, all declared outside `conversion.go`. -/
structure Tables where
  moraicNRomaji : Replacer
  kanaToRomaji : Replacer
  phoneticRomaji : Replacer
  unphoneticRomaji : Replacer
  postRomajiSpecial : Replacer
  preHiragana : Replacer
  romajiToHiragana : Replacer
  postHiragana : Replacer
  preKatakana : Replacer
  romajiToKatakana : Replacer
  postKatakana : Replacer
  postKanaSpecial : Replacer
  sanitizeIsChecks : Replacer
  sanitizeIsChecksKanji : Replacer
  parseRomajiDoubles : List Rune → GoString

/-! ## The conversions

Each conversion takes the two buffers `a0`, `b0` handed out by `pool.Get()`. -/

/-- `ToRomajiCased`. -/
def ToRomajiCased (T : Tables) (a0 b0 : Buffer) (s : GoString) (phonetic : Bool) : GoString :=
  let a := a0.Reset
  let b := b0.Reset
  let a := T.moraicNRomaji.WriteString a s
  let b := T.kanaToRomaji.WriteString b (unsafeString a)
  let a := a.Reset
  let a :=
    if phonetic then T.phoneticRomaji.WriteString a (unsafeString b)
    else T.unphoneticRomaji.WriteString a (unsafeString b)
  let b := b.Reset
  let s := T.parseRomajiDoubles (toRunes (unsafeString a))
  let b := T.postRomajiSpecial.WriteString b s
  b.String

/-- `ToRomaji`. -/
def ToRomaji (U : CaseTables) (T : Tables) (a0 b0 : Buffer) (s : GoString)
    (phonetic : Bool) : GoString :=
  let s := ToRomajiCased T a0 b0 s phonetic
  let s := stringsToLower U s
  s

/-- `ToHiragana`. -/
def ToHiragana (U : CaseTables) (T : Tables) (a0 b0 : Buffer) (s : GoString) : GoString :=
  let a := a0.Reset
  let b := b0.Reset
  let s := stringsToLower U s
  let a := T.preHiragana.WriteString a s
  let b := T.romajiToHiragana.WriteString b (unsafeString a)
  let a := a.Reset
  let s := stringsMap KatakanaToHiragana (unsafeString b)
  let b := b.Reset
  let a := T.postHiragana.WriteString a s
  let b := T.postKanaSpecial.WriteString b (unsafeString a)
  b.String

/-- `ToKatakana`. -/
def ToKatakana (U : CaseTables) (T : Tables) (a0 b0 : Buffer) (s : GoString) : GoString :=
  let a := a0.Reset
  let b := b0.Reset
  let s := stringsToUpper U s
  let a := T.preKatakana.WriteString a s
  let b := T.romajiToKatakana.WriteString b (unsafeString a)
  let a := a.Reset
  let s := stringsMap HiraganaToKatakana (unsafeString b)
  let b := b.Reset
  let a := T.postKatakana.WriteString a s
  let b := T.postKanaSpecial.WriteString b (unsafeString a)
  b.String

/-- `ToKana`. -/
def ToKana (T : Tables) (a0 b0 : Buffer) (s : GoString) : GoString :=
  let a := a0.Reset
  let b := b0.Reset
  let a := T.preHiragana.WriteString a s
  let b := T.preKatakana.WriteString b (unsafeString a)
  let a := a.Reset
  let a := T.romajiToHiragana.WriteString a (unsafeString b)
  let b := b.Reset
  let b := T.romajiToKatakana.WriteString b (unsafeString a)
  let a := a.Reset
  let a := T.postHiragana.WriteString a (unsafeString b)
  let b := b.Reset
  let b := T.postKatakana.WriteString b (unsafeString a)
  let a := a.Reset
  let a := T.postKanaSpecial.WriteString a (unsafeString b)
  a.String

/-! ## The stage orders as the specification words them -/

/-- The stage order of the romaji-to-hiragana operation in the words of the
specification (§4.4): lowercase fold, pre-normalization, main table,
post-normalization, script swap, special-character normalization. -/
def ToHiragana_specOrder (U : CaseTables) (T : Tables) (s : GoString) : GoString :=
  T.postKanaSpecial (stringsMap KatakanaToHiragana
    (T.postHiragana (T.romajiToHiragana (T.preHiragana (stringsToLower U s)))))

/-- The stages of a romaji-to-kana pipeline: a case fold, three rewrites, the
per-rune swap and the final special-character rewrite. -/
structure KanaStages where
  fold : GoString → GoString
  pre : Replacer
  main : Replacer
  swap : Rune → Rune
  post : Replacer
  special : Replacer

/-- The stage sequence shared by the two romaji-to-kana pipelines. -/
def KanaStages.run (k : KanaStages) (s : GoString) : GoString :=
  k.special (k.post (stringsMap k.swap (k.main (k.pre (k.fold s)))))

/-- The stages of the hiragana pipeline. -/
def hiraganaStages (U : CaseTables) (T : Tables) : KanaStages :=
  { fold := stringsToLower U, pre := T.preHiragana, main := T.romajiToHiragana,
    swap := KatakanaToHiragana, post := T.postHiragana, special := T.postKanaSpecial }

/-- The katakana counterpart of each stage of the hiragana pipeline. -/
def katakanaStages (U : CaseTables) (T : Tables) : KanaStages :=
  { fold := stringsToUpper U, pre := T.preKatakana, main := T.romajiToKatakana,
    swap := HiraganaToKatakana, post := T.postKatakana, special := T.postKanaSpecial }

/-! ## Rule tables and the single-pass rewriter -/

/-- Modelled from the spec: a rule table (§3), the list of its entries
`(pattern, replacement)`. The tables of the package and the replacer that
applies them are declared outside `conversion.go`. -/
abbrev RuleTable := List (GoString × GoString)

/-- Whether `p` matches the input `s` at its first position. -/
def hasPrefix : GoString → GoString → Bool
  | _, [] => true
  | [], _ :: _ => false
  | c :: s, d :: p => c == d && hasPrefix s p

/-- Modelled from the spec: the rule-table query of §4.1, the entry with the
longest non-empty pattern that matches the input at its first position. -/
def longestMatch : RuleTable → GoString → Option (GoString × GoString)
  | [], _ => none
  | e :: t, s =>
    if e.1 ≠ [] ∧ hasPrefix s e.1 = true then
      match longestMatch t s with
      | some b => if e.1.length < b.1.length then some b else some e
      | none => some e
    else
      longestMatch t s

/-- Modelled from the spec: the scan of the single-pass rewriter of §4.1,
with `skip` the number of input scalars still covered by the last match. -/
def rewriteFrom (t : RuleTable) : Nat → GoString → GoString
  | _, [] => []
  | skip + 1, _ :: cs => rewriteFrom t skip cs
  | 0, c :: cs =>
    match longestMatch t (c :: cs) with
    | some e => e.2 ++ rewriteFrom t (e.1.length - 1) cs
    | none => c :: rewriteFrom t 0 cs

/-- Modelled from the spec: the single-pass rewriter of §4.1 over a rule
table, the replacer absent from `conversion.go`. -/
def rewrite (t : RuleTable) : Replacer := fun s => rewriteFrom t 0 s

/-- A rule table from pairs of string literals. -/
def rules (l : List (String × String)) : RuleTable :=
  l.map (fun e => (e.1.toList, e.2.toList))

/-! ## Sample tables -/

/-- Case tables for text whose scalars outside ASCII have no case mapping
(kana, kanji, CJK punctuation). -/
def caselessTables : CaseTables := { toLower := fun r => r, toUpper := fun r => r }

/-- Modelled from the spec: the kana-to-romaji gemination step of §4.2 on a
romaji result in which the small-tsu marks っ (U+3063) and ッ (U+30C3) are
still in place: a mark before a consonant letter becomes that letter (`t`
before `c`), any other mark becomes `x`. -/
def sampleParseRomajiDoubles : List Rune → GoString
  | [] => []
  | r :: rest =>
    let isConsonant (n : Rune) (a z : Rune) : Bool :=
      decide (a ≤ n ∧ n ≤ z) &&
        !(n - a = 0 || n - a = 4 || n - a = 8 || n - a = 14 || n - a = 20)
    let doubled (n : Rune) (a : Rune) : Char :=
      if n - a = 2 then runeToChar (a + 19) else runeToChar n
    let out : Char :=
      if r = 0x3063 then
        match rest with
        | n :: _ => if isConsonant n 0x61 0x7A then doubled n 0x61 else 'x'
        | [] => 'x'
      else if r = 0x30C3 then
        match rest with
        | n :: _ => if isConsonant n 0x41 0x5A then doubled n 0x41 else 'X'
        | [] => 'X'
      else runeToChar r
    out :: sampleParseRomajiDoubles rest

/-- Modelled from the spec: a fragment of the rule tables of the package,
with the entries that the examples of `conversion_test.go` exercise. Shorter
patterns are listed before the longer patterns they begin. -/
def sampleTables : Tables :=
  { moraicNRomaji := rewrite (rules
      [("んあ", "n'a"), ("んい", "n'i"), ("ンア", "N'A"), ("ンイ", "N'I")])
    kanaToRomaji := rewrite (rules
      [("か", "ka"), ("た", "ta"), ("な", "na"), ("て", "te"), ("てぃ", "ti"),
       ("ぃ", "xi"), ("ぱ", "pa"), ("ば", "ba"), ("べ", "be"), ("ん", "n"),
       ("カ", "KA"), ("タ", "TA"), ("ナ", "NA"), ("テ", "TE"), ("ティ", "TI"),
       ("ィ", "XI"), ("パ", "PA"), ("バ", "BA"), ("ベ", "BE"), ("ン", "N")])
    phoneticRomaji := rewrite (rules
      [("づ", "zu"), ("ぢ", "ji"), ("ヅ", "ZU"), ("ヂ", "JI")])
    unphoneticRomaji := rewrite (rules
      [("づ", "du"), ("ぢ", "di"), ("ヅ", "DU"), ("ヂ", "DI")])
    postRomajiSpecial := rewrite (rules [("ー", "-")])
    preHiragana := rewrite (rules [("kk", "っk"), ("tt", "っt")])
    romajiToHiragana := rewrite (rules
      [("ka", "か"), ("ta", "た"), ("na", "な"), ("te", "て"), ("ti", "てぃ"),
       ("ba", "ば"), ("be", "べ"), ("n", "ん")])
    postHiragana := rewrite (rules [])
    preKatakana := rewrite (rules [("KK", "ッK"), ("TT", "ッT")])
    romajiToKatakana := rewrite (rules
      [("KA", "カ"), ("TA", "タ"), ("NA", "ナ"), ("TE", "テ"), ("TI", "ティ"),
       ("BA", "バ"), ("BE", "ベ"), ("N", "ン")])
    postKatakana := rewrite (rules [])
    postKanaSpecial := rewrite (rules [("–", "ー"), ("-", "ー"), ("'", "")])
    sanitizeIsChecks := rewrite (rules [(" ", ""), ("　", ""), ("ー", "")])
    sanitizeIsChecksKanji := rewrite (rules [(" ", ""), ("　", "")])
    parseRomajiDoubles := sampleParseRomajiDoubles }

/-- Tables whose rewrites all copy their input, except that the
post-normalization of the hiragana pipeline rewrites `a` to the katakana ア. -/
def swapOrderTables : Tables :=
  { moraicNRomaji := rewrite []
    kanaToRomaji := rewrite []
    phoneticRomaji := rewrite []
    unphoneticRomaji := rewrite []
    postRomajiSpecial := rewrite []
    preHiragana := rewrite []
    romajiToHiragana := rewrite []
    postHiragana := rewrite (rules [("a", "ア")])
    preKatakana := rewrite []
    romajiToKatakana := rewrite []
    postKatakana := rewrite []
    postKanaSpecial := rewrite []
    sanitizeIsChecks := rewrite []
    sanitizeIsChecksKanji := rewrite []
    parseRomajiDoubles := fun rs => rs.map runeToChar }

/-! ## Script classification and extraction -/

/-- The table `unicode.Han` (script Han, Unicode 15.0.0). -/
def unicodeHan : RangeTable :=
  [ ⟨0x2E80, 0x2E99, 1⟩, ⟨0x2E9B, 0x2EF3, 1⟩, ⟨0x2F00, 0x2FD5, 1⟩,
    ⟨0x3005, 0x3007, 2⟩, ⟨0x3021, 0x3029, 1⟩, ⟨0x3038, 0x303B, 1⟩,
    ⟨0x3400, 0x4DBF, 1⟩, ⟨0x4E00, 0x9FFF, 1⟩, ⟨0xF900, 0xFA6D, 1⟩,
    ⟨0xFA70, 0xFAD9, 1⟩,
    ⟨0x16FE2, 0x16FE3, 1⟩, ⟨0x16FF0, 0x16FF1, 1⟩, ⟨0x20000, 0x2A6DF, 1⟩,
    ⟨0x2A700, 0x2B739, 1⟩, ⟨0x2B740, 0x2B81D, 1⟩, ⟨0x2B820, 0x2CEA1, 1⟩,
    ⟨0x2CEB0, 0x2EBE0, 1⟩, ⟨0x2F800, 0x2FA1D, 1⟩, ⟨0x30000, 0x3134A, 1⟩,
    ⟨0x31350, 0x323AF, 1⟩ ]

/-- The loop `for _, r := range s { if !unicode.In(r, tab) { return false } }
return true` of the `Is*` functions. -/
def rangeAllIn (tab : RangeTable) : GoString → Bool
  | [] => true
  | c :: cs => if !unicodeIn (c.toNat : Int) tab then false else rangeAllIn tab cs

/-- The loop `for _, r := range s { if unicode.In(r, tab) { return true } }
return false` of the `Contains*` functions. -/
def rangeAnyIn (tab : RangeTable) : GoString → Bool
  | [] => false
  | c :: cs => if unicodeIn (c.toNat : Int) tab then true else rangeAnyIn tab cs

/-- `IsKatakana`. -/
def IsKatakana (T : Tables) (s : GoString) : Bool :=
  let s := T.sanitizeIsChecks s
  if s = [] then false else rangeAllIn unicodeKatakana s

/-- `IsHiragana`. -/
def IsHiragana (T : Tables) (s : GoString) : Bool :=
  let s := T.sanitizeIsChecks s
  if s = [] then false else rangeAllIn unicodeHiragana s

/-- `IsKanji`. -/
def IsKanji (T : Tables) (s : GoString) : Bool :=
  let s := T.sanitizeIsChecksKanji s
  if s = [] then false else rangeAllIn unicodeHan s

/-- `ContainsKatakana`. -/
def ContainsKatakana (s : GoString) : Bool := rangeAnyIn unicodeKatakana s

/-- `ContainsHiragana`. -/
def ContainsHiragana (s : GoString) : Bool := rangeAnyIn unicodeHiragana s

/-- `ContainsKanji`. -/
def ContainsKanji (s : GoString) : Bool := rangeAnyIn unicodeHan s

/-- The loop of `ExtractKanji`, with `k` the slice built so far;
`string(r)` is the one-scalar string of `r`. -/
def extractKanjiLoop (k : List GoString) : GoString → List GoString
  | [] => k
  | c :: cs =>
    if unicodeIn (c.toNat : Int) unicodeHan then
      extractKanjiLoop (k ++ [[runeToChar (c.toNat : Int)]]) cs
    else
      extractKanjiLoop k cs

/-- `ExtractKanji`. -/
def ExtractKanji (s : GoString) : List GoString := extractKanjiLoop [] s

/-- Modelled from the spec: the replacer `sanitizeIsChecks`, declared outside
`conversion.go`, which deletes the separators allowed in the kana tests
(§4.5): the ASCII space, the ideographic space and the long-vowel mark. -/
def specSanitizeIsChecks : Replacer := rewrite (rules [(" ", ""), ("　", ""), ("ー", "")])

/-- Modelled from the spec: the replacer `sanitizeIsChecksKanji`, declared
outside `conversion.go`, which deletes the separators allowed in the kanji
test (§4.5): the ASCII space and the ideographic space. -/
def specSanitizeIsChecksKanji : Replacer := rewrite (rules [(" ", ""), ("　", "")])

/-- A separator of the kana tests: ASCII space, ideographic space or the
long-vowel mark. -/
def isKanaSeparator (c : Char) : Bool := c == ' ' || c == '　' || c == 'ー'

/-- A separator of the kanji test: ASCII space or ideographic space. -/
def isSpace (c : Char) : Bool := c == ' ' || c == '　'

/-! ## Spans and leftover kana -/

/-- A katakana scalar of the ranges that `KatakanaToHiragana` swaps. -/
def isSwappableKatakana (c : Char) : Bool :=
  (decide (0x30A1 ≤ c.toNat) && decide (c.toNat ≤ 0x30F6)) ||
    (decide (0x30FD ≤ c.toNat) && decide (c.toNat ≤ 0x30FE))

/-- A hiragana scalar of the ranges that `HiraganaToKatakana` swaps. -/
def isSwappableHiragana (c : Char) : Bool :=
  (decide (0x3041 ≤ c.toNat) && decide (c.toNat ≤ 0x3096)) ||
    (decide (0x309D ≤ c.toNat) && decide (c.toNat ≤ 0x309E))

/-- A stage keeps the span `w`: whenever `w` occurs in its input, `w` occurs
in its output. -/
def KeepsSpan (f : GoString → GoString) (w : GoString) : Prop :=
  ∀ x, w <:+: x → w <:+: f x

/-- Every rewriting stage of the conversions keeps the span `w`. -/
def Tables.KeepsSpan (T : Tables) (w : GoString) : Prop :=
  Kana.KeepsSpan T.moraicNRomaji w ∧ Kana.KeepsSpan T.kanaToRomaji w ∧
  Kana.KeepsSpan T.phoneticRomaji w ∧ Kana.KeepsSpan T.unphoneticRomaji w ∧
  Kana.KeepsSpan (fun x => T.parseRomajiDoubles (toRunes x)) w ∧
  Kana.KeepsSpan T.postRomajiSpecial w ∧
  Kana.KeepsSpan T.preHiragana w ∧ Kana.KeepsSpan T.romajiToHiragana w ∧
  Kana.KeepsSpan T.postHiragana w ∧
  Kana.KeepsSpan T.preKatakana w ∧ Kana.KeepsSpan T.romajiToKatakana w ∧
  Kana.KeepsSpan T.postKatakana w ∧
  Kana.KeepsSpan T.postKanaSpecial w

/-! ## Rule tables modelled from the specification and the test vectors -/

/-- Modelled from the spec: the hiragana morae and their romaji spelling, the
pairs with a hiragana key of `TestToRomajiEquivalents` in `conversion_test.go`;
the rule tables themselves are declared outside `conversion.go`. -/
def hiraganaRomaji : List (String × String) :=
  [("か", "ka"), ("き", "ki"), ("く", "ku"), ("け", "ke"), ("こ", "ko"), ("さ", "sa"), ("し", "shi"),
   ("す", "su"), ("せ", "se"), ("そ", "so"), ("た", "ta"), ("ち", "chi"), ("つ", "tsu"), ("て", "te"),
   ("と", "to"), ("な", "na"), ("に", "ni"), ("ぬ", "nu"), ("ね", "ne"), ("の", "no"), ("は", "ha"),
   ("ひ", "hi"), ("ふ", "fu"), ("へ", "he"), ("ほ", "ho"), ("ま", "ma"), ("み", "mi"), ("む", "mu"),
   ("め", "me"), ("も", "mo"), ("や", "ya"), ("ゆ", "yu"), ("よ", "yo"), ("ら", "ra"), ("り", "ri"),
   ("る", "ru"), ("れ", "re"), ("ろ", "ro"), ("わ", "wa"), ("を", "wo"), ("が", "ga"), ("ぎ", "gi"),
   ("ぐ", "gu"), ("げ", "ge"), ("ご", "go"), ("ざ", "za"), ("じ", "ji"), ("ず", "zu"), ("ぜ", "ze"),
   ("ぞ", "zo"), ("だ", "da"), ("ぢ", "di"), ("づ", "du"), ("で", "de"), ("ど", "do"), ("ば", "ba"),
   ("び", "bi"), ("ぶ", "bu"), ("べ", "be"), ("ぼ", "bo"), ("ぱ", "pa"), ("ぴ", "pi"), ("ぷ", "pu"),
   ("ぺ", "pe"), ("ぽ", "po"), ("きゃ", "kya"), ("きゅ", "kyu"), ("きょ", "kyo"), ("しゃ", "sha"),
   ("しゅ", "shu"), ("しょ", "sho"), ("ちゃ", "cha"), ("ちゅ", "chu"), ("ちょ", "cho"), ("にゃ", "nya"),
   ("にゅ", "nyu"), ("にょ", "nyo"), ("ひゃ", "hya"), ("ひゅ", "hyu"), ("ひょ", "hyo"), ("みゃ", "mya"),
   ("みゅ", "myu"), ("みょ", "myo"), ("りゃ", "rya"), ("りゅ", "ryu"), ("りょ", "ryo"), ("ぎゃ", "gya"),
   ("ぎゅ", "gyu"), ("ぎょ", "gyo"), ("じゃ", "ja"), ("じゅ", "ju"), ("じょ", "jo"), ("ぢゃ", "dya"),
   ("ぢゅ", "dyu"), ("ぢょ", "dyo"), ("びゃ", "bya"), ("びゅ", "byu"), ("びょ", "byo"), ("ぴゃ", "pya"),
   ("ぴゅ", "pyu"), ("ぴょ", "pyo"), ("いぃ", "yi"), ("いぇ", "ye"), ("ゐ", "wi"), ("うぅ", "wu"),
   ("うぇ", "we"), ("うゅ", "wyu"), ("ゔぁ", "va"), ("ゔぃ", "vi"), ("ゔ", "vu"), ("ゔぇ", "ve"),
   ("ゔぉ", "vo"), ("ゔゃ", "vya"), ("ゔゅ", "vyu"), ("ゔぃぇ", "vye"), ("ゔょ", "vyo"), ("きぇ", "kye"),
   ("ぎぇ", "gye"), ("くぁ", "kwa"), ("くぃ", "kwi"), ("くぇ", "kwe"), ("くぅ", "kwu"), ("くぉ", "kwo"),
   ("ぐぁ", "gwa"), ("ぐぃ", "gwi"), ("ぐぇ", "gwe"), ("ぐぉ", "gwo"), ("ぐぅ", "gwu"), ("しぇ", "she"),
   ("じぇ", "je"), ("すぃ", "si"), ("ずぃ", "zi"), ("ちぇ", "che"), ("つぁ", "tsa"), ("つぇ", "tse"),
   ("つぃ", "tsi"), ("つぉ", "tso"), ("つゅ", "tsyu"), ("てぃ", "ti"), ("とぅ", "tu"), ("にぇ", "nye"),
   ("ひぇ", "hye"), ("びぇ", "bye"), ("ぴぇ", "pye"), ("ふぁ", "fa"), ("ふぃ", "fi"), ("ふぇ", "fe"),
   ("ふぉ", "fo"), ("ふゃ", "fya"), ("ふゅ", "fyu"), ("ふょ", "fyo"), ("ふぅ", "hu"), ("みぇ", "mye"),
   ("りぇ", "rye"), ("あ", "a"), ("い", "i"), ("う", "u"), ("え", "e"), ("お", "o"), ("ん", "n"),
   ("ぁ", "xa"), ("ぃ", "xi"), ("ぅ", "xu"), ("ぇ", "xe"), ("ぉ", "xo")]

/-- Modelled from the spec: the katakana morae and their romaji spelling in the
uppercase register of `ToRomajiCased`, the pairs with a katakana key of
`TestToRomajiEquivalents` in `conversion_test.go`. -/
def katakanaRomaji : List (String × String) :=
  [("キャ", "KYA"), ("キュ", "KYU"), ("キョ", "KYO"), ("シャ", "SHA"), ("シュ", "SHU"), ("ショ", "SHO"),
   ("チャ", "CHA"), ("チュ", "CHU"), ("チョ", "CHO"), ("ニャ", "NYA"), ("ニュ", "NYU"), ("ニョ", "NYO"),
   ("ヒャ", "HYA"), ("ヒュ", "HYU"), ("ヒョ", "HYO"), ("ミャ", "MYA"), ("ミュ", "MYU"), ("ミョ", "MYO"),
   ("リャ", "RYA"), ("リュ", "RYU"), ("リョ", "RYO"), ("ギャ", "GYA"), ("ギュ", "GYU"), ("ギョ", "GYO"),
   ("ジャ", "JA"), ("ジュ", "JU"), ("ジョ", "JO"), ("ヂャ", "DYA"), ("ヂュ", "DYU"), ("ヂョ", "DYO"),
   ("ビャ", "BYA"), ("ビュ", "BYU"), ("ビョ", "BYO"), ("ピャ", "PYA"), ("ピュ", "PYU"), ("ピョ", "PYO"),
   ("イィ", "YI"), ("イェ", "YE"), ("ウゥ", "WU"), ("ウェ", "WE"), ("ウュ", "WYU"), ("ヴァ", "VA"),
   ("ヴィ", "VI"), ("ヴ", "VU"), ("ヴェ", "VE"), ("ヴォ", "VO"), ("ヴャ", "VYA"), ("ヴュ", "VYU"),
   ("ヴィェ", "VYE"), ("ヴョ", "VYO"), ("キェ", "KYE"), ("ギェ", "GYE"), ("クァ", "KWA"), ("クィ", "KWI"),
   ("クェ", "KWE"), ("クゥ", "KWU"), ("クォ", "KWO"), ("グァ", "GWA"), ("グィ", "GWI"), ("グェ", "GWE"),
   ("グォ", "GWO"), ("グゥ", "GWU"), ("シェ", "SHE"), ("ジェ", "JE"), ("スィ", "SI"), ("ズィ", "ZI"),
   ("チェ", "CHE"), ("ツァ", "TSA"), ("ツェ", "TSE"), ("ツィ", "TSI"), ("ツォ", "TSO"), ("ツュ", "TSYU"),
   ("ティ", "TI"), ("トゥ", "TU"), ("ニェ", "NYE"), ("ヒェ", "HYE"), ("ビェ", "BYE"), ("ピェ", "PYE"),
   ("ファ", "FA"), ("フィ", "FI"), ("フェ", "FE"), ("フォ", "FO"), ("フャ", "FYA"), ("フュ", "FYU"),
   ("フョ", "FYO"), ("ホゥ", "HU"), ("ミェ", "MYE"), ("リェ", "RYE"), ("カ", "KA"), ("キ", "KI"),
   ("ク", "KU"), ("ケ", "KE"), ("コ", "KO"), ("サ", "SA"), ("シ", "SHI"), ("ス", "SU"), ("セ", "SE"),
   ("ソ", "SO"), ("タ", "TA"), ("チ", "CHI"), ("ツ", "TSU"), ("テ", "TE"), ("ト", "TO"), ("ナ", "NA"),
   ("ニ", "NI"), ("ヌ", "NU"), ("ネ", "NE"), ("ノ", "NO"), ("ハ", "HA"), ("ヒ", "HI"), ("フ", "FU"),
   ("ヘ", "HE"), ("ホ", "HO"), ("マ", "MA"), ("ミ", "MI"), ("ム", "MU"), ("メ", "ME"), ("モ", "MO"),
   ("ヤ", "YA"), ("ユ", "YU"), ("ヨ", "YO"), ("ラ", "RA"), ("リ", "RI"), ("ル", "RU"), ("レ", "RE"),
   ("ロ", "RO"), ("ワ", "WA"), ("ヲ", "WO"), ("ガ", "GA"), ("ギ", "GI"), ("グ", "GU"), ("ゲ", "GE"),
   ("ゴ", "GO"), ("ザ", "ZA"), ("ジ", "JI"), ("ズ", "ZU"), ("ゼ", "ZE"), ("ゾ", "ZO"), ("ダ", "DA"),
   ("ヂ", "DI"), ("ヅ", "DU"), ("デ", "DE"), ("ド", "DO"), ("バ", "BA"), ("ビ", "BI"), ("ブ", "BU"),
   ("ベ", "BE"), ("ボ", "BO"), ("パ", "PA"), ("ピ", "PI"), ("プ", "PU"), ("ペ", "PE"), ("ポ", "PO"),
   ("ウィ", "WI"), ("ア", "A"), ("イ", "I"), ("ウ", "U"), ("エ", "E"), ("オ", "O"), ("ン", "N"),
   ("ァ", "XA"), ("ィ", "XI"), ("ゥ", "XU"), ("ェ", "XE"), ("ォ", "XO")]

/-- Modelled from the spec: the romaji spellings accepted for hiragana, the
pairs of `TestToHiraganaEquivalents` and the small-letter forms of
`TestToHiraganaShouldConvertXxToSmall` in `conversion_test.go`. -/
def romajiHiragana : List (String × String) :=
  [("ka", "か"), ("ki", "き"), ("ku", "く"), ("ke", "け"), ("ko", "こ"), ("sa", "さ"), ("shi", "し"),
   ("su", "す"), ("se", "せ"), ("so", "そ"), ("ta", "た"), ("chi", "ち"), ("tsu", "つ"), ("te", "て"),
   ("to", "と"), ("na", "な"), ("ni", "に"), ("nu", "ぬ"), ("ne", "ね"), ("no", "の"), ("ha", "は"),
   ("hi", "ひ"), ("fu", "ふ"), ("he", "へ"), ("ho", "ほ"), ("ma", "ま"), ("mi", "み"), ("mu", "む"),
   ("me", "め"), ("mo", "も"), ("ya", "や"), ("yu", "ゆ"), ("yo", "よ"), ("ra", "ら"), ("ri", "り"),
   ("ru", "る"), ("re", "れ"), ("ro", "ろ"), ("wa", "わ"), ("wo", "を"), ("ga", "が"), ("gi", "ぎ"),
   ("gu", "ぐ"), ("ge", "げ"), ("go", "ご"), ("za", "ざ"), ("ji", "じ"), ("zu", "ず"), ("ze", "ぜ"),
   ("zo", "ぞ"), ("da", "だ"), ("di", "ぢ"), ("du", "づ"), ("de", "で"), ("do", "ど"), ("ba", "ば"),
   ("bi", "び"), ("bu", "ぶ"), ("be", "べ"), ("bo", "ぼ"), ("pa", "ぱ"), ("pi", "ぴ"), ("pu", "ぷ"),
   ("pe", "ぺ"), ("po", "ぽ"), ("kya", "きゃ"), ("kyu", "きゅ"), ("kyo", "きょ"), ("sha", "しゃ"),
   ("shu", "しゅ"), ("sho", "しょ"), ("cha", "ちゃ"), ("chu", "ちゅ"), ("cho", "ちょ"), ("nya", "にゃ"),
   ("nyu", "にゅ"), ("nyo", "にょ"), ("hya", "ひゃ"), ("hyu", "ひゅ"), ("hyo", "ひょ"), ("mya", "みゃ"),
   ("myu", "みゅ"), ("myo", "みょ"), ("rya", "りゃ"), ("ryu", "りゅ"), ("ryo", "りょ"), ("gya", "ぎゃ"),
   ("gyu", "ぎゅ"), ("gyo", "ぎょ"), ("ja", "じゃ"), ("ju", "じゅ"), ("jo", "じょ"), ("jya", "じゃ"),
   ("jyu", "じゅ"), ("jyo", "じょ"), ("dya", "ぢゃ"), ("dyu", "ぢゅ"), ("dyo", "ぢょ"), ("bya", "びゃ"),
   ("byu", "びゅ"), ("byo", "びょ"), ("pya", "ぴゃ"), ("pyu", "ぴゅ"), ("pyo", "ぴょ"), ("yi", "いぃ"),
   ("ye", "いぇ"), ("wi", "ゐ"), ("wu", "うぅ"), ("we", "うぇ"), ("wyu", "うゅ"), ("va", "ゔぁ"),
   ("vi", "ゔぃ"), ("vu", "ゔ"), ("ve", "ゔぇ"), ("vo", "ゔぉ"), ("vya", "ゔゃ"), ("vyu", "ゔゅ"),
   ("vye", "ゔぃぇ"), ("vyo", "ゔょ"), ("kye", "きぇ"), ("gye", "ぎぇ"), ("kwa", "くぁ"), ("kwi", "くぃ"),
   ("kwe", "くぇ"), ("kwu", "くぅ"), ("kwo", "くぉ"), ("gwa", "ぐぁ"), ("gwi", "ぐぃ"), ("gwe", "ぐぇ"),
   ("gwo", "ぐぉ"), ("gwu", "ぐぅ"), ("she", "しぇ"), ("je", "じぇ"), ("si", "すぃ"), ("zi", "ずぃ"),
   ("che", "ちぇ"), ("tsa", "つぁ"), ("tse", "つぇ"), ("tsi", "つぃ"), ("tso", "つぉ"), ("tsyu", "つゅ"),
   ("ti", "てぃ"), ("tu", "とぅ"), ("tyu", "ちゅ"), ("nye", "にぇ"), ("hye", "ひぇ"), ("bye", "びぇ"),
   ("pye", "ぴぇ"), ("fa", "ふぁ"), ("fi", "ふぃ"), ("fe", "ふぇ"), ("fo", "ふぉ"), ("fya", "ふゃ"),
   ("fyu", "ふゅ"), ("fye", "ふぇ"), ("fyo", "ふょ"), ("hu", "ふぅ"), ("mye", "みぇ"), ("rye", "りぇ"),
   ("la", "ら"), ("li", "り"), ("lu", "る"), ("le", "れ"), ("lo", "ろ"), ("qa", "くぁ"), ("qi", "くぃ"),
   ("qe", "くぇ"), ("qo", "くぉ"), ("qu", "くぅ"), ("a", "あ"), ("i", "い"), ("u", "う"), ("e", "え"),
   ("o", "お"), ("n", "ん"), ("xa", "ぁ"), ("xi", "ぃ"), ("xu", "ぅ"), ("xe", "ぇ"), ("xo", "ぉ")]

/-- Modelled from the spec: the romaji spellings accepted for katakana, in the
uppercase register that `ToKatakana` folds its input to, the pairs of
`TestToKatakanaEquivalents` and the small-letter forms of
`TestToKatakanaShouldConvertXxToSmall` in `conversion_test.go`. -/
def romajiKatakana : List (String × String) :=
  [("KA", "カ"), ("KI", "キ"), ("KU", "ク"), ("KE", "ケ"), ("KO", "コ"), ("SA", "サ"), ("SHI", "シ"),
   ("SU", "ス"), ("SE", "セ"), ("SO", "ソ"), ("TA", "タ"), ("CHI", "チ"), ("TSU", "ツ"), ("TE", "テ"),
   ("TO", "ト"), ("NA", "ナ"), ("NI", "ニ"), ("NU", "ヌ"), ("NE", "ネ"), ("NO", "ノ"), ("HA", "ハ"),
   ("HI", "ヒ"), ("FU", "フ"), ("HE", "ヘ"), ("HO", "ホ"), ("MA", "マ"), ("MI", "ミ"), ("MU", "ム"),
   ("ME", "メ"), ("MO", "モ"), ("YA", "ヤ"), ("YU", "ユ"), ("YO", "ヨ"), ("RA", "ラ"), ("RI", "リ"),
   ("RU", "ル"), ("RE", "レ"), ("RO", "ロ"), ("WA", "ワ"), ("WO", "ヲ"), ("GA", "ガ"), ("GI", "ギ"),
   ("GU", "グ"), ("GE", "ゲ"), ("GO", "ゴ"), ("ZA", "ザ"), ("JI", "ジ"), ("ZU", "ズ"), ("ZE", "ゼ"),
   ("ZO", "ゾ"), ("DA", "ダ"), ("DI", "ヂ"), ("DU", "ヅ"), ("DE", "デ"), ("DO", "ド"), ("BA", "バ"),
   ("BI", "ビ"), ("BU", "ブ"), ("BE", "ベ"), ("BO", "ボ"), ("PA", "パ"), ("PI", "ピ"), ("PU", "プ"),
   ("PE", "ペ"), ("PO", "ポ"), ("KYA", "キャ"), ("KYU", "キュ"), ("KYO", "キョ"), ("SHA", "シャ"),
   ("SHU", "シュ"), ("SHO", "ショ"), ("CHA", "チャ"), ("CHU", "チュ"), ("CHO", "チョ"), ("NYA", "ニャ"),
   ("NYU", "ニュ"), ("NYO", "ニョ"), ("HYA", "ヒャ"), ("HYU", "ヒュ"), ("HYO", "ヒョ"), ("MYA", "ミャ"),
   ("MYU", "ミュ"), ("MYO", "ミョ"), ("RYA", "リャ"), ("RYU", "リュ"), ("RYO", "リョ"), ("GYA", "ギャ"),
   ("GYU", "ギュ"), ("GYO", "ギョ"), ("JA", "ジャ"), ("JU", "ジュ"), ("JO", "ジョ"), ("JYA", "ジャ"),
   ("JYU", "ジュ"), ("JYO", "ジョ"), ("DYA", "ヂャ"), ("DYU", "ヂュ"), ("DYO", "ヂョ"), ("BYA", "ビャ"),
   ("BYU", "ビュ"), ("BYO", "ビョ"), ("PYA", "ピャ"), ("PYU", "ピュ"), ("PYO", "ピョ"), ("YI", "イィ"),
   ("YE", "イェ"), ("WI", "ウィ"), ("WU", "ウゥ"), ("WE", "ウェ"), ("WYU", "ウュ"), ("VA", "ヴァ"),
   ("VI", "ヴィ"), ("VU", "ヴ"), ("VE", "ヴェ"), ("VO", "ヴォ"), ("VYA", "ヴャ"), ("VYU", "ヴュ"),
   ("VYE", "ヴィェ"), ("VYO", "ヴョ"), ("KYE", "キェ"), ("GYE", "ギェ"), ("KWA", "クァ"), ("KWI", "クィ"),
   ("KWE", "クェ"), ("KWU", "クゥ"), ("KWO", "クォ"), ("GWA", "グァ"), ("GWI", "グィ"), ("GWE", "グェ"),
   ("GWO", "グォ"), ("GWU", "グゥ"), ("SHE", "シェ"), ("JE", "ジェ"), ("SI", "スィ"), ("ZI", "ズィ"),
   ("CHE", "チェ"), ("TSA", "ツァ"), ("TSE", "ツェ"), ("TSI", "ツィ"), ("TSO", "ツォ"), ("TSYU", "ツュ"),
   ("TI", "ティ"), ("TU", "トゥ"), ("TYU", "テュ"), ("NYE", "ニェ"), ("HYE", "ヒェ"), ("BYE", "ビェ"),
   ("PYE", "ピェ"), ("FA", "ファ"), ("FI", "フィ"), ("FE", "フェ"), ("FO", "フォ"), ("FYA", "フャ"),
   ("FYU", "フュ"), ("FYE", "フィェ"), ("FYO", "フョ"), ("HU", "ホゥ"), ("MYE", "ミェ"), ("RYE", "リェ"),
   ("LA", "ラ"), ("LI", "リ"), ("LU", "ル"), ("LE", "レ"), ("LO", "ロ"), ("QA", "クァ"), ("QI", "クィ"),
   ("QE", "クェ"), ("QO", "クォ"), ("QU", "クヮ"), ("A", "ア"), ("I", "イ"), ("U", "ウ"), ("E", "エ"),
   ("O", "オ"), ("N", "ン"), ("XA", "ァ"), ("XI", "ィ"), ("XU", "ゥ"), ("XE", "ェ"), ("XO", "ォ")]

/-- Whether the scalar is an ASCII consonant letter other than `n`/`N`, the
letters whose doubling spells a geminate (§4.2). -/
def isGeminable (c : Char) : Bool :=
  ((decide (0x61 ≤ c.toNat) && decide (c.toNat ≤ 0x7A)) ||
      (decide (0x41 ≤ c.toNat) && decide (c.toNat ≤ 0x5A))) &&
    !("aiueonAIUEON".toList.contains c)

/-- Modelled from the spec: the gemination rules of §4.2 in kana form, for a
main table `(romaji, kana)`: the first letter of a doubled consonant, left
before the mora built from the second one, becomes the small tsu; before a
mora spelled with `ch` the letter `t` is accepted as well as `c`. -/
def geminationRules (tsu t c : Char) (main : RuleTable) : RuleTable :=
  main.flatMap (fun e =>
    match e.1 with
    | [] => []
    | h :: _ =>
      if isGeminable h then
        if h == c then [(c :: e.2, tsu :: e.2), (t :: e.2, tsu :: e.2)]
        else [(h :: e.2, tsu :: e.2)]
      else [])

/-- Modelled from the spec: the moraic-n rules of §4.3 in the kana-to-romaji
direction: a nasal ん/ン before a vowel kana or a y-glide kana is written `n`
and an apostrophe, in the register of the nasal. -/
def moraicNRules : RuleTable :=
  "んン".toList.flatMap (fun n =>
    "あいうえおやゆよアイウエオヤユヨ".toList.map (fun v =>
      ([n, v], (if n == 'ん' then "n'" else "N'").toList ++ [v])))

/-- Modelled from the spec: the main kana-to-romaji table, hiragana in
lowercase and katakana in uppercase; the two irregular syllables づ/ぢ are
left to the phonetic/literal stage and the small tsu to
`parseRomajiDoubles`. -/
def kanaToRomajiRules : RuleTable :=
  rules ((hiraganaRomaji ++ katakanaRomaji).filter
    (fun e => !(["づ", "ぢ", "ヅ", "ヂ"].contains e.1)))

/-- Modelled from the spec: the pronounced spelling of the two irregular
syllables. -/
def phoneticRules : RuleTable :=
  rules [("づ", "zu"), ("ぢ", "ji"), ("ヅ", "ZU"), ("ヂ", "JI")]

/-- Modelled from the spec: the literal spelling of the two irregular
syllables. -/
def unphoneticRules : RuleTable :=
  rules [("づ", "du"), ("ぢ", "di"), ("ヅ", "DU"), ("ヂ", "DI")]

/-- Modelled from the spec: the special characters of the romaji output, the
long-vowel mark written as a plain dash. -/
def postRomajiRules : RuleTable := rules [("ー", "-")]

/-- Modelled from the spec: the post-normalization of the hiragana pipeline,
gemination and the small tsu written `x`, in kana form. -/
def postHiraganaRules : RuleTable :=
  geminationRules 'っ' 't' 'c' (rules romajiHiragana) ++ rules [("x", "っ")]

/-- Modelled from the spec: the post-normalization of the katakana pipeline. -/
def postKatakanaRules : RuleTable :=
  geminationRules 'ッ' 'T' 'C' (rules romajiKatakana) ++ rules [("X", "ッ")]

/-- Modelled from the spec: the special characters of the kana output, dash
variants written as the long-vowel mark and apostrophes deleted. -/
def postKanaRules : RuleTable := rules [("–", "ー"), ("-", "ー"), ("'", "")]

/-- Modelled from the spec: the rule tables of the package as the
specification describes them (§4.1–§4.4), with the morae of the test
vectors; the pre-normalization stages rewrite nothing besides the case fold
done by the conversions. -/
def specTables : Tables :=
  { moraicNRomaji := rewrite moraicNRules
    kanaToRomaji := rewrite kanaToRomajiRules
    phoneticRomaji := rewrite phoneticRules
    unphoneticRomaji := rewrite unphoneticRules
    postRomajiSpecial := rewrite postRomajiRules
    preHiragana := rewrite []
    romajiToHiragana := rewrite (rules romajiHiragana)
    postHiragana := rewrite postHiraganaRules
    preKatakana := rewrite []
    romajiToKatakana := rewrite (rules romajiKatakana)
    postKatakana := rewrite postKatakanaRules
    postKanaSpecial := rewrite postKanaRules
    sanitizeIsChecks := specSanitizeIsChecks
    sanitizeIsChecksKanji := specSanitizeIsChecksKanji
    parseRomajiDoubles := sampleParseRomajiDoubles }

/-- The vowel kana and the y-glide kana, in both scripts (§4.3). -/
def vowelOrGlideKana : List Char := "あいうえおやゆよアイウエオヤユヨ".toList

/-- A small-tsu mark, っ or ッ. -/
def isSmallTsu (c : Char) : Bool := c == 'っ' || c == 'ッ'

/-- The letter written for a small tsu before a mora whose romaji begins with
the consonant letter `h`: `t` before `c`, the letter itself otherwise. -/
def geminateLetter (h : Char) : Char := if h = 'c' then 't' else h

/-- The apostrophe U+0027 that separates a moraic n from a following vowel
or glide in romaji. -/
def apostrophe : Char := Char.ofNat 0x27

/-! ## Test vectors -/

/-- The vectors of `TestToHiraganaShouldConvertDoubleConsonants` in
`conversion_test.go`: input and expected output. -/
def geminationToHiraganaVectors : List (String × String) :=
  [("babba", "ばっば"), ("dadda", "だっだ"), ("faffa", "ふぁっふぁ"), ("gagga", "がっが"), ("hahha", "はっは"),
   ("jajja", "じゃっじゃ"), ("kakka", "かっか"), ("pappa", "ぱっぱ"), ("qaqqa", "くぁっくぁ"), ("lalla", "らっら"),
   ("rarra", "らっら"), ("sassa", "さっさ"), ("tatta", "たった"), ("vavva", "ゔぁっゔぁ"), ("wawwa", "わっわ"),
   ("xaxxa", "ぁっぁ"), ("yayya", "やっや"), ("zazza", "ざっざ"), ("maccha", "まっちゃ"), ("matcha", "まっちゃ"),
   ("kotchi", "こっち"), ("zasshi", "ざっし"), ("issho", "いっしょ")]

/-! ## The conversions with the index of `unsafeString` made explicit -/

/-- `unsafeString` with its index expression `&tmp[0]` made explicit: `none`
stands for the run-time panic of an index out of range. -/
def unsafeString_checked (buf : Buffer) : Option GoString :=
  let tmp := buf.contents
  if tmp.length = 0 then some []
  else
    match tmp[0]? with
    | some _ => some tmp
    | none => none

/-- `ToRomajiCased`, every `unsafeString` with its index made explicit. -/
def ToRomajiCased_checked (T : Tables) (a0 b0 : Buffer) (s : GoString) (phonetic : Bool) :
    Option GoString := do
  let a := a0.Reset
  let b := b0.Reset
  let a := T.moraicNRomaji.WriteString a s
  let b := T.kanaToRomaji.WriteString b (← unsafeString_checked a)
  let a := a.Reset
  let a ←
    if phonetic then (do pure (T.phoneticRomaji.WriteString a (← unsafeString_checked b)))
    else (do pure (T.unphoneticRomaji.WriteString a (← unsafeString_checked b)))
  let b := b.Reset
  let s := T.parseRomajiDoubles (toRunes (← unsafeString_checked a))
  let b := T.postRomajiSpecial.WriteString b s
  pure b.String

/-- `ToRomaji`, over `ToRomajiCased_checked`. -/
def ToRomaji_checked (U : CaseTables) (T : Tables) (a0 b0 : Buffer) (s : GoString)
    (phonetic : Bool) : Option GoString := do
  let s ← ToRomajiCased_checked T a0 b0 s phonetic
  let s := stringsToLower U s
  pure s

/-- `ToHiragana`, every `unsafeString` with its index made explicit. -/
def ToHiragana_checked (U : CaseTables) (T : Tables) (a0 b0 : Buffer) (s : GoString) :
    Option GoString := do
  let a := a0.Reset
  let b := b0.Reset
  let s := stringsToLower U s
  let a := T.preHiragana.WriteString a s
  let b := T.romajiToHiragana.WriteString b (← unsafeString_checked a)
  let a := a.Reset
  let s := stringsMap KatakanaToHiragana (← unsafeString_checked b)
  let b := b.Reset
  let a := T.postHiragana.WriteString a s
  let b := T.postKanaSpecial.WriteString b (← unsafeString_checked a)
  pure b.String

/-- `ToKatakana`, every `unsafeString` with its index made explicit. -/
def ToKatakana_checked (U : CaseTables) (T : Tables) (a0 b0 : Buffer) (s : GoString) :
    Option GoString := do
  let a := a0.Reset
  let b := b0.Reset
  let s := stringsToUpper U s
  let a := T.preKatakana.WriteString a s
  let b := T.romajiToKatakana.WriteString b (← unsafeString_checked a)
  let a := a.Reset
  let s := stringsMap HiraganaToKatakana (← unsafeString_checked b)
  let b := b.Reset
  let a := T.postKatakana.WriteString a s
  let b := T.postKanaSpecial.WriteString b (← unsafeString_checked a)
  pure b.String

/-- `ToKana`, every `unsafeString` with its index made explicit. -/
def ToKana_checked (T : Tables) (a0 b0 : Buffer) (s : GoString) : Option GoString := do
  let a := a0.Reset
  let b := b0.Reset
  let a := T.preHiragana.WriteString a s
  let b := T.preKatakana.WriteString b (← unsafeString_checked a)
  let a := a.Reset
  let a := T.romajiToHiragana.WriteString a (← unsafeString_checked b)
  let b := b.Reset
  let b := T.romajiToKatakana.WriteString b (← unsafeString_checked a)
  let a := a.Reset
  let a := T.postHiragana.WriteString a (← unsafeString_checked b)
  let b := b.Reset
  let b := T.postKatakana.WriteString b (← unsafeString_checked a)
  let a := a.Reset
  let a := T.postKanaSpecial.WriteString a (← unsafeString_checked b)
  pure a.String

/-- One of the two irregular syllables づ and ぢ, in either script. -/
def isIrregularKana (c : Char) : Bool := c == 'づ' || c == 'ぢ' || c == 'ヅ' || c == 'ヂ'

/-! ## Morae and the round trip through romaji -/

/-- An ASCII letter. -/
def isAsciiLetter (c : Char) : Bool :=
  (decide (0x41 ≤ c.toNat) && decide (c.toNat ≤ 0x5A)) ||
    (decide (0x61 ≤ c.toNat) && decide (c.toNat ≤ 0x7A))

/-- The romaji spelling of one mora: letters that are no vowel, then one
final vowel letter of `vowels`. -/
def isMoraSpelling (vowels : List Char) : GoString → Bool
  | [] => false
  | [c] => vowels.contains c
  | c :: d :: cs => !vowels.contains c && isMoraSpelling vowels (d :: cs)

/-- A lowercase ASCII letter. -/
def isLowerLetter (c : Char) : Bool := decide (0x61 ≤ c.toNat) && decide (c.toNat ≤ 0x7A)

/-- An uppercase ASCII letter. -/
def isUpperLetter (c : Char) : Bool := decide (0x41 ≤ c.toNat) && decide (c.toNat ≤ 0x5A)

/-- Whether `s` is a sequence of morae as the table `t` reads it: at each
position the longest pattern of `t` that matches belongs to an entry accepted
by `ok`, or no pattern matches and the scalar is accepted by `lone`, and the
rest is such a sequence; `n` bounds the number of morae. -/
def builtFromMorae (t : RuleTable) (ok : GoString × GoString → Bool) (lone : Char → Bool) :
    Nat → GoString → Bool
  | _, [] => true
  | 0, _ :: _ => false
  | n + 1, c :: cs =>
    match longestMatch t (c :: cs) with
    | some e => ok e && builtFromMorae t ok lone n ((c :: cs).drop e.1.length)
    | none => lone c && builtFromMorae t ok lone n cs

/-- A hiragana mora with a unique canonical romaji spelling: an entry
`(k, r)` that is the nasal ん spelled `n`, or whose kana `k` are hiragana
other than the nasal and whose spelling `r`, lowercase consonant letters and
one final vowel, is read back as `k` by the romaji-to-hiragana table and
begins with a vowel or `y` only if `k` begins with a vowel kana or a glide
kana. -/
def isHiraganaMora (e : GoString × GoString) : Bool :=
  e == (['ん'], ['n']) ||
    (e.1.all (fun c => isSwappableHiragana c && c != 'ん') &&
      e.2.all isLowerLetter &&
      isMoraSpelling "aiueo".toList e.2 &&
      (longestMatch (rules romajiHiragana) e.2 == some (e.2, e.1)) &&
      (!"aiueoy".toList.contains (e.2.headD 'a') ||
        vowelOrGlideKana.contains (e.1.headD 'あ')))

/-- One of the two irregular hiragana syllables. -/
def isIrregularHiragana (c : Char) : Bool := c == 'づ' || c == 'ぢ'

/-- One of the two irregular katakana syllables. -/
def isIrregularKatakana (c : Char) : Bool := c == 'ヅ' || c == 'ヂ'

/-- A katakana mora with a unique canonical romaji spelling: the mirror of
`isHiraganaMora`, with the spelling in the uppercase register of the tables. -/
def isKatakanaMora (e : GoString × GoString) : Bool :=
  e == (['ン'], ['N']) ||
    (e.1.all (fun c => isSwappableKatakana c && c != 'ン') &&
      e.2.all isUpperLetter &&
      isMoraSpelling "AIUEO".toList e.2 &&
      (longestMatch (rules romajiKatakana) e.2 == some (e.2, e.1)) &&
      (!"AIUEOY".toList.contains (e.2.headD 'A') ||
        vowelOrGlideKana.contains (e.1.headD 'ア')))


/-- The hiragana half of the main kana-to-romaji table. -/
def hiraganaToRomajiRules : RuleTable :=
  rules (hiraganaRomaji.filter (fun e => !(["づ", "ぢ", "ヅ", "ヂ"].contains e.1)))

/-- The katakana half of the main kana-to-romaji table. -/
def katakanaToRomajiRules : RuleTable :=
  rules (katakanaRomaji.filter (fun e => !(["づ", "ぢ", "ヅ", "ヂ"].contains e.1)))

/-- The three table rewrites of `ToRomajiCased` on the modelled tables, the
stages before the gemination step. -/
def romajiRewrites (phonetic : Bool) (s : GoString) : GoString :=
  rewrite (if phonetic then phoneticRules else unphoneticRules)
    (rewrite kanaToRomajiRules (rewrite moraicNRules s))

/-- The katakana-register counterpart of a scalar of the romaji before the
gemination step: the small tsu っ as ッ, a lowercase letter in uppercase. -/
def upperRegister (c : Char) : Char := if c == 'っ' then 'ッ' else asciiToUpper c

/-- Whether the kana-to-romaji table reads the hiragana string `s` and its
swap to katakana with the same mora boundaries: at each position the longest
pattern that matches `s` is a hiragana pattern and the longest pattern that
matches the swap of `s` is the swap of that pattern, or no pattern matches
either string and the scalar is an irregular syllable づ/ぢ, a small tsu っ or
a long-vowel mark ー; `n` bounds the number of morae. -/
def readInBothRegisters : Nat → GoString → Bool
  | _, [] => true
  | 0, _ :: _ => false
  | n + 1, c :: cs =>
    match longestMatch kanaToRomajiRules (c :: cs),
        longestMatch kanaToRomajiRules (stringsMap HiraganaToKatakana (c :: cs)) with
    | some e, some f =>
      e.1.all isSwappableHiragana && f.1 == stringsMap HiraganaToKatakana e.1 &&
        readInBothRegisters n ((c :: cs).drop e.1.length)
    | none, none =>
      (isIrregularHiragana c || c == 'っ' || c == 'ー') && readInBothRegisters n cs
    | _, _ => false

/-! ## Theorems: script swap -/

/-- The rune literals of the two swap functions are the code points used in
the embedding. -/
theorem swap_rune_literals :
    ('ぁ'.toNat = 0x3041 ∧ 'ゖ'.toNat = 0x3096 ∧ 'ゝ'.toNat = 0x309D ∧ 'ゞ'.toNat = 0x309E) ∧
    ('ァ'.toNat = 0x30A1 ∧ 'ヶ'.toNat = 0x30F6 ∧ 'ヽ'.toNat = 0x30FD ∧ 'ヾ'.toNat = 0x30FE) := by
  decide

/-- C7: on the hiragana block U+3040..U+309F the swap to katakana followed by
the swap back is the identity, and on the katakana block U+30A0..U+30FF the
swap to hiragana followed by the swap back is the identity. -/
theorem swap_roundtrip_on_blocks (c : Rune) :
    (0x3040 ≤ c ∧ c ≤ 0x309F → KatakanaToHiragana (HiraganaToKatakana c) = c) ∧
    (0x30A0 ≤ c ∧ c ≤ 0x30FF → HiraganaToKatakana (KatakanaToHiragana c) = c) := by
  constructor
  · intro h
    unfold KatakanaToHiragana HiraganaToKatakana
    delta Rune at *
    split_ifs <;> omega
  · intro h
    unfold KatakanaToHiragana HiraganaToKatakana
    delta Rune at *
    split_ifs <;> omega

/-- Witness for C7: か (U+304B) and カ (U+30AB) lie in their blocks and make
the round trip. -/
theorem swap_roundtrip_on_blocks_witness :
    ((0x3040 : Int) ≤ 0x304B ∧ (0x304B : Int) ≤ 0x309F) ∧
    KatakanaToHiragana (HiraganaToKatakana 0x304B) = 0x304B ∧
    ((0x30A0 : Int) ≤ 0x30AB ∧ (0x30AB : Int) ≤ 0x30FF) ∧
    HiraganaToKatakana (KatakanaToHiragana 0x30AB) = 0x30AB :=
  ⟨by decide, (swap_roundtrip_on_blocks 0x304B).1 (by decide), by decide,
    (swap_roundtrip_on_blocks 0x30AB).2 (by decide)⟩

/-- C8: `HiraganaToKatakana r` is `r + 0x60` exactly when `r` is in ぁ..ゖ or
ゝ..ゞ and is `r` exactly otherwise; `KatakanaToHiragana r` is `r - 0x60`
exactly when `r` is in ァ..ヶ or ヽ..ヾ and is `r` exactly otherwise. -/
theorem swap_exact_ranges (r : Rune) :
    (HiraganaToKatakana r = r + 0x60 ↔
      ((0x3041 ≤ r ∧ r ≤ 0x3096) ∨ (0x309D ≤ r ∧ r ≤ 0x309E))) ∧
    (HiraganaToKatakana r = r ↔
      ¬ ((0x3041 ≤ r ∧ r ≤ 0x3096) ∨ (0x309D ≤ r ∧ r ≤ 0x309E))) ∧
    (KatakanaToHiragana r = r - 0x60 ↔
      ((0x30A1 ≤ r ∧ r ≤ 0x30F6) ∨ (0x30FD ≤ r ∧ r ≤ 0x30FE))) ∧
    (KatakanaToHiragana r = r ↔
      ¬ ((0x30A1 ≤ r ∧ r ≤ 0x30F6) ∨ (0x30FD ≤ r ∧ r ≤ 0x30FE))) := by
  unfold KatakanaToHiragana HiraganaToKatakana
  delta Rune at *
  refine ⟨?_, ?_, ?_, ?_⟩ <;> split_ifs <;> constructor <;> intro _ <;> omega


/-! ## Theorems: scalars and case folding -/

/-- A valid scalar value is the code point of the character built from it. -/
theorem toNat_ofNat_of_valid (n : Nat) (h : n.isValidChar) : (Char.ofNat n).toNat = n := by
  simp [Char.ofNat, h, Char.ofNatAux, Char.toNat, UInt32.toNat]

/-- Two characters with the same code point are equal. -/
theorem char_eq_of_toNat_eq (c d : Char) (h : c.toNat = d.toNat) : c = d := by
  rw [← Char.ofNat_toNat c, ← Char.ofNat_toNat d, h]

/-- Writing the rune of a character gives the character back. -/
theorem runeToChar_toNat (c : Char) : runeToChar (c.toNat : Int) = c := by
  have hv : c.toNat.isValidChar := c.valid
  simp [runeToChar, hv]

/-- The scalar written for a non-negative valid rune has that rune as code
point. -/
theorem toNat_runeToChar (r : Rune) (h0 : 0 ≤ r) (hv : r.toNat.isValidChar) :
    ((runeToChar r).toNat : Int) = r := by
  unfold runeToChar
  rw [if_pos hv, toNat_ofNat_of_valid _ hv]
  exact Int.toNat_of_nonneg h0

/-- When no image is negative, `strings.Map` is a map over the scalars. -/
theorem stringsMap_eq_map (f : Rune → Rune) (s : GoString)
    (h : ∀ c ∈ s, 0 ≤ f (c.toNat : Int)) :
    stringsMap f s = s.map (fun c => runeToChar (f (c.toNat : Int))) := by
  induction s with
  | nil => rfl
  | cons c cs ih =>
    have hc := h c (List.mem_cons_self _ _)
    have ih' := ih (fun d hd => h d (List.mem_cons_of_mem _ hd))
    unfold stringsMap at ih' ⊢
    simp only [List.filterMap_cons, hc, if_true, List.map_cons, ih']

/-- The code point of a byte folded to lower case. -/
theorem asciiToLower_toNat (c : Char) :
    (asciiToLower c).toNat =
      if 0x41 ≤ c.toNat ∧ c.toNat ≤ 0x5A then c.toNat + 0x20 else c.toNat := by
  unfold asciiToLower
  split_ifs with h
  · exact toNat_ofNat_of_valid _ (Or.inl (by omega))
  · rfl

/-- The code point of a byte folded to upper case. -/
theorem asciiToUpper_toNat (c : Char) :
    (asciiToUpper c).toNat =
      if 0x61 ≤ c.toNat ∧ c.toNat ≤ 0x7A then c.toNat - 0x20 else c.toNat := by
  unfold asciiToUpper
  split_ifs with h
  · exact toNat_ofNat_of_valid _ (Or.inl (by omega))
  · rfl

/-- Membership form of `isASCII`. -/
theorem isASCII_iff (s : GoString) : isASCII s = true ↔ ∀ c ∈ s, c.toNat < 0x80 := by
  simp [isASCII, List.all_eq_true]

/-- On an all-ASCII string `strings.ToLower` folds every byte. -/
theorem stringsToLower_ascii (U : CaseTables) (s : GoString) (h : ∀ c ∈ s, c.toNat < 0x80) :
    stringsToLower U s = s.map asciiToLower := by
  unfold stringsToLower
  simp only [(isASCII_iff s).2 h, if_true]
  split_ifs with hu
  · symm
    have hid : ∀ c ∈ s, asciiToLower c = id c := by
      intro c hc
      simp only [Bool.not_eq_true', List.any_eq_false, decide_eq_true_eq] at hu
      simp [asciiToLower, hu c hc]
    rw [List.map_congr_left hid, List.map_id]
  · rfl

/-- On an all-ASCII string `strings.ToUpper` folds every byte. -/
theorem stringsToUpper_ascii (U : CaseTables) (s : GoString) (h : ∀ c ∈ s, c.toNat < 0x80) :
    stringsToUpper U s = s.map asciiToUpper := by
  unfold stringsToUpper
  simp only [(isASCII_iff s).2 h, if_true]
  split_ifs with hu
  · symm
    have hid : ∀ c ∈ s, asciiToUpper c = id c := by
      intro c hc
      simp only [Bool.not_eq_true', List.any_eq_false, decide_eq_true_eq] at hu
      simp [asciiToUpper, hu c hc]
    rw [List.map_congr_left hid, List.map_id]
  · rfl

/-- The four compositions of the two ASCII folds on one byte. -/
theorem ascii_fold_comp (c : Char) :
    asciiToLower (asciiToUpper c) = asciiToLower c ∧
    asciiToLower (asciiToLower c) = asciiToLower c ∧
    asciiToUpper (asciiToLower c) = asciiToUpper c ∧
    asciiToUpper (asciiToUpper c) = asciiToUpper c := by
  refine ⟨?_, ?_, ?_, ?_⟩ <;> apply char_eq_of_toNat_eq <;>
    simp only [asciiToLower_toNat, asciiToUpper_toNat] <;> split_ifs <;> omega

/-- The ASCII folds keep a byte below `utf8.RuneSelf`. -/
theorem ascii_fold_lt (c : Char) (h : c.toNat < 0x80) :
    (asciiToLower c).toNat < 0x80 ∧ (asciiToUpper c).toNat < 0x80 := by
  constructor
  · rw [asciiToLower_toNat]; split_ifs <;> omega
  · rw [asciiToUpper_toNat]; split_ifs <;> omega

/-- The case folds compose on all-ASCII strings as on single bytes. -/
theorem strings_fold_comp (U : CaseTables) (s : GoString) (h : ∀ c ∈ s, c.toNat < 0x80) :
    stringsToLower U (stringsToUpper U s) = stringsToLower U s ∧
    stringsToLower U (stringsToLower U s) = stringsToLower U s ∧
    stringsToUpper U (stringsToLower U s) = stringsToUpper U s ∧
    stringsToUpper U (stringsToUpper U s) = stringsToUpper U s := by
  have hl : ∀ c ∈ s.map asciiToLower, c.toNat < 0x80 := by
    intro c hc
    obtain ⟨d, hd, rfl⟩ := List.mem_map.1 hc
    exact (ascii_fold_lt d (h d hd)).1
  have hu : ∀ c ∈ s.map asciiToUpper, c.toNat < 0x80 := by
    intro c hc
    obtain ⟨d, hd, rfl⟩ := List.mem_map.1 hc
    exact (ascii_fold_lt d (h d hd)).2
  rw [stringsToLower_ascii U s h, stringsToUpper_ascii U s h,
    stringsToLower_ascii U _ hl, stringsToLower_ascii U _ hu,
    stringsToUpper_ascii U _ hl, stringsToUpper_ascii U _ hu]
  simp only [List.map_map]
  refine ⟨?_, ?_, ?_, ?_⟩ <;> apply List.map_congr_left <;> intro c _ <;>
    simp only [Function.comp_apply]
  · exact (ascii_fold_comp c).1
  · exact (ascii_fold_comp c).2.1
  · exact (ascii_fold_comp c).2.2.1
  · exact (ascii_fold_comp c).2.2.2

/-! ## Theorems: the stage order of the pipelines -/

/-- `unsafeString` returns the contents of the buffer, empty or not. -/
theorem unsafeString_eq (buf : Buffer) : unsafeString buf = buf.contents := by
  unfold unsafeString
  cases h : buf.contents <;> simp

/-- `ToHiragana` is the composition of its stages. -/
theorem ToHiragana_eq_comp (U : CaseTables) (T : Tables) (a0 b0 : Buffer) (s : GoString) :
    ToHiragana U T a0 b0 s =
      T.postKanaSpecial (T.postHiragana (stringsMap KatakanaToHiragana
        (T.romajiToHiragana (T.preHiragana (stringsToLower U s))))) := by
  simp [ToHiragana, unsafeString_eq, Replacer.WriteString, Buffer.Reset, Buffer.String]

/-- C1: `ToRomajiCased` is the composition, in this order and each on the full
output of the previous stage, of `moraicNRomaji`, `kanaToRomaji`,
`phoneticRomaji` (flag set) or `unphoneticRomaji` (flag clear),
`parseRomajiDoubles` and `postRomajiSpecial`, whatever the pooled buffers
held. -/
theorem ToRomajiCased_stage_order (T : Tables) (a0 b0 : Buffer) (s : GoString)
    (phonetic : Bool) :
    ToRomajiCased T a0 b0 s phonetic =
      T.postRomajiSpecial (T.parseRomajiDoubles (toRunes
        ((if phonetic then T.phoneticRomaji else T.unphoneticRomaji)
          (T.kanaToRomaji (T.moraicNRomaji s))))) := by
  cases phonetic <;>
    simp [ToRomajiCased, unsafeString_eq, Replacer.WriteString, Buffer.Reset, Buffer.String]

/-- C2 (as stated, refuted): with the post-normalization rewriting `a` to ア,
`ToHiragana` returns ア on the input `a`, while the order of the claim, with
the script swap after the post-normalization, gives あ. -/
theorem ToHiragana_specOrder_counterexample :
    ToHiragana caselessTables swapOrderTables ⟨[]⟩ ⟨[]⟩ "a".toList = "ア".toList ∧
    ToHiragana_specOrder caselessTables swapOrderTables "a".toList = "あ".toList ∧
    ToHiragana caselessTables swapOrderTables ⟨[]⟩ ⟨[]⟩ "a".toList ≠
      ToHiragana_specOrder caselessTables swapOrderTables "a".toList := by
  decide

/-- C2 (amended): `ToHiragana` is the composition of the lowercase fold,
`preHiragana`, `romajiToHiragana`, the katakana-to-hiragana swap pass,
`postHiragana` and `postKanaSpecial`, in this order: the swap pass is applied
to the output of the main table rewrite, before the post-normalization. -/
theorem ToHiragana_stage_order (U : CaseTables) (T : Tables) (a0 b0 : Buffer)
    (s : GoString) :
    ToHiragana U T a0 b0 s =
      T.postKanaSpecial (T.postHiragana (stringsMap KatakanaToHiragana
        (T.romajiToHiragana (T.preHiragana (stringsToLower U s))))) :=
  ToHiragana_eq_comp U T a0 b0 s

/-- C3: `ToHiragana` and `ToKatakana` run the same sequence of stages, the
second with every stage replaced by its katakana counterpart (uppercase fold,
`preKatakana`, `romajiToKatakana`, `HiraganaToKatakana`, `postKatakana`) and
the same final `postKanaSpecial`. -/
theorem ToKatakana_mirrors_ToHiragana (U : CaseTables) (T : Tables) (a0 b0 : Buffer)
    (s : GoString) :
    ToHiragana U T a0 b0 s = (hiraganaStages U T).run s ∧
    ToKatakana U T a0 b0 s = (katakanaStages U T).run s ∧
    (katakanaStages U T).special = (hiraganaStages U T).special := by
  refine ⟨?_, ?_, rfl⟩
  · simp [ToHiragana, hiraganaStages, KanaStages.run, unsafeString_eq,
      Replacer.WriteString, Buffer.Reset, Buffer.String]
  · simp [ToKatakana, katakanaStages, KanaStages.run, unsafeString_eq,
      Replacer.WriteString, Buffer.Reset, Buffer.String]

/-- `ToKana` is the composition of the seven rewrites on the input as given. -/
theorem ToKana_eq_comp (T : Tables) (a0 b0 : Buffer) (s : GoString) :
    ToKana T a0 b0 s =
      T.postKanaSpecial (T.postKatakana (T.postHiragana (T.romajiToKatakana
        (T.romajiToHiragana (T.preKatakana (T.preHiragana s)))))) := by
  simp [ToKana, unsafeString_eq, Replacer.WriteString, Buffer.Reset, Buffer.String]

/-- C4 (as stated, refuted): `バナナ tabete` holds no uppercase character (the
lowercase fold leaves it unchanged), `ToKana` keeps its katakana and returns
`バナナ たべて`, and `ToHiragana` returns `ばなな たべて`. -/
theorem ToKana_ne_ToHiragana_counterexample :
    stringsToLower caselessTables "バナナ tabete".toList = "バナナ tabete".toList ∧
    ToKana sampleTables ⟨[]⟩ ⟨[]⟩ "バナナ tabete".toList = "バナナ たべて".toList ∧
    ToHiragana caselessTables sampleTables ⟨[]⟩ ⟨[]⟩ "バナナ tabete".toList =
      "ばなな たべて".toList ∧
    ToKana sampleTables ⟨[]⟩ ⟨[]⟩ "バナナ tabete".toList ≠
      ToHiragana caselessTables sampleTables ⟨[]⟩ ⟨[]⟩ "バナナ tabete".toList := by
  decide

/-- C4 (amended): on an input without uppercase character (unchanged by the
lowercase fold) on which the three katakana-side rewrites and the
katakana-to-hiragana swap pass leave their stage input unchanged, `ToKana`
and `ToHiragana` return the same result. -/
theorem ToKana_eq_ToHiragana_of_unchanged (U : CaseTables) (T : Tables)
    (a0 b0 a1 b1 : Buffer) (s : GoString)
    (hfold : stringsToLower U s = s)
    (hpre : T.preKatakana (T.preHiragana s) = T.preHiragana s)
    (hmain : T.romajiToKatakana (T.romajiToHiragana (T.preHiragana s)) =
      T.romajiToHiragana (T.preHiragana s))
    (hswap : stringsMap KatakanaToHiragana (T.romajiToHiragana (T.preHiragana s)) =
      T.romajiToHiragana (T.preHiragana s))
    (hpost : T.postKatakana (T.postHiragana (T.romajiToHiragana (T.preHiragana s))) =
      T.postHiragana (T.romajiToHiragana (T.preHiragana s))) :
    ToKana T a0 b0 s = ToHiragana U T a1 b1 s := by
  rw [ToKana_eq_comp, ToHiragana_eq_comp, hfold, hpre, hmain, hswap, hpost]

/-- Witness for C4 (amended): the input `tabete` with the sample tables. -/
theorem ToKana_eq_ToHiragana_of_unchanged_witness :
    ToKana sampleTables ⟨[]⟩ ⟨[]⟩ "tabete".toList =
      ToHiragana caselessTables sampleTables ⟨[]⟩ ⟨[]⟩ "tabete".toList ∧
    ToKana sampleTables ⟨[]⟩ ⟨[]⟩ "tabete".toList = "たべて".toList :=
  ⟨ToKana_eq_ToHiragana_of_unchanged caselessTables sampleTables ⟨[]⟩ ⟨[]⟩ ⟨[]⟩ ⟨[]⟩
      "tabete".toList (by decide) (by decide) (by decide) (by decide) (by decide),
    by decide⟩

/-! ## Theorems: script classes of the swapped runes -/

/-- C9 (as stated, refuted): ゟ (U+309F) is in the Hiragana class and
`HiraganaToKatakana` returns it unchanged, outside the Katakana class; ヷ
(U+30F7) is in the Katakana class and `KatakanaToHiragana` returns it
unchanged, outside the Hiragana class. -/
theorem swap_script_class_counterexample :
    unicodeIn 0x309F unicodeHiragana = true ∧
    HiraganaToKatakana 0x309F = 0x309F ∧
    unicodeIn (HiraganaToKatakana 0x309F) unicodeKatakana = false ∧
    unicodeIn 0x30F7 unicodeKatakana = true ∧
    KatakanaToHiragana 0x30F7 = 0x30F7 ∧
    unicodeIn (KatakanaToHiragana 0x30F7) unicodeHiragana = false := by
  decide

/-- C9 (amended): every rune of the mapped hiragana ranges ぁ..ゖ and ゝ..ゞ is
in the Hiragana class and `HiraganaToKatakana` maps it into the Katakana
class; every rune of the mapped katakana ranges ァ..ヶ and ヽ..ヾ is in the
Katakana class and `KatakanaToHiragana` maps it into the Hiragana class. -/
theorem swap_script_class_on_mapped_ranges (r : Rune) :
    (((0x3041 ≤ r ∧ r ≤ 0x3096) ∨ (0x309D ≤ r ∧ r ≤ 0x309E)) →
      unicodeIn r unicodeHiragana = true ∧
      unicodeIn (HiraganaToKatakana r) unicodeKatakana = true) ∧
    (((0x30A1 ≤ r ∧ r ≤ 0x30F6) ∨ (0x30FD ≤ r ∧ r ≤ 0x30FE)) →
      unicodeIn r unicodeKatakana = true ∧
      unicodeIn (KatakanaToHiragana r) unicodeHiragana = true) := by
  delta Rune at *
  constructor
  · intro h
    have hk : HiraganaToKatakana r = r + 0x60 := by
      unfold HiraganaToKatakana
      delta Rune at *
      split_ifs <;> omega
    rw [hk]
    simp only [unicodeIn, unicodeHiragana, unicodeKatakana, List.any_cons, List.any_nil,
      Bool.or_eq_true, Bool.and_eq_true, decide_eq_true_eq, Bool.or_false, Int.emod_one,
      and_true]
    delta Rune at *
    rcases h with h | h
    · exact ⟨Or.inl ⟨by omega, by omega⟩, Or.inl ⟨by omega, by omega⟩⟩
    · exact ⟨Or.inr (Or.inl ⟨by omega, by omega⟩), Or.inr (Or.inl ⟨by omega, by omega⟩)⟩
  · intro h
    have hk : KatakanaToHiragana r = r - 0x60 := by
      unfold KatakanaToHiragana
      delta Rune at *
      split_ifs <;> omega
    rw [hk]
    simp only [unicodeIn, unicodeHiragana, unicodeKatakana, List.any_cons, List.any_nil,
      Bool.or_eq_true, Bool.and_eq_true, decide_eq_true_eq, Bool.or_false, Int.emod_one,
      and_true]
    delta Rune at *
    rcases h with h | h
    · exact ⟨Or.inl ⟨by omega, by omega⟩, Or.inl ⟨by omega, by omega⟩⟩
    · exact ⟨Or.inr (Or.inl ⟨by omega, by omega⟩), Or.inr (Or.inl ⟨by omega, by omega⟩)⟩

/-- Witness for C9 (amended): か (U+304B) and カ (U+30AB). -/
theorem swap_script_class_on_mapped_ranges_witness :
    (unicodeIn 0x304B unicodeHiragana = true ∧
      unicodeIn (HiraganaToKatakana 0x304B) unicodeKatakana = true) ∧
    (unicodeIn 0x30AB unicodeKatakana = true ∧
      unicodeIn (KatakanaToHiragana 0x30AB) unicodeHiragana = true) :=
  ⟨(swap_script_class_on_mapped_ranges 0x304B).1 (by decide),
    (swap_script_class_on_mapped_ranges 0x30AB).2 (by decide)⟩

/-! ## Theorems: the single-pass rewriter -/

/-- `hasPrefix s p` holds exactly when `s` is `p` followed by some rest. -/
theorem hasPrefix_iff (p s : GoString) :
    hasPrefix s p = true ↔ ∃ rest, s = p ++ rest := by
  induction p generalizing s with
  | nil => simp [hasPrefix]
  | cons d p ih =>
    cases s with
    | nil => simp [hasPrefix]
    | cons c s =>
      simp only [hasPrefix, Bool.and_eq_true, beq_iff_eq, ih, List.cons_append,
        List.cons.injEq]
      constructor
      · rintro ⟨rfl, rest, rfl⟩
        exact ⟨rest, rfl, rfl⟩
      · rintro ⟨rest, rfl, rfl⟩
        exact ⟨rfl, rest, rfl⟩

/-- When `longestMatch` finds nothing, no non-empty pattern of the table
matches. -/
theorem longestMatch_none (t : RuleTable) (s : GoString) (h : longestMatch t s = none) :
    ∀ f ∈ t, f.1 ≠ [] → hasPrefix s f.1 = false := by
  induction t with
  | nil => simp
  | cons a t ih =>
    unfold longestMatch at h
    by_cases ha : a.1 ≠ [] ∧ hasPrefix s a.1 = true
    · rw [if_pos ha] at h
      cases hr : longestMatch t s with
      | none => simp [hr] at h
      | some b =>
        rw [hr] at h
        by_cases hlen : a.1.length < b.1.length <;> simp [hlen] at h
    · rw [if_neg ha] at h
      intro f hf hne
      rcases List.mem_cons.1 hf with rfl | hf
      · cases hp : hasPrefix s f.1
        · rfl
        · exact absurd ⟨hne, hp⟩ ha
      · exact ih h f hf hne

/-- The entry returned by `longestMatch` belongs to the table, has a non-empty
pattern that matches, and no matching pattern of the table is longer. -/
theorem longestMatch_some (t : RuleTable) (s : GoString) (e : GoString × GoString)
    (h : longestMatch t s = some e) :
    e ∈ t ∧ e.1 ≠ [] ∧ hasPrefix s e.1 = true ∧
      ∀ f ∈ t, f.1 ≠ [] → hasPrefix s f.1 = true → f.1.length ≤ e.1.length := by
  induction t generalizing e with
  | nil => simp [longestMatch] at h
  | cons a t ih =>
    unfold longestMatch at h
    by_cases ha : a.1 ≠ [] ∧ hasPrefix s a.1 = true
    · rw [if_pos ha] at h
      cases hr : longestMatch t s with
      | none =>
        rw [hr] at h
        simp only [Option.some.injEq] at h
        subst h
        refine ⟨List.mem_cons_self _ _, ha.1, ha.2, ?_⟩
        intro f hf hne hp
        rcases List.mem_cons.1 hf with rfl | hf
        · exact le_refl _
        · have := longestMatch_none t s hr f hf hne
          simp [hp] at this
      | some b =>
        rw [hr] at h
        obtain ⟨hb1, hb2, hb3, hb4⟩ := ih b hr
        by_cases hlen : a.1.length < b.1.length
        · simp only [hlen, if_true, Option.some.injEq] at h
          subst h
          refine ⟨List.mem_cons_of_mem _ hb1, hb2, hb3, ?_⟩
          intro f hf hne hp
          rcases List.mem_cons.1 hf with rfl | hf
          · exact le_of_lt hlen
          · exact hb4 f hf hne hp
        · simp only [hlen, if_false, Option.some.injEq] at h
          subst h
          refine ⟨List.mem_cons_self _ _, ha.1, ha.2, ?_⟩
          intro f hf hne hp
          rcases List.mem_cons.1 hf with rfl | hf
          · exact le_refl _
          · exact le_trans (hb4 f hf hne hp) (not_lt.1 hlen)
    · rw [if_neg ha] at h
      obtain ⟨h1, h2, h3, h4⟩ := ih e h
      refine ⟨List.mem_cons_of_mem _ h1, h2, h3, ?_⟩
      intro f hf hne hp
      rcases List.mem_cons.1 hf with rfl | hf
      · exact absurd ⟨hne, hp⟩ ha
      · exact h4 f hf hne hp

/-- Scanning with `skip` scalars still covered is scanning the input without
them. -/
theorem rewriteFrom_skip (t : RuleTable) (n : Nat) (s : GoString) :
    rewriteFrom t n s = rewriteFrom t 0 (s.drop n) := by
  induction n generalizing s with
  | zero => simp
  | succ n ih =>
    cases s with
    | nil => simp [rewriteFrom]
    | cons c cs => simp only [rewriteFrom, List.drop_succ_cons]; exact ih cs

/-- C6: the rewriter scans left to right; at a position where `longestMatch`
returns an entry, that entry is in the table, its pattern is non-empty and
matches there, no matching pattern of the table is longer, and the output is
its replacement followed by the rewrite of the input after the matched
pattern; where no pattern matches, the current scalar is copied and the scan
continues with the next one; with the sample tables,
`ToRomaji("パーティィ") = "pa-tixi"` and not `"pa-texixi"`. -/
theorem rewrite_longest_match (t : RuleTable) (c : Char) (cs : GoString) :
    rewrite t [] = [] ∧
    (∀ e, longestMatch t (c :: cs) = some e →
      e ∈ t ∧ e.1 ≠ [] ∧
      (∃ rest, c :: cs = e.1 ++ rest ∧ rewrite t (c :: cs) = e.2 ++ rewrite t rest) ∧
      (∀ f ∈ t, ∀ rest, f.1 ≠ [] → c :: cs = f.1 ++ rest → f.1.length ≤ e.1.length)) ∧
    (longestMatch t (c :: cs) = none →
      (∀ f ∈ t, ∀ rest, f.1 ≠ [] → c :: cs ≠ f.1 ++ rest) ∧
      rewrite t (c :: cs) = c :: rewrite t cs) ∧
    ((∃ f ∈ t, ∃ rest, f.1 ≠ [] ∧ c :: cs = f.1 ++ rest) →
      (longestMatch t (c :: cs)).isSome = true) ∧
    ToRomaji caselessTables sampleTables ⟨[]⟩ ⟨[]⟩ "パーティィ".toList false =
      "pa-tixi".toList ∧
    ToRomaji caselessTables sampleTables ⟨[]⟩ ⟨[]⟩ "パーティィ".toList false ≠
      "pa-texixi".toList := by
  refine ⟨rfl, ?_, ?_, ?_, by decide, by decide⟩
  · intro e he
    obtain ⟨h1, h2, h3, h4⟩ := longestMatch_some t (c :: cs) e he
    refine ⟨h1, h2, ?_, ?_⟩
    · obtain ⟨rest, hrest⟩ := (hasPrefix_iff e.1 (c :: cs)).1 h3
      refine ⟨rest, hrest, ?_⟩
      have hlen : 0 < e.1.length := List.length_pos.2 h2
      have hdrop : rest = List.drop (e.1.length - 1) cs := by
        have h5 : List.drop e.1.length (c :: cs) = rest := by
          rw [hrest, List.drop_left]
        rw [← h5]
        obtain ⟨k, hk⟩ : ∃ k, e.1.length = k + 1 := ⟨e.1.length - 1, by omega⟩
        rw [hk, List.drop_succ_cons, Nat.add_sub_cancel]
      show rewriteFrom t 0 (c :: cs) = e.2 ++ rewriteFrom t 0 rest
      rw [hdrop, ← rewriteFrom_skip]
      simp only [rewriteFrom, he]
    · intro f hf rest hne hrest
      exact h4 f hf hne ((hasPrefix_iff f.1 (c :: cs)).2 ⟨rest, hrest⟩)
  · intro hnone
    refine ⟨?_, ?_⟩
    · intro f hf rest hne hrest
      have h1 := longestMatch_none t (c :: cs) hnone f hf hne
      have h2 := (hasPrefix_iff f.1 (c :: cs)).2 ⟨rest, hrest⟩
      rw [h1] at h2
      exact Bool.noConfusion h2
    · show rewriteFrom t 0 (c :: cs) = c :: rewriteFrom t 0 cs
      simp only [rewriteFrom, hnone]
  · rintro ⟨f, hf, rest, hne, hrest⟩
    cases hm : longestMatch t (c :: cs) with
    | some e => rfl
    | none =>
      have h1 := longestMatch_none t (c :: cs) hm f hf hne
      have h2 := (hasPrefix_iff f.1 (c :: cs)).2 ⟨rest, hrest⟩
      rw [h1] at h2
      exact Bool.noConfusion h2

/-! ## Theorems: letter case -/

/-- `ToKatakana` is the composition of its stages. -/
theorem ToKatakana_eq_comp (U : CaseTables) (T : Tables) (a0 b0 : Buffer) (s : GoString) :
    ToKatakana U T a0 b0 s =
      T.postKanaSpecial (T.postKatakana (stringsMap HiraganaToKatakana
        (T.romajiToKatakana (T.preKatakana (stringsToUpper U s))))) := by
  simp [ToKatakana, unsafeString_eq, Replacer.WriteString, Buffer.Reset, Buffer.String]

/-- A string whose scalars are all fixed by `unicode.ToLower` is returned
unchanged by `strings.ToLower`. -/
theorem stringsToLower_of_fixed (U : CaseTables) (s : GoString)
    (h : ∀ c ∈ s, unicodeToLower U (c.toNat : Int) = (c.toNat : Int)) :
    stringsToLower U s = s := by
  by_cases ha : isASCII s = true
  · have ha' := (isASCII_iff s).1 ha
    rw [stringsToLower_ascii U s ha']
    have hid : ∀ c ∈ s, asciiToLower c = id c := by
      intro c hc
      have hfix := h c hc
      have hlt := ha' c hc
      unfold unicodeToLower at hfix
      delta Rune at hfix
      have hn : ¬ (0x41 ≤ c.toNat ∧ c.toNat ≤ 0x5A) := by
        intro hup
        rw [if_pos (by omega), if_pos (by omega)] at hfix
        omega
      simp [asciiToLower, hn]
    rw [List.map_congr_left hid, List.map_id]
  · unfold stringsToLower
    simp only [ha, Bool.false_eq_true, if_false]
    rw [stringsMap_eq_map]
    · have hid : ∀ c ∈ s, runeToChar (unicodeToLower U (c.toNat : Int)) = id c := by
        intro c hc
        rw [h c hc, runeToChar_toNat]
        rfl
      rw [List.map_congr_left hid, List.map_id]
    · intro c hc
      rw [h c hc]
      exact Int.natCast_nonneg _

/-- Every scalar of a lowercase-folded string is fixed by `unicode.ToLower`,
when the fold of a scalar is a scalar and folding twice is folding once. -/
theorem stringsToLower_fixed (U : CaseTables) (s : GoString)
    (hvalid : ∀ c : Char, 0 ≤ unicodeToLower U (c.toNat : Int) ∧
      (unicodeToLower U (c.toNat : Int)).toNat.isValidChar)
    (hidem : ∀ c : Char, unicodeToLower U (unicodeToLower U (c.toNat : Int)) =
      unicodeToLower U (c.toNat : Int)) :
    ∀ c ∈ stringsToLower U s, unicodeToLower U (c.toNat : Int) = (c.toNat : Int) := by
  have key : ∀ d : Char, unicodeToLower U
      ((runeToChar (unicodeToLower U (d.toNat : Int))).toNat : Int) =
      ((runeToChar (unicodeToLower U (d.toNat : Int))).toNat : Int) := by
    intro d
    rw [toNat_runeToChar _ (hvalid d).1 (hvalid d).2]
    exact hidem d
  intro c hc
  by_cases ha : isASCII s = true
  · have ha' := (isASCII_iff s).1 ha
    rw [stringsToLower_ascii U s ha'] at hc
    obtain ⟨d, hd, rfl⟩ := List.mem_map.1 hc
    have hlt := ha' d hd
    have hn := asciiToLower_toNat d
    unfold unicodeToLower
    delta Rune
    split_ifs at hn with hup
    · rw [hn, if_pos (by omega), if_neg (by omega)]
    · rw [hn, if_pos (by omega), if_neg (by omega)]
  · unfold stringsToLower at hc
    simp only [ha, Bool.false_eq_true, if_false] at hc
    rw [stringsMap_eq_map _ _ (fun d _ => (hvalid d).1)] at hc
    obtain ⟨d, _, rfl⟩ := List.mem_map.1 hc
    exact key d

/-- C5: `ToRomaji` is `strings.ToLower` of `ToRomajiCased`; when the lowercase
fold of a scalar is a scalar and folding twice is folding once, every scalar
of the result is its own lowercase form, none is a letter `A`..`Z`, and a
further lowercase fold leaves the result unchanged. -/
theorem ToRomaji_lowercase (U : CaseTables) (T : Tables) (a0 b0 : Buffer) (s : GoString)
    (phonetic : Bool)
    (hvalid : ∀ c : Char, 0 ≤ unicodeToLower U (c.toNat : Int) ∧
      (unicodeToLower U (c.toNat : Int)).toNat.isValidChar)
    (hidem : ∀ c : Char, unicodeToLower U (unicodeToLower U (c.toNat : Int)) =
      unicodeToLower U (c.toNat : Int)) :
    ToRomaji U T a0 b0 s phonetic = stringsToLower U (ToRomajiCased T a0 b0 s phonetic) ∧
    (∀ c ∈ ToRomaji U T a0 b0 s phonetic,
      unicodeToLower U (c.toNat : Int) = (c.toNat : Int) ∧
      ¬ (0x41 ≤ c.toNat ∧ c.toNat ≤ 0x5A)) ∧
    stringsToLower U (ToRomaji U T a0 b0 s phonetic) = ToRomaji U T a0 b0 s phonetic := by
  have hfix := stringsToLower_fixed U (ToRomajiCased T a0 b0 s phonetic) hvalid hidem
  refine ⟨rfl, ?_, stringsToLower_of_fixed U _ hfix⟩
  intro c hc
  have hc' := hfix c hc
  refine ⟨hc', ?_⟩
  intro hup
  unfold unicodeToLower at hc'
  delta Rune at hc'
  rw [if_pos (by omega), if_pos (by omega)] at hc'
  omega

/-- The lowercase fold over `caselessTables` maps scalars to scalars. -/
theorem caselessTables_lower_valid (c : Char) :
    0 ≤ unicodeToLower caselessTables (c.toNat : Int) ∧
      (unicodeToLower caselessTables (c.toNat : Int)).toNat.isValidChar := by
  have hv : c.toNat.isValidChar := c.valid
  unfold unicodeToLower caselessTables
  dsimp only
  delta Rune
  split_ifs with h1 h2
  · refine ⟨by omega, Or.inl ?_⟩
    omega
  · exact ⟨by omega, by simpa using hv⟩
  · exact ⟨by omega, by simpa using hv⟩

/-- The lowercase fold over `caselessTables` is idempotent. -/
theorem caselessTables_lower_idem (c : Char) :
    unicodeToLower caselessTables (unicodeToLower caselessTables (c.toNat : Int)) =
      unicodeToLower caselessTables (c.toNat : Int) := by
  unfold unicodeToLower caselessTables
  dsimp only
  delta Rune
  split_ifs <;> omega

/-- Witness for C5: the katakana input `カタカナ` with the sample tables gives
`KATAKANA` cased and `katakana` lowercased. -/
theorem ToRomaji_lowercase_witness :
    ToRomajiCased sampleTables ⟨[]⟩ ⟨[]⟩ "カタカナ".toList false = "KATAKANA".toList ∧
    ToRomaji caselessTables sampleTables ⟨[]⟩ ⟨[]⟩ "カタカナ".toList false =
      "katakana".toList ∧
    stringsToLower caselessTables
        (ToRomaji caselessTables sampleTables ⟨[]⟩ ⟨[]⟩ "カタカナ".toList false) =
      ToRomaji caselessTables sampleTables ⟨[]⟩ ⟨[]⟩ "カタカナ".toList false :=
  ⟨by decide, by decide,
    (ToRomaji_lowercase caselessTables sampleTables ⟨[]⟩ ⟨[]⟩ "カタカナ".toList false
      caselessTables_lower_valid caselessTables_lower_idem).2.2⟩

/-- C10: on an all-ASCII input, `ToHiragana` and `ToKatakana` return the same
result for the input, its uppercase fold and its lowercase fold, whatever the
rule tables are. -/
theorem romaji_to_kana_any_case (U : CaseTables) (T : Tables) (a0 b0 : Buffer)
    (s : GoString) (h : ∀ c ∈ s, c.toNat < 0x80) :
    ToHiragana U T a0 b0 (stringsToUpper U s) = ToHiragana U T a0 b0 (stringsToLower U s) ∧
    ToHiragana U T a0 b0 (stringsToLower U s) = ToHiragana U T a0 b0 s ∧
    ToKatakana U T a0 b0 (stringsToUpper U s) = ToKatakana U T a0 b0 (stringsToLower U s) ∧
    ToKatakana U T a0 b0 (stringsToLower U s) = ToKatakana U T a0 b0 s := by
  obtain ⟨h1, h2, h3, h4⟩ := strings_fold_comp U s h
  simp only [ToHiragana_eq_comp, ToKatakana_eq_comp, h1, h2, h3, h4, and_self]

/-- Witness for C10: the mixed-case input `TaBeTe` with the sample tables. -/
theorem romaji_to_kana_any_case_witness :
    (∀ c ∈ "TaBeTe".toList, c.toNat < 0x80) ∧
    ToHiragana caselessTables sampleTables ⟨[]⟩ ⟨[]⟩
        (stringsToUpper caselessTables "TaBeTe".toList) =
      ToHiragana caselessTables sampleTables ⟨[]⟩ ⟨[]⟩ "TaBeTe".toList ∧
    ToHiragana caselessTables sampleTables ⟨[]⟩ ⟨[]⟩ "TaBeTe".toList = "たべて".toList ∧
    ToKatakana caselessTables sampleTables ⟨[]⟩ ⟨[]⟩
        (stringsToLower caselessTables "TaBeTe".toList) =
      ToKatakana caselessTables sampleTables ⟨[]⟩ ⟨[]⟩ "TaBeTe".toList ∧
    ToKatakana caselessTables sampleTables ⟨[]⟩ ⟨[]⟩ "TaBeTe".toList = "タベテ".toList :=
  have hw := romaji_to_kana_any_case caselessTables sampleTables ⟨[]⟩ ⟨[]⟩ "TaBeTe".toList
    (by decide)
  ⟨by decide, hw.1.trans hw.2.1, by decide, hw.2.2.2, by decide⟩

/-! ## Theorems: script classification and extraction -/

/-- The `Is*` loop returns true exactly when every scalar is in the table. -/
theorem rangeAllIn_iff (tab : RangeTable) (s : GoString) :
    rangeAllIn tab s = true ↔ ∀ c ∈ s, unicodeIn (c.toNat : Int) tab = true := by
  induction s with
  | nil => simp [rangeAllIn]
  | cons c cs ih =>
    cases h : unicodeIn (c.toNat : Int) tab <;> simp [rangeAllIn, h, ih]

/-- The `Contains*` loop returns true exactly when some scalar is in the
table. -/
theorem rangeAnyIn_iff (tab : RangeTable) (s : GoString) :
    rangeAnyIn tab s = true ↔ ∃ c ∈ s, unicodeIn (c.toNat : Int) tab = true := by
  induction s with
  | nil => simp [rangeAnyIn]
  | cons c cs ih =>
    cases h : unicodeIn (c.toNat : Int) tab <;> simp [rangeAnyIn, h, ih]

/-- The modelled `sanitizeIsChecks` deletes exactly the separators of the
kana tests. -/
theorem specSanitizeIsChecks_eq_filter (s : GoString) :
    specSanitizeIsChecks s = s.filter (fun c => !isKanaSeparator c) := by
  have ht : rules [(" ", ""), ("　", ""), ("ー", "")] =
      [([' '], []), (['　'], []), (['ー'], [])] := by decide
  show rewriteFrom _ 0 s = _
  rw [ht]
  simp only [isKanaSeparator]
  induction s with
  | nil => rfl
  | cons c cs ih =>
    by_cases h1 : c = ' '
    · subst h1
      simp [rewriteFrom, longestMatch, hasPrefix, ih]
    · by_cases h2 : c = '　'
      · subst h2
        simp [rewriteFrom, longestMatch, hasPrefix, ih]
      · by_cases h3 : c = 'ー'
        · subst h3
          simp [rewriteFrom, longestMatch, hasPrefix, ih]
        · simp [rewriteFrom, longestMatch, hasPrefix, ih, h1, h2, h3]

/-- The modelled `sanitizeIsChecksKanji` deletes exactly the two spaces. -/
theorem specSanitizeIsChecksKanji_eq_filter (s : GoString) :
    specSanitizeIsChecksKanji s = s.filter (fun c => !isSpace c) := by
  have ht : rules [(" ", ""), ("　", "")] = [([' '], []), (['　'], [])] := by decide
  show rewriteFrom _ 0 s = _
  rw [ht]
  simp only [isSpace]
  induction s with
  | nil => rfl
  | cons c cs ih =>
    by_cases h1 : c = ' '
    · subst h1
      simp [rewriteFrom, longestMatch, hasPrefix, ih]
    · by_cases h2 : c = '　'
      · subst h2
        simp [rewriteFrom, longestMatch, hasPrefix, ih]
      · simp [rewriteFrom, longestMatch, hasPrefix, ih, h1, h2]

/-- The Han class lies in four blocks of code points. -/
theorem han_range (r : Int) (h : unicodeIn r unicodeHan = true) :
    (0x2E80 ≤ r ∧ r ≤ 0x303B) ∨ (0x3400 ≤ r ∧ r ≤ 0xFAD9) ∨
    (0x16FE2 ≤ r ∧ r ≤ 0x16FF1) ∨ (0x20000 ≤ r ∧ r ≤ 0x323AF) := by
  simp only [unicodeIn, unicodeHan, List.any_cons, List.any_nil, Bool.or_eq_true,
    Bool.and_eq_true, decide_eq_true_eq, Bool.or_false] at h
  delta Rune at *
  by_contra hc
  simp only [not_or, not_and, not_le] at hc
  omega

/-- The Hiragana class lies in two blocks of code points and one more code
point. -/
theorem hiragana_range (r : Int) (h : unicodeIn r unicodeHiragana = true) :
    (0x3041 ≤ r ∧ r ≤ 0x309F) ∨ (0x1B001 ≤ r ∧ r ≤ 0x1B152) ∨ r = 0x1F200 := by
  simp only [unicodeIn, unicodeHiragana, List.any_cons, List.any_nil, Bool.or_eq_true,
    Bool.and_eq_true, decide_eq_true_eq, Bool.or_false] at h
  delta Rune at *
  by_contra hc
  simp only [not_or, not_and, not_le] at hc
  omega

/-- No rune is in both the Han class and the Hiragana class. -/
theorem han_not_hiragana (r : Int) (h : unicodeIn r unicodeHan = true) :
    unicodeIn r unicodeHiragana = false := by
  cases hh : unicodeIn r unicodeHiragana with
  | false => rfl
  | true =>
    have h1 := han_range r h
    have h2 := hiragana_range r hh
    exfalso
    omega

/-- The three `Is*` functions in terms of their sanitizer, and in terms of the
separators when the sanitizers are the modelled ones. -/
theorem Is_characterization (T : Tables) (s : GoString)
    (hT : T.sanitizeIsChecks = specSanitizeIsChecks)
    (hK : T.sanitizeIsChecksKanji = specSanitizeIsChecksKanji) :
    ((IsHiragana T s = true ↔ T.sanitizeIsChecks s ≠ [] ∧
        ∀ c ∈ T.sanitizeIsChecks s, unicodeIn (c.toNat : Int) unicodeHiragana = true) ∧
      (IsKatakana T s = true ↔ T.sanitizeIsChecks s ≠ [] ∧
        ∀ c ∈ T.sanitizeIsChecks s, unicodeIn (c.toNat : Int) unicodeKatakana = true) ∧
      (IsKanji T s = true ↔ T.sanitizeIsChecksKanji s ≠ [] ∧
        ∀ c ∈ T.sanitizeIsChecksKanji s, unicodeIn (c.toNat : Int) unicodeHan = true)) ∧
    (T.sanitizeIsChecks s = s.filter (fun c => !isKanaSeparator c) ∧
      T.sanitizeIsChecksKanji s = s.filter (fun c => !isSpace c)) ∧
    ((IsHiragana T s = true ↔ s.filter (fun c => !isKanaSeparator c) ≠ [] ∧
        ∀ c ∈ s, isKanaSeparator c = false →
          unicodeIn (c.toNat : Int) unicodeHiragana = true) ∧
      (IsKatakana T s = true ↔ s.filter (fun c => !isKanaSeparator c) ≠ [] ∧
        ∀ c ∈ s, isKanaSeparator c = false →
          unicodeIn (c.toNat : Int) unicodeKatakana = true) ∧
      (IsKanji T s = true ↔ s.filter (fun c => !isSpace c) ≠ [] ∧
        ∀ c ∈ s, isSpace c = false → unicodeIn (c.toNat : Int) unicodeHan = true)) := by
  have gen : ∀ (tab : RangeTable) (x : GoString),
      ((if x = [] then false else rangeAllIn tab x) = true ↔
        x ≠ [] ∧ ∀ c ∈ x, unicodeIn (c.toNat : Int) tab = true) := by
    intro tab x
    by_cases hx : x = []
    · simp [hx]
    · simp [hx, rangeAllIn_iff]
  have h1 := specSanitizeIsChecks_eq_filter s
  have h2 := specSanitizeIsChecksKanji_eq_filter s
  have gen2 : ∀ (tab : RangeTable) (p : Char → Bool) (x : GoString),
      ((if x.filter (fun c => !p c) = [] then false
          else rangeAllIn tab (x.filter (fun c => !p c))) = true ↔
        x.filter (fun c => !p c) ≠ [] ∧
          ∀ c ∈ x, p c = false → unicodeIn (c.toNat : Int) tab = true) := by
    intro tab p x
    rw [gen]
    refine and_congr Iff.rfl ?_
    constructor
    · intro h c hc hsep
      exact h c (List.mem_filter.2 ⟨hc, by simp [hsep]⟩)
    · intro h c hc
      obtain ⟨hc1, hc2⟩ := List.mem_filter.1 hc
      exact h c hc1 (by simpa using hc2)
  refine ⟨⟨gen _ _, gen _ _, gen _ _⟩, ⟨by rw [hT, h1], by rw [hK, h2]⟩, ?_, ?_, ?_⟩
  · unfold IsHiragana
    rw [hT, h1]
    exact gen2 _ _ _
  · unfold IsKatakana
    rw [hT, h1]
    exact gen2 _ _ _
  · unfold IsKanji
    rw [hK, h2]
    exact gen2 _ _ _

/-- C13: `IsHiragana`, `IsKatakana` and `IsKanji` return true exactly when the
sanitized string is non-empty and all its scalars are in the script class;
with the sanitizers deleting the allowed separators (spaces and the
long-vowel mark for the kana tests, spaces for the kanji test) this is: the
string without its separators is non-empty and all its other scalars are in
the class. -/
theorem Is_iff_nonempty_and_all (T : Tables) (s : GoString)
    (hT : T.sanitizeIsChecks = specSanitizeIsChecks)
    (hK : T.sanitizeIsChecksKanji = specSanitizeIsChecksKanji) :
    ((IsHiragana T s = true ↔ T.sanitizeIsChecks s ≠ [] ∧
        ∀ c ∈ T.sanitizeIsChecks s, unicodeIn (c.toNat : Int) unicodeHiragana = true) ∧
      (IsKatakana T s = true ↔ T.sanitizeIsChecks s ≠ [] ∧
        ∀ c ∈ T.sanitizeIsChecks s, unicodeIn (c.toNat : Int) unicodeKatakana = true) ∧
      (IsKanji T s = true ↔ T.sanitizeIsChecksKanji s ≠ [] ∧
        ∀ c ∈ T.sanitizeIsChecksKanji s, unicodeIn (c.toNat : Int) unicodeHan = true)) ∧
    (T.sanitizeIsChecks s = s.filter (fun c => !isKanaSeparator c) ∧
      T.sanitizeIsChecksKanji s = s.filter (fun c => !isSpace c)) ∧
    ((IsHiragana T s = true ↔ s.filter (fun c => !isKanaSeparator c) ≠ [] ∧
        ∀ c ∈ s, isKanaSeparator c = false →
          unicodeIn (c.toNat : Int) unicodeHiragana = true) ∧
      (IsKatakana T s = true ↔ s.filter (fun c => !isKanaSeparator c) ≠ [] ∧
        ∀ c ∈ s, isKanaSeparator c = false →
          unicodeIn (c.toNat : Int) unicodeKatakana = true) ∧
      (IsKanji T s = true ↔ s.filter (fun c => !isSpace c) ≠ [] ∧
        ∀ c ∈ s, isSpace c = false → unicodeIn (c.toNat : Int) unicodeHan = true)) :=
  Is_characterization T s hT hK

/-- Witness for C13: `ひら がな` with the sample tables. -/
theorem Is_iff_nonempty_and_all_witness :
    IsHiragana sampleTables "ひら がな".toList = true ∧
    (IsHiragana sampleTables "ひら がな".toList = true ↔
      "ひら がな".toList.filter (fun c => !isKanaSeparator c) ≠ [] ∧
      ∀ c ∈ "ひら がな".toList, isKanaSeparator c = false →
        unicodeIn (c.toNat : Int) unicodeHiragana = true) :=
  ⟨by decide, (Is_iff_nonempty_and_all sampleTables "ひら がな".toList rfl rfl).2.2.1⟩

/-- C14: on the empty string and on every string made only of allowed
separators (ASCII space, ideographic space, long-vowel mark), `IsHiragana`,
`IsKatakana` and `IsKanji` return false. -/
theorem Is_false_on_separators (T : Tables) (s : GoString)
    (hT : T.sanitizeIsChecks = specSanitizeIsChecks)
    (hK : T.sanitizeIsChecksKanji = specSanitizeIsChecksKanji)
    (hs : ∀ c ∈ s, isKanaSeparator c = true) :
    IsHiragana T s = false ∧ IsKatakana T s = false ∧ IsKanji T s = false := by
  have hnil : s.filter (fun c => !isKanaSeparator c) = [] := by
    rw [List.filter_eq_nil_iff]
    intro c hc
    simp [hs c hc]
  have hmark : ∀ x : GoString, (∀ c ∈ x, c = 'ー') →
      (if x = [] then false else rangeAllIn unicodeHan x) = false := by
    intro x hx
    cases x with
    | nil => rfl
    | cons c cs =>
      have hc : c = 'ー' := hx c (List.mem_cons_self _ _)
      subst hc
      have hn : unicodeIn (('ー' : Char).toNat : Int) unicodeHan = false := by decide
      rw [if_neg (List.cons_ne_nil _ _)]
      unfold rangeAllIn
      rw [hn]
      rfl
  refine ⟨?_, ?_, ?_⟩
  · unfold IsHiragana
    rw [hT, specSanitizeIsChecks_eq_filter, hnil]
    rfl
  · unfold IsKatakana
    rw [hT, specSanitizeIsChecks_eq_filter, hnil]
    rfl
  · unfold IsKanji
    rw [hK, specSanitizeIsChecksKanji_eq_filter]
    apply hmark
    intro c hc
    obtain ⟨hc1, hc2⟩ := List.mem_filter.1 hc
    have h3 := hs c hc1
    simp only [isKanaSeparator, isSpace, Bool.or_eq_true, beq_iff_eq, Bool.not_eq_true',
      Bool.or_eq_false_iff, beq_eq_false_iff_ne, ne_eq] at h3 hc2
    rcases h3 with (h3 | h3) | h3
    · exact absurd h3 hc2.1
    · exact absurd h3 hc2.2
    · exact h3

/-- Witness for C14: the empty string and the string of the three
separators, with the sample tables. -/
theorem Is_false_on_separators_witness :
    (IsHiragana sampleTables [] = false ∧ IsKatakana sampleTables [] = false ∧
      IsKanji sampleTables [] = false) ∧
    (IsHiragana sampleTables " 　ー".toList = false ∧
      IsKatakana sampleTables " 　ー".toList = false ∧
      IsKanji sampleTables " 　ー".toList = false) :=
  ⟨Is_false_on_separators sampleTables [] rfl rfl (by decide),
    Is_false_on_separators sampleTables " 　ー".toList rfl rfl (by decide)⟩

/-- C15: `ContainsHiragana`, `ContainsKatakana` and `ContainsKanji` return
true exactly when some scalar of the string, as given, is in the script
class; each returns false on the empty string and on a string of spaces. -/
theorem Contains_iff_exists (s : GoString) :
    (ContainsHiragana s = true ↔ ∃ c ∈ s, unicodeIn (c.toNat : Int) unicodeHiragana = true) ∧
    (ContainsKatakana s = true ↔ ∃ c ∈ s, unicodeIn (c.toNat : Int) unicodeKatakana = true) ∧
    (ContainsKanji s = true ↔ ∃ c ∈ s, unicodeIn (c.toNat : Int) unicodeHan = true) ∧
    (ContainsHiragana [] = false ∧ ContainsKatakana [] = false ∧ ContainsKanji [] = false) ∧
    ((∀ c ∈ s, isSpace c = true) →
      ContainsHiragana s = false ∧ ContainsKatakana s = false ∧ ContainsKanji s = false) := by
  refine ⟨rangeAnyIn_iff _ s, rangeAnyIn_iff _ s, rangeAnyIn_iff _ s, ⟨rfl, rfl, rfl⟩, ?_⟩
  intro hs
  have key : ∀ tab : RangeTable, unicodeIn ((' ' : Char).toNat : Int) tab = false →
      unicodeIn (('　' : Char).toNat : Int) tab = false → rangeAnyIn tab s = false := by
    intro tab h1 h2
    cases hr : rangeAnyIn tab s with
    | false => rfl
    | true =>
      obtain ⟨c, hc, hin⟩ := (rangeAnyIn_iff tab s).1 hr
      have h3 := hs c hc
      simp only [isSpace, Bool.or_eq_true, beq_iff_eq] at h3
      rcases h3 with h3 | h3 <;> subst h3
      · rw [h1] at hin
        exact Bool.noConfusion hin
      · rw [h2] at hin
        exact Bool.noConfusion hin
  exact ⟨key _ (by decide) (by decide), key _ (by decide) (by decide),
    key _ (by decide) (by decide)⟩

/-- C16: a string with a hiragana scalar and a Han scalar is neither all
hiragana nor all kanji, and contains both. -/
theorem mixed_hiragana_kanji (T : Tables) (s : GoString)
    (hT : T.sanitizeIsChecks = specSanitizeIsChecks)
    (hK : T.sanitizeIsChecksKanji = specSanitizeIsChecksKanji)
    (hh : ∃ c ∈ s, unicodeIn (c.toNat : Int) unicodeHiragana = true)
    (hk : ∃ c ∈ s, unicodeIn (c.toNat : Int) unicodeHan = true) :
    IsHiragana T s = false ∧ IsKanji T s = false ∧
    ContainsHiragana s = true ∧ ContainsKanji s = true := by
  obtain ⟨h1, hh1, hh2⟩ := hh
  obtain ⟨k, hk1, hk2⟩ := hk
  have hchar := (Is_characterization T s hT hK).2.2
  refine ⟨?_, ?_, (rangeAnyIn_iff _ s).2 ⟨h1, hh1, hh2⟩, (rangeAnyIn_iff _ s).2 ⟨k, hk1, hk2⟩⟩
  · cases hr : IsHiragana T s with
    | false => rfl
    | true =>
      have hall := (hchar.1.1 hr).2 k hk1
      have hsep : isKanaSeparator k = false := by
        cases hs : isKanaSeparator k with
        | false => rfl
        | true =>
          simp only [isKanaSeparator, Bool.or_eq_true, beq_iff_eq] at hs
          rcases hs with (hs | hs) | hs <;> subst hs <;> revert hk2 <;> decide
      have := hall hsep
      rw [han_not_hiragana _ hk2] at this
      exact Bool.noConfusion this
  · cases hr : IsKanji T s with
    | false => rfl
    | true =>
      have hall := (hchar.2.2.1 hr).2 h1 hh1
      have hsep : isSpace h1 = false := by
        cases hs : isSpace h1 with
        | false => rfl
        | true =>
          simp only [isSpace, Bool.or_eq_true, beq_iff_eq] at hs
          rcases hs with hs | hs <;> subst hs <;> revert hh2 <;> decide
      have := han_not_hiragana _ (hall hsep)
      rw [hh2] at this
      exact Bool.noConfusion this

/-- Witness for C16: `食べる` with the sample tables. -/
theorem mixed_hiragana_kanji_witness :
    IsHiragana sampleTables "食べる".toList = false ∧
    IsKanji sampleTables "食べる".toList = false ∧
    ContainsHiragana "食べる".toList = true ∧ ContainsKanji "食べる".toList = true :=
  mixed_hiragana_kanji sampleTables "食べる".toList rfl rfl
    ⟨'べ', by decide, by decide⟩ ⟨'食', by decide, by decide⟩

/-- The loop of `ExtractKanji` appends the Han scalars of the rest of the
input, one string each, to the slice built so far. -/
theorem extractKanjiLoop_eq (k : List GoString) (s : GoString) :
    extractKanjiLoop k s =
      k ++ (s.filter (fun c => unicodeIn (c.toNat : Int) unicodeHan)).map (fun c => [c]) := by
  induction s generalizing k with
  | nil => simp [extractKanjiLoop]
  | cons c cs ih =>
    unfold extractKanjiLoop
    by_cases h : unicodeIn (c.toNat : Int) unicodeHan = true
    · simp [h, ih, runeToChar_toNat]
    · simp [h, ih]

/-- C17: `ExtractKanji` returns the Han scalars of the string, one one-scalar
string each, in order and with repeats; its length is the number of Han
scalars and its concatenation is the string without its other scalars. -/
theorem ExtractKanji_eq_filter (s : GoString) :
    ExtractKanji s =
      (s.filter (fun c => unicodeIn (c.toNat : Int) unicodeHan)).map (fun c => [c]) ∧
    (ExtractKanji s).length = s.countP (fun c => unicodeIn (c.toNat : Int) unicodeHan) ∧
    (ExtractKanji s).flatten = s.filter (fun c => unicodeIn (c.toNat : Int) unicodeHan) := by
  have h : ExtractKanji s =
      (s.filter (fun c => unicodeIn (c.toNat : Int) unicodeHan)).map (fun c => [c]) := by
    unfold ExtractKanji
    rw [extractKanjiLoop_eq]
    rfl
  refine ⟨h, ?_, ?_⟩
  · rw [h, List.length_map, List.countP_eq_length_filter]
  · rw [h]
    induction s.filter (fun c => unicodeIn (c.toNat : Int) unicodeHan) with
    | nil => rfl
    | cons c cs ih => simp [List.flatten, ih]

/-! ## Theorems: what the rewriter emits -/

/-- Every scalar emitted by the scan is a scalar of the input or of a
replacement of the table. -/
theorem mem_rewriteFrom (t : RuleTable) (n : Nat) (s : GoString) (c : Char)
    (h : c ∈ rewriteFrom t n s) : c ∈ s ∨ ∃ e ∈ t, c ∈ e.2 := by
  induction s generalizing n with
  | nil => simp [rewriteFrom] at h
  | cons d ds ih =>
    cases n with
    | succ k =>
      simp only [rewriteFrom] at h
      rcases ih k h with h1 | h1
      · exact Or.inl (List.mem_cons_of_mem _ h1)
      · exact Or.inr h1
    | zero =>
      simp only [rewriteFrom] at h
      cases hm : longestMatch t (d :: ds) with
      | none =>
        rw [hm] at h
        rcases List.mem_cons.1 h with h1 | h1
        · exact Or.inl (h1 ▸ List.mem_cons_self _ _)
        · rcases ih 0 h1 with h2 | h2
          · exact Or.inl (List.mem_cons_of_mem _ h2)
          · exact Or.inr h2
      | some e =>
        rw [hm] at h
        rcases List.mem_append.1 h with h1 | h1
        · exact Or.inr ⟨e, (longestMatch_some t _ e hm).1, h1⟩
        · rcases ih _ h1 with h2 | h2
          · exact Or.inl (List.mem_cons_of_mem _ h2)
          · exact Or.inr h2

/-- The two cases of `KatakanaToHiragana`. -/
theorem KatakanaToHiragana_cases (r : Int) :
    ∃ k : Int, KatakanaToHiragana r = k ∧
      ((k = r - 0x60 ∧ ((0x30A1 ≤ r ∧ r ≤ 0x30F6) ∨ (0x30FD ≤ r ∧ r ≤ 0x30FE))) ∨
        (k = r ∧ ¬ ((0x30A1 ≤ r ∧ r ≤ 0x30F6) ∨ (0x30FD ≤ r ∧ r ≤ 0x30FE)))) := by
  refine ⟨KatakanaToHiragana r, rfl, ?_⟩
  unfold KatakanaToHiragana
  delta Rune
  by_cases h : (r ≥ 0x30A1 ∧ r ≤ 0x30F6) ∨ (r ≥ 0x30FD ∧ r ≤ 0x30FE)
  · left
    rw [if_pos h]
    exact ⟨rfl, h⟩
  · right
    rw [if_neg h]
    exact ⟨rfl, h⟩

/-- The two cases of `HiraganaToKatakana`. -/
theorem HiraganaToKatakana_cases (r : Int) :
    ∃ k : Int, HiraganaToKatakana r = k ∧
      ((k = r + 0x60 ∧ ((0x3041 ≤ r ∧ r ≤ 0x3096) ∨ (0x309D ≤ r ∧ r ≤ 0x309E))) ∨
        (k = r ∧ ¬ ((0x3041 ≤ r ∧ r ≤ 0x3096) ∨ (0x309D ≤ r ∧ r ≤ 0x309E)))) := by
  refine ⟨HiraganaToKatakana r, rfl, ?_⟩
  unfold HiraganaToKatakana
  delta Rune
  by_cases h : (r ≥ 0x3041 ∧ r ≤ 0x3096) ∨ (r ≥ 0x309D ∧ r ≤ 0x309E)
  · left
    rw [if_pos h]
    exact ⟨rfl, h⟩
  · right
    rw [if_neg h]
    exact ⟨rfl, h⟩

/-- A rune at most 0x60 away from the rune of a scalar, and outside the
surrogates, is written as itself. -/
theorem toNat_runeToChar_of_bounds (r : Int) (h0 : 0 ≤ r)
    (hv : r < 0xD800 ∨ (0xDFFF < r ∧ r < 0x110000)) :
    ((runeToChar r).toNat : Int) = r := by
  apply toNat_runeToChar r h0
  rcases hv with hv | hv
  · left
    omega
  · right
    omega

/-- The katakana-to-hiragana swap pass leaves no swappable katakana. -/
theorem stringsMap_KatakanaToHiragana_clean (s : GoString) :
    ∀ c ∈ stringsMap KatakanaToHiragana s, isSwappableKatakana c = false := by
  intro c hc
  have hnn : ∀ d : Char, 0 ≤ KatakanaToHiragana (d.toNat : Int) := by
    intro d
    obtain ⟨k, hk, hcase⟩ := KatakanaToHiragana_cases (d.toNat : Int)
    rw [hk]
    show (0 : Int) ≤ k
    omega
  rw [stringsMap_eq_map _ _ (fun d _ => hnn d)] at hc
  obtain ⟨d, _, rfl⟩ := List.mem_map.1 hc
  have hv : d.toNat < 0xD800 ∨ (0xDFFF < d.toNat ∧ d.toNat < 0x110000) := d.valid
  have h0 := hnn d
  obtain ⟨k, hk, hcase⟩ := KatakanaToHiragana_cases (d.toNat : Int)
  rw [hk] at h0 ⊢
  have hn := toNat_runeToChar_of_bounds k h0 (by omega)
  simp only [isSwappableKatakana, Bool.or_eq_false_iff, Bool.and_eq_false_iff,
    decide_eq_false_iff_not, not_le]
  constructor <;> omega

/-- The hiragana-to-katakana swap pass leaves no swappable hiragana. -/
theorem stringsMap_HiraganaToKatakana_clean (s : GoString) :
    ∀ c ∈ stringsMap HiraganaToKatakana s, isSwappableHiragana c = false := by
  intro c hc
  have hnn : ∀ d : Char, 0 ≤ HiraganaToKatakana (d.toNat : Int) := by
    intro d
    obtain ⟨k, hk, hcase⟩ := HiraganaToKatakana_cases (d.toNat : Int)
    rw [hk]
    show (0 : Int) ≤ k
    omega
  rw [stringsMap_eq_map _ _ (fun d _ => hnn d)] at hc
  obtain ⟨d, _, rfl⟩ := List.mem_map.1 hc
  have hv : d.toNat < 0xD800 ∨ (0xDFFF < d.toNat ∧ d.toNat < 0x110000) := d.valid
  have h0 := hnn d
  obtain ⟨k, hk, hcase⟩ := HiraganaToKatakana_cases (d.toNat : Int)
  rw [hk] at h0 ⊢
  have hn := toNat_runeToChar_of_bounds k h0 (by omega)
  simp only [isSwappableHiragana, Bool.or_eq_false_iff, Bool.and_eq_false_iff,
    decide_eq_false_iff_not, not_le]
  constructor <;> omega

/-- A rewrite whose replacements hold no scalar of a class emits none on an
input that holds none. -/
theorem rewrite_clean (t : RuleTable) (P : Char → Bool)
    (ht : ∀ e ∈ t, ∀ c ∈ e.2, P c = false) (x : GoString) (hx : ∀ c ∈ x, P c = false) :
    ∀ c ∈ rewrite t x, P c = false := by
  intro c hc
  rcases mem_rewriteFrom t 0 x c hc with h | ⟨e, he, h⟩
  · exact hx c h
  · exact ht e he c h

/-- When the two stages after the swap pass (`postHiragana` then
`postKanaSpecial`) emit no katakana of ァ..ヶ or ヽ..ヾ on an input without
any, no scalar of `ToHiragana(s)` lies in these ranges; and when
`postKatakana` then `postKanaSpecial` emit no hiragana of ぁ..ゖ or ゝ..ゞ on
an input without any, no scalar of `ToKatakana(s)` lies in these ranges. -/
theorem no_swappable_kana_left (U : CaseTables) (T : Tables) (a0 b0 : Buffer) (s : GoString)
    (hH : ∀ x : GoString, (∀ c ∈ x, isSwappableKatakana c = false) →
      ∀ c ∈ T.postKanaSpecial (T.postHiragana x), isSwappableKatakana c = false)
    (hK : ∀ x : GoString, (∀ c ∈ x, isSwappableHiragana c = false) →
      ∀ c ∈ T.postKanaSpecial (T.postKatakana x), isSwappableHiragana c = false) :
    (∀ c ∈ ToHiragana U T a0 b0 s, isSwappableKatakana c = false) ∧
    (∀ c ∈ ToKatakana U T a0 b0 s, isSwappableHiragana c = false) := by
  constructor
  · rw [ToHiragana_eq_comp]
    exact hH _ (stringsMap_KatakanaToHiragana_clean _)
  · rw [ToKatakana_eq_comp]
    exact hK _ (stringsMap_HiraganaToKatakana_clean _)

set_option maxRecDepth 100000 in
/-- The replacements of the post-normalization tables of the hiragana pipeline
hold no katakana of ァ..ヶ or ヽ..ヾ, and those of the katakana pipeline no
hiragana of ぁ..ゖ or ゝ..ゞ, in the modelled tables. -/
theorem post_replacements_clean :
    (∀ e ∈ postHiraganaRules, ∀ c ∈ e.2, isSwappableKatakana c = false) ∧
    (∀ e ∈ postKanaRules, ∀ c ∈ e.2, isSwappableKatakana c = false) ∧
    (∀ e ∈ postKatakanaRules, ∀ c ∈ e.2, isSwappableHiragana c = false) ∧
    (∀ e ∈ postKanaRules, ∀ c ∈ e.2, isSwappableHiragana c = false) := by
  refine ⟨?_, ?_, ?_, ?_⟩ <;> decide

/-- C12: on the modelled tables and on the sample tables, for every input `s`,
whatever the case tables and the pooled buffers, no scalar of `ToHiragana(s)`
lies in the swappable katakana ranges ァ..ヶ or ヽ..ヾ, and no scalar of
`ToKatakana(s)` lies in the swappable hiragana ranges ぁ..ゖ or ゝ..ゞ: the
swap pass leaves none, and the two stages after it emit none. -/
theorem ToHiragana_leaves_no_katakana (U : CaseTables) (a0 b0 : Buffer) (s : GoString) :
    ((∀ c ∈ ToHiragana U specTables a0 b0 s, isSwappableKatakana c = false) ∧
      (∀ c ∈ ToKatakana U specTables a0 b0 s, isSwappableHiragana c = false)) ∧
    ((∀ c ∈ ToHiragana U sampleTables a0 b0 s, isSwappableKatakana c = false) ∧
      (∀ c ∈ ToKatakana U sampleTables a0 b0 s, isSwappableHiragana c = false)) :=
  ⟨no_swappable_kana_left U specTables a0 b0 s
      (fun x hx => rewrite_clean _ _ post_replacements_clean.2.1 _
        (rewrite_clean _ _ post_replacements_clean.1 x hx))
      (fun x hx => rewrite_clean _ _ post_replacements_clean.2.2.2 _
        (rewrite_clean _ _ post_replacements_clean.2.2.1 x hx)),
    no_swappable_kana_left U sampleTables a0 b0 s
      (fun x hx => rewrite_clean _ _ (by decide) _ (rewrite_clean _ _ (by decide) x hx))
      (fun x hx => rewrite_clean _ _ (by decide) _ (rewrite_clean _ _ (by decide) x hx))⟩

/-! ## Theorems: spans that no pattern touches -/

/-- A pattern without scalar of the non-empty span `w` matches `u ++ w ++ v`
at its first position exactly when it matches `u` there. -/
theorem hasPrefix_append_of_disjoint (p u w v : GoString) (hw : w ≠ [])
    (hp : ∀ c ∈ p, c ∉ w) : hasPrefix (u ++ (w ++ v)) p = hasPrefix u p := by
  induction p generalizing u with
  | nil => cases u <;> cases w <;> simp [hasPrefix]
  | cons d p ih =>
    cases u with
    | nil =>
      cases w with
      | nil => exact absurd rfl hw
      | cons c w' =>
        have hcd : c ≠ d := fun h =>
          hp d (List.mem_cons_self _ _) (h ▸ List.mem_cons_self _ _)
        simp [hasPrefix, hcd]
    | cons a u' =>
      show hasPrefix (a :: (u' ++ (w ++ v))) (d :: p) = hasPrefix (a :: u') (d :: p)
      simp only [hasPrefix]
      rw [ih u' (fun c hc => hp c (List.mem_cons_of_mem _ hc))]

/-- The table query depends on the input only through the patterns that
match it. -/
theorem longestMatch_congr (t : RuleTable) (s s' : GoString)
    (h : ∀ e ∈ t, hasPrefix s e.1 = hasPrefix s' e.1) :
    longestMatch t s = longestMatch t s' := by
  induction t with
  | nil => rfl
  | cons a t ih =>
    simp only [longestMatch]
    rw [h a (List.mem_cons_self _ _), ih (fun e he => h e (List.mem_cons_of_mem _ he))]

/-- When no non-empty pattern matches, the table query finds nothing. -/
theorem longestMatch_eq_none (t : RuleTable) (s : GoString)
    (h : ∀ e ∈ t, e.1 ≠ [] → hasPrefix s e.1 = false) : longestMatch t s = none := by
  cases hm : longestMatch t s with
  | none => rfl
  | some e =>
    obtain ⟨h1, h2, h3, _⟩ := longestMatch_some t s e hm
    rw [h e h1 h2] at h3
    exact Bool.noConfusion h3

/-- Scalars that occur in no pattern are copied by the scan. -/
theorem rewriteFrom_copy (t : RuleTable) (w v : GoString)
    (ht : ∀ e ∈ t, ∀ c ∈ e.1, c ∉ w) :
    rewriteFrom t 0 (w ++ v) = w ++ rewriteFrom t 0 v := by
  induction w with
  | nil => rfl
  | cons c w ih =>
    have hnone : longestMatch t (c :: (w ++ v)) = none := by
      apply longestMatch_eq_none
      intro e he hne
      cases hp : e.1 with
      | nil => exact absurd hp hne
      | cons d p =>
        have hcd : c ≠ d := fun h =>
          ht e he d (hp ▸ List.mem_cons_self _ _) (h ▸ List.mem_cons_self _ _)
        simp [hasPrefix, hcd]
    show rewriteFrom t 0 (c :: (w ++ v)) = c :: (w ++ rewriteFrom t 0 v)
    simp only [rewriteFrom, hnone]
    rw [ih (fun e he d hd hdw => ht e he d hd (List.mem_cons_of_mem _ hdw))]

/-- The scan of `u ++ w ++ v` is the scan of `u`, then `w`, then the scan of
`v`, when `w` is non-empty and none of its scalars occurs in a pattern. -/
theorem rewriteFrom_append_span (t : RuleTable) (w v : GoString) (hw : w ≠ [])
    (ht : ∀ e ∈ t, ∀ c ∈ e.1, c ∉ w) (u : GoString) :
    ∀ n : Nat, n ≤ u.length →
      rewriteFrom t n (u ++ (w ++ v)) = rewriteFrom t n u ++ (w ++ rewriteFrom t 0 v) := by
  induction u with
  | nil =>
    intro n hn
    have hn0 : n = 0 := by simpa using hn
    subst hn0
    simp only [List.nil_append, rewriteFrom]
    exact rewriteFrom_copy t w v ht
  | cons a u ih =>
    intro n hn
    cases n with
    | succ k =>
      show rewriteFrom t (k + 1) (a :: (u ++ (w ++ v))) =
        rewriteFrom t (k + 1) (a :: u) ++ (w ++ rewriteFrom t 0 v)
      simp only [rewriteFrom]
      exact ih k (by simpa using hn)
    | zero =>
      have hcongr : longestMatch t (a :: (u ++ (w ++ v))) = longestMatch t (a :: u) := by
        apply longestMatch_congr
        intro e he
        exact hasPrefix_append_of_disjoint e.1 (a :: u) w v hw (ht e he)
      show rewriteFrom t 0 (a :: (u ++ (w ++ v))) =
        rewriteFrom t 0 (a :: u) ++ (w ++ rewriteFrom t 0 v)
      simp only [rewriteFrom, hcongr]
      cases hm : longestMatch t (a :: u) with
      | none =>
        simp only []
        rw [ih 0 (Nat.zero_le _)]
        rfl
      | some e =>
        obtain ⟨_, _, h3, _⟩ := longestMatch_some t (a :: u) e hm
        obtain ⟨rest, hrest⟩ := (hasPrefix_iff e.1 (a :: u)).1 h3
        have hlen : e.1.length - 1 ≤ u.length := by
          have := congrArg List.length hrest
          simp only [List.length_cons, List.length_append] at this
          omega
        simp only []
        rw [ih _ hlen, List.append_assoc]

/-- The rewriter keeps every span none of whose scalars occurs in a pattern
of its table. -/
theorem rewrite_keepsSpan (t : RuleTable) (w : GoString)
    (ht : ∀ e ∈ t, ∀ c ∈ e.1, c ∉ w) : KeepsSpan (rewrite t) w := by
  rintro x ⟨u, v, rfl⟩
  by_cases hw : w = []
  · subst hw
    exact List.nil_infix
  · show w <:+: rewriteFrom t 0 (u ++ w ++ v)
    rw [List.append_assoc, rewriteFrom_append_span t w v hw ht u 0 (Nat.zero_le _)]
    exact ⟨rewriteFrom t 0 u, rewriteFrom t 0 v, by simp⟩

/-- `strings.Map` returns unchanged a string whose runes the mapping fixes. -/
theorem stringsMap_of_fixed (f : Rune → Rune) (w : GoString)
    (hf : ∀ c ∈ w, f (c.toNat : Int) = (c.toNat : Int)) : stringsMap f w = w := by
  rw [stringsMap_eq_map]
  · have hid : ∀ c ∈ w, runeToChar (f (c.toNat : Int)) = id c := by
      intro c hc
      rw [hf c hc, runeToChar_toNat]
      rfl
    rw [List.map_congr_left hid, List.map_id]
  · intro c hc
    rw [hf c hc]
    exact Int.natCast_nonneg _

/-- `strings.Map` works on each part of a concatenation. -/
theorem stringsMap_append (f : Rune → Rune) (x y : GoString) :
    stringsMap f (x ++ y) = stringsMap f x ++ stringsMap f y := by
  simp [stringsMap, List.filterMap_append]

/-- `strings.Map` keeps every span whose runes the mapping fixes. -/
theorem stringsMap_keepsSpan (f : Rune → Rune) (w : GoString)
    (hf : ∀ c ∈ w, f (c.toNat : Int) = (c.toNat : Int)) : KeepsSpan (stringsMap f) w := by
  rintro x ⟨u, v, rfl⟩
  rw [stringsMap_append, stringsMap_append, stringsMap_of_fixed f w hf]
  exact ⟨_, _, rfl⟩

/-- A string with a scalar outside ASCII is not all-ASCII. -/
theorem isASCII_false_of_mem (x : GoString) (c : Char) (hc : c ∈ x) (h : 0x80 ≤ c.toNat) :
    isASCII x = false := by
  cases hx : isASCII x with
  | false => rfl
  | true =>
    have := (isASCII_iff x).1 hx c hc
    omega

/-- `strings.ToLower` keeps every span of scalars outside ASCII that have no
lowercase mapping. -/
theorem stringsToLower_keepsSpan (U : CaseTables) (w : GoString)
    (hw : ∀ c ∈ w, 0x80 ≤ c.toNat ∧ U.toLower (c.toNat : Int) = (c.toNat : Int)) :
    KeepsSpan (stringsToLower U) w := by
  intro x hx
  cases w with
  | nil => exact List.nil_infix
  | cons c w' =>
    have hcx : c ∈ x := by
      obtain ⟨u, v, rfl⟩ := hx
      simp
    have hna := isASCII_false_of_mem x c hcx (hw c (List.mem_cons_self _ _)).1
    have hmap : stringsToLower U x = stringsMap (unicodeToLower U) x := by
      unfold stringsToLower
      simp [hna]
    rw [hmap]
    apply stringsMap_keepsSpan _ _ _ x hx
    intro d hd
    obtain ⟨h1, h2⟩ := hw d hd
    unfold unicodeToLower
    rw [if_neg (by delta Rune; omega)]
    exact h2

/-- `strings.ToUpper` keeps every span of scalars outside ASCII that have no
uppercase mapping. -/
theorem stringsToUpper_keepsSpan (U : CaseTables) (w : GoString)
    (hw : ∀ c ∈ w, 0x80 ≤ c.toNat ∧ U.toUpper (c.toNat : Int) = (c.toNat : Int)) :
    KeepsSpan (stringsToUpper U) w := by
  intro x hx
  cases w with
  | nil => exact List.nil_infix
  | cons c w' =>
    have hcx : c ∈ x := by
      obtain ⟨u, v, rfl⟩ := hx
      simp
    have hna := isASCII_false_of_mem x c hcx (hw c (List.mem_cons_self _ _)).1
    have hmap : stringsToUpper U x = stringsMap (unicodeToUpper U) x := by
      unfold stringsToUpper
      simp [hna]
    rw [hmap]
    apply stringsMap_keepsSpan _ _ _ x hx
    intro d hd
    obtain ⟨h1, h2⟩ := hw d hd
    unfold unicodeToUpper
    rw [if_neg (by delta Rune; omega)]
    exact h2

/-- Both script swaps fix every rune of the Han class. -/
theorem swap_fixes_han (r : Int) (h : unicodeIn r unicodeHan = true) :
    KatakanaToHiragana r = r ∧ HiraganaToKatakana r = r := by
  have hr := han_range r h
  obtain ⟨k, hk, hcase⟩ := KatakanaToHiragana_cases r
  obtain ⟨k', hk', hcase'⟩ := HiraganaToKatakana_cases r
  rw [hk, hk']
  show (k : Int) = r ∧ (k' : Int) = r
  constructor <;> omega

/-- `ToRomajiCased` is the composition of its stages. -/
theorem ToRomajiCased_eq_comp (T : Tables) (a0 b0 : Buffer) (s : GoString)
    (phonetic : Bool) :
    ToRomajiCased T a0 b0 s phonetic =
      T.postRomajiSpecial (T.parseRomajiDoubles (toRunes
        ((if phonetic then T.phoneticRomaji else T.unphoneticRomaji)
          (T.kanaToRomaji (T.moraicNRomaji s))))) := by
  cases phonetic <;>
    simp [ToRomajiCased, unsafeString_eq, Replacer.WriteString, Buffer.Reset, Buffer.String]

/-- The modelled gemination step emits one scalar for each rune. -/
theorem sampleParseRomajiDoubles_cons (r : Rune) (rest : List Rune) :
    ∃ c, sampleParseRomajiDoubles (r :: rest) = c :: sampleParseRomajiDoubles rest :=
  ⟨_, rfl⟩

/-- The modelled gemination step works on a suffix independently of what
precedes it. -/
theorem sampleParseRomajiDoubles_append (ru rest : List Rune) :
    ∃ u, sampleParseRomajiDoubles (ru ++ rest) = u ++ sampleParseRomajiDoubles rest := by
  induction ru with
  | nil => exact ⟨[], rfl⟩
  | cons r ru ih =>
    obtain ⟨u, hu⟩ := ih
    obtain ⟨c, hc⟩ := sampleParseRomajiDoubles_cons r (ru ++ rest)
    exact ⟨c :: u, by rw [List.cons_append, hc, hu]; rfl⟩

/-- The modelled gemination step copies a span without small-tsu mark. -/
theorem sampleParseRomajiDoubles_copy (w : GoString) (rest : List Rune)
    (hw : ∀ c ∈ w, c ≠ 'っ' ∧ c ≠ 'ッ') :
    sampleParseRomajiDoubles (toRunes w ++ rest) = w ++ sampleParseRomajiDoubles rest := by
  induction w with
  | nil => rfl
  | cons c w ih =>
    obtain ⟨h1, h2⟩ := hw c (List.mem_cons_self _ _)
    have n1 : ¬ ((c.toNat : Int) = 0x3063) := by
      intro h
      exact h1 (char_eq_of_toNat_eq c 'っ' (by
        have : ('っ' : Char).toNat = 0x3063 := by decide
        omega))
    have n2 : ¬ ((c.toNat : Int) = 0x30C3) := by
      intro h
      exact h2 (char_eq_of_toNat_eq c 'ッ' (by
        have : ('ッ' : Char).toNat = 0x30C3 := by decide
        omega))
    show sampleParseRomajiDoubles ((c.toNat : Int) :: (toRunes w ++ rest)) = _
    simp only [sampleParseRomajiDoubles, n1, n2, if_false, runeToChar_toNat]
    rw [ih (fun d hd => hw d (List.mem_cons_of_mem _ hd))]
    rfl

/-- The modelled gemination step keeps every span without small-tsu mark. -/
theorem sampleParseRomajiDoubles_keepsSpan (w : GoString)
    (hw : ∀ c ∈ w, c ≠ 'っ' ∧ c ≠ 'ッ') :
    KeepsSpan (fun x => sampleParseRomajiDoubles (toRunes x)) w := by
  rintro x ⟨u, v, rfl⟩
  show w <:+: sampleParseRomajiDoubles (toRunes (u ++ w ++ v))
  have ht : toRunes (u ++ w ++ v) = toRunes u ++ (toRunes w ++ toRunes v) := by
    simp [toRunes]
  obtain ⟨u', hu'⟩ := sampleParseRomajiDoubles_append (toRunes u) (toRunes w ++ toRunes v)
  rw [ht, hu', sampleParseRomajiDoubles_copy w _ hw]
  exact ⟨u', sampleParseRomajiDoubles (toRunes v), by simp⟩

/-- C11 (as stated, refuted): the Latin span `tabete` is romaji input and
`ToHiragana` turns it into `たべて`; the Latin span `ABC` is folded to `abc`
by `ToRomaji`. -/
theorem latin_span_counterexample :
    ToHiragana caselessTables sampleTables ⟨[]⟩ ⟨[]⟩ "tabete".toList = "たべて".toList ∧
    ¬ ("tabete".toList <:+:
      ToHiragana caselessTables sampleTables ⟨[]⟩ ⟨[]⟩ "tabete".toList) ∧
    ToRomaji caselessTables sampleTables ⟨[]⟩ ⟨[]⟩ "ABC".toList false = "abc".toList ∧
    ¬ ("ABC".toList <:+:
      ToRomaji caselessTables sampleTables ⟨[]⟩ ⟨[]⟩ "ABC".toList false) := by
  decide

/-- C11 (amended): a span of kanji (scalars of the Han class, which have no
case mapping) that occurs in the input occurs unchanged in the output of
`ToRomajiCased`, `ToRomaji`, `ToHiragana`, `ToKatakana` and `ToKana`, when
every rewriting stage keeps the span. -/
theorem kanji_span_passes_through (U : CaseTables) (T : Tables) (a0 b0 : Buffer)
    (s w : GoString) (phonetic : Bool)
    (hHan : ∀ c ∈ w, unicodeIn (c.toNat : Int) unicodeHan = true)
    (hU : ∀ c ∈ w, U.toLower (c.toNat : Int) = (c.toNat : Int) ∧
      U.toUpper (c.toNat : Int) = (c.toNat : Int))
    (hT : T.KeepsSpan w)
    (hs : w <:+: s) :
    w <:+: ToRomajiCased T a0 b0 s phonetic ∧
    w <:+: ToRomaji U T a0 b0 s phonetic ∧
    w <:+: ToHiragana U T a0 b0 s ∧
    w <:+: ToKatakana U T a0 b0 s ∧
    w <:+: ToKana T a0 b0 s := by
  obtain ⟨hMoraic, hMain, hPhon, hUnphon, hDoubles, hPostR, hPreH, hMainH, hPostH,
    hPreK, hMainK, hPostK, hSpecial⟩ := hT
  have hge : ∀ c ∈ w, 0x80 ≤ c.toNat := by
    intro c hc
    have := han_range _ (hHan c hc)
    omega
  have hLower := stringsToLower_keepsSpan U w (fun c hc => ⟨hge c hc, (hU c hc).1⟩)
  have hUpper := stringsToUpper_keepsSpan U w (fun c hc => ⟨hge c hc, (hU c hc).2⟩)
  have hK2H := stringsMap_keepsSpan KatakanaToHiragana w
    (fun c hc => (swap_fixes_han _ (hHan c hc)).1)
  have hH2K := stringsMap_keepsSpan HiraganaToKatakana w
    (fun c hc => (swap_fixes_han _ (hHan c hc)).2)
  have hCased : w <:+: ToRomajiCased T a0 b0 s phonetic := by
    rw [ToRomajiCased_eq_comp]
    apply hPostR
    apply hDoubles
    cases phonetic
    · exact hUnphon _ (hMain _ (hMoraic _ hs))
    · exact hPhon _ (hMain _ (hMoraic _ hs))
  refine ⟨hCased, hLower _ hCased, ?_, ?_, ?_⟩
  · rw [ToHiragana_eq_comp]
    exact hSpecial _ (hPostH _ (hK2H _ (hMainH _ (hPreH _ (hLower _ hs)))))
  · rw [ToKatakana_eq_comp]
    exact hSpecial _ (hPostK _ (hH2K _ (hMainK _ (hPreK _ (hUpper _ hs)))))
  · rw [ToKana_eq_comp]
    exact hSpecial _ (hPostK _ (hPostH _ (hMainK _ (hMainH _ (hPreK _ (hPreH _ hs))))))

/-- The sample tables keep the span `食`: no pattern holds this scalar. -/
theorem sampleTables_keepsSpan : sampleTables.KeepsSpan "食".toList :=
  ⟨rewrite_keepsSpan _ _ (by decide), rewrite_keepsSpan _ _ (by decide),
    rewrite_keepsSpan _ _ (by decide), rewrite_keepsSpan _ _ (by decide),
    sampleParseRomajiDoubles_keepsSpan _ (by decide),
    rewrite_keepsSpan _ _ (by decide), rewrite_keepsSpan _ _ (by decide),
    rewrite_keepsSpan _ _ (by decide), rewrite_keepsSpan _ _ (by decide),
    rewrite_keepsSpan _ _ (by decide), rewrite_keepsSpan _ _ (by decide),
    rewrite_keepsSpan _ _ (by decide), rewrite_keepsSpan _ _ (by decide)⟩

/-- Witness for C11 (amended): the span `食` of `食べ物` with the sample
tables; `ToRomaji` returns `食be物`. -/
theorem kanji_span_passes_through_witness :
    ToRomaji caselessTables sampleTables ⟨[]⟩ ⟨[]⟩ "食べ物".toList false = "食be物".toList ∧
    "食".toList <:+: ToRomaji caselessTables sampleTables ⟨[]⟩ ⟨[]⟩ "食べ物".toList false ∧
    "食".toList <:+: ToHiragana caselessTables sampleTables ⟨[]⟩ ⟨[]⟩ "食べ物".toList ∧
    "食".toList <:+: ToKana sampleTables ⟨[]⟩ ⟨[]⟩ "食べ物".toList :=
  have hw := kanji_span_passes_through caselessTables sampleTables ⟨[]⟩ ⟨[]⟩
    "食べ物".toList "食".toList false (by decide) (by decide) sampleTables_keepsSpan
    (by decide)
  ⟨by decide, hw.2.1, hw.2.2.1, hw.2.2.2.2⟩

/-! ## Theorems: the modelled tables, one scalar at a time -/

/-- The rewriter copies a scalar that occurs in no pattern of its table. -/
theorem rewrite_cons_copy (t : RuleTable) (c : Char) (s : GoString)
    (ht : ∀ e ∈ t, c ∉ e.1) : rewrite t (c :: s) = c :: rewrite t s := by
  have h := rewriteFrom_copy t [c] s (fun e he d hd hdc => by
    rw [List.mem_singleton] at hdc
    subst hdc
    exact ht e he hd)
  exact h

/-- The rewriter replaces a scalar that is a pattern of its own and begins no
other pattern. -/
theorem rewrite_cons_single (t : RuleTable) (c : Char) (r s : GoString)
    (hmem : ([c], r) ∈ t)
    (ht : ∀ e ∈ t, e.1.head? = some c → e = ([c], r)) :
    rewrite t (c :: s) = r ++ rewrite t s := by
  show rewriteFrom t 0 (c :: s) = r ++ rewriteFrom t 0 s
  cases hm : longestMatch t (c :: s) with
  | none =>
    have := longestMatch_none t (c :: s) hm ([c], r) hmem (by simp)
    simp [hasPrefix] at this
  | some e =>
    obtain ⟨h1, h2, h3, _⟩ := longestMatch_some t (c :: s) e hm
    have hhead : e.1.head? = some c := by
      cases he : e.1 with
      | nil => exact absurd he h2
      | cons d p =>
        rw [he] at h3
        simp only [hasPrefix, Bool.and_eq_true, beq_iff_eq] at h3
        simp [h3.1]
    have heq := ht e h1 hhead
    subst heq
    simp only [rewriteFrom, hm]
    rfl

/-- The modelled gemination step copies a rune that is no small-tsu mark. -/
theorem sampleParseRomajiDoubles_cons_plain (r : Rune) (rest : List Rune)
    (h1 : ¬ (r = 0x3063)) (h2 : ¬ (r = 0x30C3)) :
    sampleParseRomajiDoubles (r :: rest) = runeToChar r :: sampleParseRomajiDoubles rest := by
  simp only [sampleParseRomajiDoubles, h1, h2, if_false]

/-- The letter the modelled gemination step writes for a small-tsu mark before
the consonant letter `h`: `t` before `c`, the letter itself otherwise. -/
theorem sampleParseRomajiDoubles_tsu (h : Char) (rest : List Rune)
    (hlow : 0x61 ≤ h.toNat ∧ h.toNat ≤ 0x7A)
    (hcons : h ≠ 'a' ∧ h ≠ 'e' ∧ h ≠ 'i' ∧ h ≠ 'o' ∧ h ≠ 'u') :
    sampleParseRomajiDoubles (0x3063 :: (h.toNat : Int) :: rest) =
      (if h = 'c' then 't' else h) ::
        sampleParseRomajiDoubles ((h.toNat : Int) :: rest) := by
  have hne : ∀ d : Char, h ≠ d → h.toNat ≠ d.toNat :=
    fun d hd heq => hd (char_eq_of_toNat_eq h d heq)
  have ha := hne 'a' hcons.1
  have he := hne 'e' hcons.2.1
  have hi := hne 'i' hcons.2.2.1
  have ho := hne 'o' hcons.2.2.2.1
  have hu := hne 'u' hcons.2.2.2.2
  have va : ('a' : Char).toNat = 0x61 := by decide
  have ve : ('e' : Char).toNat = 0x65 := by decide
  have vi : ('i' : Char).toNat = 0x69 := by decide
  have vo : ('o' : Char).toNat = 0x6F := by decide
  have vu : ('u' : Char).toNat = 0x75 := by decide
  have vc : ('c' : Char).toNat = 0x63 := by decide
  have hcond : (decide ((0x61 : Int) ≤ (h.toNat : Int) ∧ (h.toNat : Int) ≤ 0x7A) &&
      !(decide ((h.toNat : Int) - 0x61 = 0) || decide ((h.toNat : Int) - 0x61 = 4) ||
        decide ((h.toNat : Int) - 0x61 = 8) || decide ((h.toNat : Int) - 0x61 = 14) ||
        decide ((h.toNat : Int) - 0x61 = 20))) = true := by
    simp only [Bool.and_eq_true, decide_eq_true_eq, Bool.not_eq_true', Bool.or_eq_false_iff,
      decide_eq_false_iff_not]
    refine ⟨⟨by omega, by omega⟩, ⟨⟨⟨⟨by omega, by omega⟩, by omega⟩, by omega⟩, by omega⟩⟩
  have hrec : sampleParseRomajiDoubles (0x3063 :: (h.toNat : Int) :: rest) =
      (if (h.toNat : Int) - 0x61 = 2 then runeToChar (0x61 + 19)
        else runeToChar (h.toNat : Int)) ::
        sampleParseRomajiDoubles ((h.toNat : Int) :: rest) := by
    conv_lhs => rw [sampleParseRomajiDoubles]
    simp only [if_true, hcond]
  rw [hrec]
  congr 1
  by_cases hc : h = 'c'
  · subst hc
    decide
  · have hc' := hne 'c' hc
    rw [if_neg hc, if_neg (by omega), runeToChar_toNat]

/-- The rewriter copies a scalar that begins no pattern of its table. -/
theorem rewrite_cons_skip (t : RuleTable) (c : Char) (s : GoString)
    (ht : ∀ e ∈ t, e.1.head? ≠ some c) : rewrite t (c :: s) = c :: rewrite t s := by
  show rewriteFrom t 0 (c :: s) = c :: rewriteFrom t 0 s
  have hnone : longestMatch t (c :: s) = none := by
    apply longestMatch_eq_none
    intro e he hne
    cases hp : e.1 with
    | nil => exact absurd hp hne
    | cons d p =>
      have hcd : c ≠ d := by
        intro h
        apply ht e he
        rw [hp, h]
        rfl
      simp [hasPrefix, hcd]
  simp only [rewriteFrom, hnone]

/-- `strings.ToLower` is `strings.Map` with `unicode.ToLower` on every string. -/
theorem stringsToLower_eq_stringsMap (U : CaseTables) (s : GoString) :
    stringsToLower U s = stringsMap (unicodeToLower U) s := by
  by_cases ha : isASCII s = true
  · have ha' := (isASCII_iff s).1 ha
    have hval : ∀ c ∈ s, unicodeToLower U (c.toNat : Int) =
        ((asciiToLower c).toNat : Int) := by
      intro c hc
      have hlt := ha' c hc
      rw [asciiToLower_toNat]
      unfold unicodeToLower
      delta Rune
      split_ifs <;> omega
    rw [stringsToLower_ascii U s ha', stringsMap_eq_map]
    · apply List.map_congr_left
      intro c hc
      rw [hval c hc, runeToChar_toNat]
    · intro c hc
      rw [hval c hc]
      exact Int.natCast_nonneg _
  · unfold stringsToLower
    simp only [ha, Bool.false_eq_true, if_false]

/-- `strings.ToLower` copies a first scalar that `unicode.ToLower` fixes. -/
theorem stringsToLower_cons_fixed (U : CaseTables) (c : Char) (s : GoString)
    (h : unicodeToLower U (c.toNat : Int) = (c.toNat : Int)) :
    stringsToLower U (c :: s) = c :: stringsToLower U s := by
  rw [stringsToLower_eq_stringsMap, stringsToLower_eq_stringsMap]
  have h0 : (0 : Int) ≤ (c.toNat : Int) := Int.natCast_nonneg _
  simp only [stringsMap, List.filterMap_cons, h, h0, if_true, runeToChar_toNat]

/-- Every lowercase ASCII letter is fixed by `unicode.ToLower`. -/
theorem unicodeToLower_lowercase (U : CaseTables) (c : Char)
    (h : 0x61 ≤ c.toNat ∧ c.toNat ≤ 0x7A) :
    unicodeToLower U (c.toNat : Int) = (c.toNat : Int) := by
  unfold unicodeToLower
  delta Rune
  rw [if_pos (by omega), if_neg (by omega)]

/-! ## Theorems: gemination in the kana-to-romaji direction -/

set_option maxRecDepth 100000 in
/-- No pattern and no replacement of the kana-to-romaji tables holds a small
tsu. -/
theorem specTables_no_small_tsu :
    (∀ e ∈ moraicNRules, (∀ c ∈ e.1, isSmallTsu c = false) ∧ ∀ c ∈ e.2, isSmallTsu c = false) ∧
    (∀ e ∈ kanaToRomajiRules,
      (∀ c ∈ e.1, isSmallTsu c = false) ∧ ∀ c ∈ e.2, isSmallTsu c = false) ∧
    (∀ e ∈ phoneticRules, (∀ c ∈ e.1, isSmallTsu c = false) ∧ ∀ c ∈ e.2, isSmallTsu c = false) ∧
    (∀ e ∈ unphoneticRules,
      (∀ c ∈ e.1, isSmallTsu c = false) ∧ ∀ c ∈ e.2, isSmallTsu c = false) := by
  decide

/-- The only rule of the romaji special characters. -/
theorem postRomajiRules_eq : postRomajiRules = [(['ー'], ['-'])] := by decide

/-- The romaji special-character stage copies every scalar but the long-vowel
mark. -/
theorem postRomaji_cons_copy (c : Char) (s : GoString) (hc : c ≠ 'ー') :
    rewrite postRomajiRules (c :: s) = c :: rewrite postRomajiRules s := by
  apply rewrite_cons_copy
  rw [postRomajiRules_eq]
  intro e he
  rw [List.mem_singleton] at he
  subst he
  simpa using hc

/-- Gemination on the stages of the kana-to-romaji pipeline, for any
phonetic/literal table `V` without small tsu: when the romaji of `m` begins
with the lowercase consonant letter `h`, the romaji of っ followed by `m` is
that romaji behind the letter written for the small tsu. -/
theorem small_tsu_core (V : RuleTable)
    (fV : ∀ e ∈ V, (∀ c ∈ e.1, isSmallTsu c = false) ∧ ∀ c ∈ e.2, isSmallTsu c = false)
    (m y : GoString) (h : Char)
    (hm : ∀ c ∈ m, isSmallTsu c = false)
    (hlow : 0x61 ≤ h.toNat ∧ h.toNat ≤ 0x7A)
    (hcons : h ≠ 'a' ∧ h ≠ 'e' ∧ h ≠ 'i' ∧ h ≠ 'o' ∧ h ≠ 'u')
    (hy : rewrite postRomajiRules (sampleParseRomajiDoubles (toRunes
      (rewrite V (rewrite kanaToRomajiRules (rewrite moraicNRules m))))) = h :: y) :
    rewrite postRomajiRules (sampleParseRomajiDoubles (toRunes
      (rewrite V (rewrite kanaToRomajiRules (rewrite moraicNRules ('っ' :: m)))))) =
      geminateLetter h :: h :: y := by
  obtain ⟨f1, f2, _, _⟩ := specTables_no_small_tsu
  have htsu : isSmallTsu 'っ' = true := by decide
  have hnot : ∀ (t : RuleTable),
      (∀ e ∈ t, (∀ c ∈ e.1, isSmallTsu c = false) ∧ ∀ c ∈ e.2, isSmallTsu c = false) →
      ∀ e ∈ t, 'っ' ∉ e.1 := by
    intro t ft e he hin
    have := (ft e he).1 'っ' hin
    rw [htsu] at this
    exact Bool.noConfusion this
  have hclean : ∀ c ∈ rewrite V (rewrite kanaToRomajiRules (rewrite moraicNRules m)),
      isSmallTsu c = false :=
    rewrite_clean V isSmallTsu (fun e he => (fV e he).2) _
      (rewrite_clean _ isSmallTsu (fun e he => (f2 e he).2) _
        (rewrite_clean _ isSmallTsu (fun e he => (f1 e he).2) _ hm))
  rw [rewrite_cons_copy moraicNRules 'っ' m (hnot _ f1),
    rewrite_cons_copy kanaToRomajiRules 'っ' _ (hnot _ f2),
    rewrite_cons_copy V 'っ' _ (hnot _ fV)]
  generalize rewrite V (rewrite kanaToRomajiRules (rewrite moraicNRules m)) = x0 at hy hclean ⊢
  cases x0 with
  | nil =>
    have h0 : ([] : GoString) = h :: y := hy
    cases h0
  | cons c0 x0 =>
    have hc0 := hclean c0 (List.mem_cons_self _ _)
    simp only [isSmallTsu, Bool.or_eq_false_iff, beq_eq_false_iff_ne, ne_eq] at hc0
    have n1 : ¬ ((c0.toNat : Int) = 0x3063) := by
      intro hh
      exact hc0.1 (char_eq_of_toNat_eq c0 'っ' (by
        have : ('っ' : Char).toNat = 0x3063 := by decide
        omega))
    have n2 : ¬ ((c0.toNat : Int) = 0x30C3) := by
      intro hh
      exact hc0.2 (char_eq_of_toNat_eq c0 'ッ' (by
        have : ('ッ' : Char).toNat = 0x30C3 := by decide
        omega))
    have hparse0 : sampleParseRomajiDoubles (toRunes (c0 :: x0)) =
        c0 :: sampleParseRomajiDoubles (toRunes x0) := by
      show sampleParseRomajiDoubles ((c0.toNat : Int) :: toRunes x0) = _
      rw [sampleParseRomajiDoubles_cons_plain _ _ n1 n2, runeToChar_toNat]
    rw [hparse0] at hy
    have hbar : c0 ≠ 'ー' := by
      intro hh
      subst hh
      rw [rewrite_cons_single postRomajiRules 'ー' ['-'] _ (by decide) (by decide)] at hy
      have hh : '-' = h := by
        injection hy
      subst hh
      revert hlow
      decide
    rw [postRomaji_cons_copy c0 _ hbar] at hy
    have hch : c0 = h := by
      injection hy
    subst hch
    have hg : geminateLetter c0 ≠ 'ー' := by
      unfold geminateLetter
      split_ifs
      · decide
      · exact hbar
    show rewrite postRomajiRules (sampleParseRomajiDoubles
      (0x3063 :: (c0.toNat : Int) :: toRunes x0)) = _
    rw [sampleParseRomajiDoubles_tsu c0 _ hlow hcons]
    show rewrite postRomajiRules (geminateLetter c0 ::
      sampleParseRomajiDoubles (toRunes (c0 :: x0))) = _
    have hyy : rewrite postRomajiRules (sampleParseRomajiDoubles (toRunes x0)) = y := by
      injection hy
    rw [postRomaji_cons_copy _ _ hg, hparse0, postRomaji_cons_copy c0 _ hbar, hyy]

/-- `ToRomajiCased` on the modelled tables, stage by stage. -/
theorem specTables_ToRomajiCased (a0 b0 : Buffer) (s : GoString) (phonetic : Bool) :
    ToRomajiCased specTables a0 b0 s phonetic =
      rewrite postRomajiRules (sampleParseRomajiDoubles (toRunes
        (rewrite (if phonetic then phoneticRules else unphoneticRules)
          (rewrite kanaToRomajiRules (rewrite moraicNRules s))))) := by
  rw [ToRomajiCased_eq_comp]
  cases phonetic <;> rfl

set_option maxRecDepth 100000 in
/-- C19 (as stated, refuted): the romaji of ち is `chi` and begins with the
consonant `c`, and the romaji of っち is `tchi`, not `c` followed by `chi`. -/
theorem small_tsu_before_ch_counterexample :
    ToRomaji caselessTables specTables ⟨[]⟩ ⟨[]⟩ "ち".toList false = "chi".toList ∧
    ToRomaji caselessTables specTables ⟨[]⟩ ⟨[]⟩ "っち".toList false = "tchi".toList ∧
    ToRomaji caselessTables specTables ⟨[]⟩ ⟨[]⟩ "っち".toList false ≠
      'c' :: ToRomaji caselessTables specTables ⟨[]⟩ ⟨[]⟩ "ち".toList false := by
  decide

/-- Gemination on the modelled tables in the kana-to-romaji direction, for
`ToRomajiCased` and `ToRomaji`. -/
theorem small_tsu_romaji (U : CaseTables) (a0 b0 a1 b1 : Buffer)
    (phonetic : Bool) (m y : GoString) (h : Char)
    (hm : ∀ c ∈ m, isSmallTsu c = false)
    (hlow : 0x61 ≤ h.toNat ∧ h.toNat ≤ 0x7A)
    (hcons : h ≠ 'a' ∧ h ≠ 'e' ∧ h ≠ 'i' ∧ h ≠ 'o' ∧ h ≠ 'u')
    (hy : ToRomajiCased specTables a0 b0 m phonetic = h :: y) :
    ToRomajiCased specTables a1 b1 ('っ' :: m) phonetic =
      geminateLetter h :: ToRomajiCased specTables a0 b0 m phonetic ∧
    ToRomaji U specTables a1 b1 ('っ' :: m) phonetic =
      geminateLetter h :: ToRomaji U specTables a0 b0 m phonetic := by
  obtain ⟨_, _, f3, f4⟩ := specTables_no_small_tsu
  have hcased : ToRomajiCased specTables a1 b1 ('っ' :: m) phonetic =
      geminateLetter h :: ToRomajiCased specTables a0 b0 m phonetic := by
    rw [hy]
    rw [specTables_ToRomajiCased] at hy ⊢
    cases phonetic
    · simp only [Bool.false_eq_true, if_false] at hy ⊢
      exact small_tsu_core unphoneticRules f4 m y h hm hlow hcons hy
    · simp only [if_true] at hy ⊢
      exact small_tsu_core phoneticRules f3 m y h hm hlow hcons hy
  refine ⟨hcased, ?_⟩
  have hglow : 0x61 ≤ (geminateLetter h).toNat ∧ (geminateLetter h).toNat ≤ 0x7A := by
    unfold geminateLetter
    split_ifs
    · decide
    · exact hlow
  show stringsToLower U (ToRomajiCased specTables a1 b1 ('っ' :: m) phonetic) =
    geminateLetter h :: stringsToLower U (ToRomajiCased specTables a0 b0 m phonetic)
  rw [hcased, stringsToLower_cons_fixed U _ _ (unicodeToLower_lowercase U _ hglow)]

/-- C19 (amended): for every kana string `m` without small tsu whose romaji
begins with a lowercase consonant letter `h`, the romaji of っ followed by `m`
is the romaji of `m` behind one more letter: `h` itself, or `t` when `h` is
`c`; this holds for `ToRomajiCased` and for `ToRomaji`. -/
theorem small_tsu_doubles_consonant (U : CaseTables) (a0 b0 a1 b1 : Buffer)
    (phonetic : Bool) (m y : GoString) (h : Char)
    (hm : ∀ c ∈ m, isSmallTsu c = false)
    (hlow : 0x61 ≤ h.toNat ∧ h.toNat ≤ 0x7A)
    (hcons : h ≠ 'a' ∧ h ≠ 'e' ∧ h ≠ 'i' ∧ h ≠ 'o' ∧ h ≠ 'u')
    (hy : ToRomajiCased specTables a0 b0 m phonetic = h :: y) :
    ToRomajiCased specTables a1 b1 ('っ' :: m) phonetic =
      geminateLetter h :: ToRomajiCased specTables a0 b0 m phonetic ∧
    ToRomaji U specTables a1 b1 ('っ' :: m) phonetic =
      geminateLetter h :: ToRomaji U specTables a0 b0 m phonetic :=
  small_tsu_romaji U a0 b0 a1 b1 phonetic m y h hm hlow hcons hy

set_option maxRecDepth 100000 in
/-- Witness for C19 (amended): small tsu before か gives `kka`. -/
theorem small_tsu_doubles_consonant_witness :
    ToRomaji caselessTables specTables ⟨[]⟩ ⟨[]⟩ "か".toList false = "ka".toList ∧
    ToRomaji caselessTables specTables ⟨[]⟩ ⟨[]⟩ "っか".toList false =
      'k' :: ToRomaji caselessTables specTables ⟨[]⟩ ⟨[]⟩ "か".toList false :=
  ⟨by decide,
    (small_tsu_doubles_consonant caselessTables ⟨[]⟩ ⟨[]⟩ ⟨[]⟩ ⟨[]⟩ false "か".toList
      "a".toList 'k' (by decide) (by decide) (by decide) (by decide)).2⟩

/-! ## Theorems: the moraic n in the kana-to-romaji direction -/

/-- When an entry matches and every matching entry is that entry, the
rewriter emits its replacement and goes on behind its pattern. -/
theorem rewrite_of_unique_match (t : RuleTable) (e : GoString × GoString) (s : GoString)
    (he : e ∈ t) (hne : e.1 ≠ [])
    (huniq : ∀ f ∈ t, f.1 ≠ [] → hasPrefix (e.1 ++ s) f.1 = true → f = e) :
    rewrite t (e.1 ++ s) = e.2 ++ rewrite t s := by
  show rewriteFrom t 0 (e.1 ++ s) = e.2 ++ rewriteFrom t 0 s
  cases hp : e.1 with
  | nil => exact absurd hp hne
  | cons c p =>
    have hmatch : hasPrefix (e.1 ++ s) e.1 = true := (hasPrefix_iff _ _).2 ⟨s, rfl⟩
    cases hm : longestMatch t (e.1 ++ s) with
    | none =>
      have := longestMatch_none t _ hm e he hne
      rw [hmatch] at this
      exact Bool.noConfusion this
    | some f =>
      obtain ⟨h1, h2, h3, _⟩ := longestMatch_some t _ f hm
      have hfe := huniq f h1 h2 h3
      subst hfe
      have hm' : longestMatch t (c :: (p ++ s)) = some f := by
        rw [hp] at hm
        exact hm
      show rewriteFrom t 0 (c :: (p ++ s)) = _
      simp only [rewriteFrom, hm']
      rw [rewriteFrom_skip, hp]
      simp

set_option maxRecDepth 100000 in
/-- The moraic-n rules: every pattern is a nasal and a vowel or glide kana,
no two rules share a pattern, and each such pair has its rule. -/
theorem moraicNRules_facts :
    (∀ f ∈ moraicNRules, f.1.length = 2 ∧ f.1.tail.head? ∈ vowelOrGlideKana.map some) ∧
    (∀ f ∈ moraicNRules, ∀ g ∈ moraicNRules, f.1 = g.1 → f = g) ∧
    (∀ v ∈ vowelOrGlideKana,
      (['ん', v], ['n', apostrophe, v]) ∈ moraicNRules ∧
      (['ン', v], ['N', apostrophe, v]) ∈ moraicNRules ∧
      ∀ f ∈ moraicNRules, f.1.head? ≠ some v) := by
  decide

set_option maxRecDepth 100000 in
/-- The main kana-to-romaji table spells the nasal ん as `n` and ン as `N`, and
no other pattern begins with a nasal. -/
theorem kanaToRomajiRules_nasal :
    ((['ん'], ['n']) ∈ kanaToRomajiRules ∧ (['ン'], ['N']) ∈ kanaToRomajiRules) ∧
    (∀ e ∈ kanaToRomajiRules,
      (e.1.head? = some 'ん' → e = (['ん'], ['n'])) ∧
      (e.1.head? = some 'ン' → e = (['ン'], ['N']))) := by
  decide

set_option maxRecDepth 100000 in
/-- The letters `n`, `N` and the apostrophe begin no pattern of the
kana-to-romaji tables and are neither long-vowel mark nor small tsu. -/
theorem romaji_letters_pass :
    ∀ c ∈ ['n', 'N', apostrophe],
      (∀ e ∈ kanaToRomajiRules, e.1.head? ≠ some c) ∧
      (∀ e ∈ phoneticRules, e.1.head? ≠ some c) ∧
      (∀ e ∈ unphoneticRules, e.1.head? ≠ some c) ∧
      c ≠ 'ー' ∧ isSmallTsu c = false := by
  decide

/-- The stages behind the main kana-to-romaji table copy a first letter `n`,
`N` or apostrophe. -/
theorem romaji_letter_after_main (V : RuleTable)
    (hV : V = phoneticRules ∨ V = unphoneticRules) (c : Char)
    (hc : c ∈ ['n', 'N', apostrophe]) (z : GoString) :
    rewrite postRomajiRules (sampleParseRomajiDoubles (toRunes (rewrite V (c :: z)))) =
      c :: rewrite postRomajiRules (sampleParseRomajiDoubles (toRunes (rewrite V z))) := by
  obtain ⟨_, f2, f3, f4, f5⟩ := romaji_letters_pass c hc
  have hskip : rewrite V (c :: z) = c :: rewrite V z := by
    rcases hV with rfl | rfl
    · exact rewrite_cons_skip _ c z f2
    · exact rewrite_cons_skip _ c z f3
  simp only [isSmallTsu, Bool.or_eq_false_iff, beq_eq_false_iff_ne, ne_eq] at f5
  have n1 : ¬ ((c.toNat : Int) = 0x3063) := by
    intro hh
    exact f5.1 (char_eq_of_toNat_eq c 'っ' (by
      have : ('っ' : Char).toNat = 0x3063 := by decide
      omega))
  have n2 : ¬ ((c.toNat : Int) = 0x30C3) := by
    intro hh
    exact f5.2 (char_eq_of_toNat_eq c 'ッ' (by
      have : ('ッ' : Char).toNat = 0x30C3 := by decide
      omega))
  rw [hskip]
  show rewrite postRomajiRules (sampleParseRomajiDoubles
    ((c.toNat : Int) :: toRunes (rewrite V z))) = _
  rw [sampleParseRomajiDoubles_cons_plain _ _ n1 n2, runeToChar_toNat,
    postRomaji_cons_copy c _ f4]

/-- The main kana-to-romaji table copies a first letter `n`, `N` or
apostrophe. -/
theorem romaji_letter_main (c : Char) (hc : c ∈ ['n', 'N', apostrophe]) (z : GoString) :
    rewrite kanaToRomajiRules (c :: z) = c :: rewrite kanaToRomajiRules z :=
  rewrite_cons_skip _ c z (romaji_letters_pass c hc).1

/-- The moraic-n stage copies a nasal that no vowel kana or glide kana
follows. -/
theorem moraicN_nasal_alone (k : Char) (m : GoString)
    (hm : ∀ v ∈ vowelOrGlideKana, m.head? ≠ some v) :
    rewrite moraicNRules (k :: m) = k :: rewrite moraicNRules m := by
  show rewriteFrom moraicNRules 0 (k :: m) = k :: rewriteFrom moraicNRules 0 m
  have hnone : longestMatch moraicNRules (k :: m) = none := by
    apply longestMatch_eq_none
    intro f hf _
    obtain ⟨hlen, hsecond⟩ := moraicNRules_facts.1 f hf
    cases hp : hasPrefix (k :: m) f.1 with
    | false => rfl
    | true =>
      exfalso
      match hf1 : f.1, hlen, hsecond, hp with
      | [a, b], _, hsecond, hp =>
        simp only [List.tail_cons, List.head?_cons, List.mem_map, Option.some.injEq,
          exists_eq_right] at hsecond
        cases m with
        | nil => simp [hasPrefix] at hp
        | cons d m' =>
          simp only [hasPrefix, Bool.and_eq_true, beq_iff_eq, Bool.and_true] at hp
          apply hm b hsecond
          rw [hp.2]
          rfl
  simp only [rewriteFrom, hnone]

/-- The moraic-n stage writes a nasal before a vowel kana or glide kana as the
letter of its register and an apostrophe, and copies the kana. -/
theorem moraicN_nasal_before_vowel (k l v : Char) (m : GoString)
    (hk : (k = 'ん' ∧ l = 'n') ∨ (k = 'ン' ∧ l = 'N')) (hv : v ∈ vowelOrGlideKana) :
    rewrite moraicNRules (k :: v :: m) = l :: apostrophe :: v :: rewrite moraicNRules m ∧
    rewrite moraicNRules (v :: m) = v :: rewrite moraicNRules m := by
  obtain ⟨hshape, huniq, hmem⟩ := moraicNRules_facts
  obtain ⟨h1, h2, h3⟩ := hmem v hv
  refine ⟨?_, rewrite_cons_skip _ v m h3⟩
  have he : ([k, v], [l, apostrophe, v]) ∈ moraicNRules := by
    rcases hk with ⟨rfl, rfl⟩ | ⟨rfl, rfl⟩
    · exact h1
    · exact h2
  have := rewrite_of_unique_match moraicNRules ([k, v], [l, apostrophe, v]) m he
    (by simp) (by
      intro f hf _ hp
      apply huniq f hf _ he
      obtain ⟨hlen, _⟩ := hshape f hf
      match hf1 : f.1, hlen, hp with
      | [a, b], _, hp =>
        simp only [List.cons_append, List.nil_append, hasPrefix, Bool.and_eq_true,
          beq_iff_eq, Bool.and_true] at hp
        rw [hp.1, hp.2])
  exact this

/-- On the modelled tables `ToRomajiCased` writes a nasal before a vowel kana
or glide kana as its letter and an apostrophe, followed by the romaji of the
rest. -/
theorem nasal_before_vowel_cased (a0 b0 a1 b1 : Buffer) (phonetic : Bool) (k l v : Char)
    (m : GoString) (hk : (k = 'ん' ∧ l = 'n') ∨ (k = 'ン' ∧ l = 'N'))
    (hv : v ∈ vowelOrGlideKana) :
    ToRomajiCased specTables a0 b0 (k :: v :: m) phonetic =
      l :: apostrophe :: ToRomajiCased specTables a1 b1 (v :: m) phonetic := by
  obtain ⟨h1, h2⟩ := moraicN_nasal_before_vowel k l v m hk hv
  have hl : l ∈ ['n', 'N', apostrophe] := by
    rcases hk with ⟨_, rfl⟩ | ⟨_, rfl⟩ <;> simp
  have ha : apostrophe ∈ ['n', 'N', apostrophe] := by simp
  have hV : (if phonetic then phoneticRules else unphoneticRules) = phoneticRules ∨
      (if phonetic then phoneticRules else unphoneticRules) = unphoneticRules := by
    cases phonetic <;> simp
  rw [specTables_ToRomajiCased, specTables_ToRomajiCased, h1, h2,
    romaji_letter_main l hl, romaji_letter_main apostrophe ha,
    romaji_letter_after_main _ hV l hl, romaji_letter_after_main _ hV apostrophe ha]

/-- On the modelled tables `ToRomajiCased` writes a nasal that no vowel kana
or glide kana follows as its letter alone, followed by the romaji of the
rest. -/
theorem nasal_alone_cased (a0 b0 a1 b1 : Buffer) (phonetic : Bool) (k l : Char)
    (m : GoString) (hk : (k = 'ん' ∧ l = 'n') ∨ (k = 'ン' ∧ l = 'N'))
    (hm : ∀ v ∈ vowelOrGlideKana, m.head? ≠ some v) :
    ToRomajiCased specTables a0 b0 (k :: m) phonetic =
      l :: ToRomajiCased specTables a1 b1 m phonetic := by
  have hl : l ∈ ['n', 'N', apostrophe] := by
    rcases hk with ⟨_, rfl⟩ | ⟨_, rfl⟩ <;> simp
  have hV : (if phonetic then phoneticRules else unphoneticRules) = phoneticRules ∨
      (if phonetic then phoneticRules else unphoneticRules) = unphoneticRules := by
    cases phonetic <;> simp
  have hmain : ∀ z, rewrite kanaToRomajiRules (k :: z) = l :: rewrite kanaToRomajiRules z := by
    intro z
    obtain ⟨⟨m1, m2⟩, hu⟩ := kanaToRomajiRules_nasal
    rcases hk with ⟨rfl, rfl⟩ | ⟨rfl, rfl⟩
    · exact rewrite_cons_single _ 'ん' ['n'] z m1 (fun e he => (hu e he).1)
    · exact rewrite_cons_single _ 'ン' ['N'] z m2 (fun e he => (hu e he).2)
  rw [specTables_ToRomajiCased, specTables_ToRomajiCased, moraicN_nasal_alone k m hm,
    hmain, romaji_letter_after_main _ hV l hl]

/-- `strings.ToLower` writes a first letter `n` or `N` as `n`. -/
theorem stringsToLower_cons_n (U : CaseTables) (l : Char) (s : GoString)
    (hl : l = 'n' ∨ l = 'N') : stringsToLower U (l :: s) = 'n' :: stringsToLower U s := by
  rw [stringsToLower_eq_stringsMap, stringsToLower_eq_stringsMap]
  rcases hl with rfl | rfl
  · have h : unicodeToLower U (('n' : Char).toNat : Int) = 0x6E := by
      have v : ('n' : Char).toNat = 0x6E := by decide
      rw [v]
      unfold unicodeToLower
      delta Rune
      rw [if_pos (by omega), if_neg (by omega)]
      rfl
    simp only [stringsMap, List.filterMap_cons, h]
    rfl
  · have h : unicodeToLower U (('N' : Char).toNat : Int) = 0x6E := by
      have v : ('N' : Char).toNat = 0x4E := by decide
      rw [v]
      unfold unicodeToLower
      delta Rune
      rw [if_pos (by omega), if_pos (by omega)]
      rfl
    simp only [stringsMap, List.filterMap_cons, h]
    rfl

/-- `strings.ToLower` copies a first apostrophe. -/
theorem stringsToLower_cons_apostrophe (U : CaseTables) (s : GoString) :
    stringsToLower U (apostrophe :: s) = apostrophe :: stringsToLower U s := by
  apply stringsToLower_cons_fixed
  have v : apostrophe.toNat = 0x27 := by decide
  rw [v]
  unfold unicodeToLower
  delta Rune
  rw [if_pos (by omega), if_neg (by omega)]

/-! ## Theorems: gemination and the moraic n on the modelled tables -/

/-- On the modelled tables `ToRomaji` writes a nasal before a vowel kana or
glide kana as `n` and an apostrophe, followed by the romaji of the rest. -/
theorem nasal_before_vowel_romaji (U : CaseTables) (a0 b0 a1 b1 : Buffer) (phonetic : Bool)
    (k v : Char) (m : GoString) (hk : k ∈ ['ん', 'ン']) (hv : v ∈ vowelOrGlideKana) :
    ToRomaji U specTables a0 b0 (k :: v :: m) phonetic =
      'n' :: apostrophe :: ToRomaji U specTables a1 b1 (v :: m) phonetic := by
  have hkl : ∃ l, ((k = 'ん' ∧ l = 'n') ∨ (k = 'ン' ∧ l = 'N')) ∧ (l = 'n' ∨ l = 'N') := by
    simp only [List.mem_cons, List.mem_singleton, List.not_mem_nil, or_false] at hk
    rcases hk with rfl | rfl
    · exact ⟨'n', Or.inl ⟨rfl, rfl⟩, Or.inl rfl⟩
    · exact ⟨'N', Or.inr ⟨rfl, rfl⟩, Or.inr rfl⟩
  obtain ⟨l, hkl, hl⟩ := hkl
  show stringsToLower U (ToRomajiCased specTables a0 b0 (k :: v :: m) phonetic) =
    'n' :: apostrophe :: stringsToLower U (ToRomajiCased specTables a1 b1 (v :: m) phonetic)
  rw [nasal_before_vowel_cased a0 b0 a1 b1 phonetic k l v m hkl hv,
    stringsToLower_cons_n U l _ hl, stringsToLower_cons_apostrophe]

/-- On the modelled tables `ToRomaji` writes a nasal that no vowel kana or
glide kana follows as `n` alone, followed by the romaji of the rest. -/
theorem nasal_alone_romaji (U : CaseTables) (a0 b0 a1 b1 : Buffer) (phonetic : Bool)
    (k : Char) (m : GoString) (hk : k ∈ ['ん', 'ン'])
    (hm : ∀ v ∈ vowelOrGlideKana, m.head? ≠ some v) :
    ToRomaji U specTables a0 b0 (k :: m) phonetic =
      'n' :: ToRomaji U specTables a1 b1 m phonetic := by
  have hkl : ∃ l, ((k = 'ん' ∧ l = 'n') ∨ (k = 'ン' ∧ l = 'N')) ∧ (l = 'n' ∨ l = 'N') := by
    simp only [List.mem_cons, List.mem_singleton, List.not_mem_nil, or_false] at hk
    rcases hk with rfl | rfl
    · exact ⟨'n', Or.inl ⟨rfl, rfl⟩, Or.inl rfl⟩
    · exact ⟨'N', Or.inr ⟨rfl, rfl⟩, Or.inr rfl⟩
  obtain ⟨l, hkl, hl⟩ := hkl
  show stringsToLower U (ToRomajiCased specTables a0 b0 (k :: m) phonetic) =
    'n' :: stringsToLower U (ToRomajiCased specTables a1 b1 m phonetic)
  rw [nasal_alone_cased a0 b0 a1 b1 phonetic k l m hkl hm, stringsToLower_cons_n U l _ hl]

set_option maxRecDepth 1000000 in
set_option maxHeartbeats 4000000 in
/-- The gemination examples and the vectors of
`TestToHiraganaShouldConvertDoubleConsonants` on the modelled tables. -/
theorem gemination_vectors :
    (ToHiragana caselessTables specTables ⟨[]⟩ ⟨[]⟩ "kakka".toList = "かっか".toList ∧
      ToRomaji caselessTables specTables ⟨[]⟩ ⟨[]⟩ "かっか".toList false = "kakka".toList ∧
      ToHiragana caselessTables specTables ⟨[]⟩ ⟨[]⟩ "matcha".toList = "まっちゃ".toList ∧
      ToHiragana caselessTables specTables ⟨[]⟩ ⟨[]⟩ "maccha".toList = "まっちゃ".toList) ∧
    (∀ e ∈ geminationToHiraganaVectors,
      ToHiragana caselessTables specTables ⟨[]⟩ ⟨[]⟩ e.1.toList = e.2.toList) := by
  decide!

/-- C18: on the modelled tables `ToHiragana("kakka") = "かっか"`,
`ToRomaji("かっか") = "kakka"` and `ToHiragana("matcha") =
ToHiragana("maccha") = "まっちゃ"`; `ToHiragana` maps the doubled consonants
of the gemination vectors of the test suite to small tsu and the mora; and
`ToRomaji` writes a small tsu before any kana string whose romaji begins
with a lowercase consonant letter as one more letter, that letter or `t`
before `c`. -/
theorem gemination_both_directions :
    (ToHiragana caselessTables specTables ⟨[]⟩ ⟨[]⟩ "kakka".toList = "かっか".toList ∧
      ToRomaji caselessTables specTables ⟨[]⟩ ⟨[]⟩ "かっか".toList false = "kakka".toList ∧
      ToHiragana caselessTables specTables ⟨[]⟩ ⟨[]⟩ "matcha".toList = "まっちゃ".toList ∧
      ToHiragana caselessTables specTables ⟨[]⟩ ⟨[]⟩ "maccha".toList = "まっちゃ".toList) ∧
    (∀ e ∈ geminationToHiraganaVectors,
      ToHiragana caselessTables specTables ⟨[]⟩ ⟨[]⟩ e.1.toList = e.2.toList) ∧
    (∀ (U : CaseTables) (a0 b0 a1 b1 : Buffer) (phonetic : Bool) (m y : GoString) (h : Char),
      (∀ c ∈ m, isSmallTsu c = false) →
      (0x61 ≤ h.toNat ∧ h.toNat ≤ 0x7A) →
      (h ≠ 'a' ∧ h ≠ 'e' ∧ h ≠ 'i' ∧ h ≠ 'o' ∧ h ≠ 'u') →
      ToRomajiCased specTables a0 b0 m phonetic = h :: y →
      ToRomaji U specTables a1 b1 ('っ' :: m) phonetic =
        geminateLetter h :: ToRomaji U specTables a0 b0 m phonetic) :=
  ⟨gemination_vectors.1, gemination_vectors.2,
    fun U a0 b0 a1 b1 p m y h hm hlow hcons hy =>
      (small_tsu_romaji U a0 b0 a1 b1 p m y h hm hlow hcons hy).2⟩

set_option maxRecDepth 1000000 in
set_option maxHeartbeats 4000000 in
/-- The moraic-n examples on the modelled tables. -/
theorem moraic_n_vectors :
    (ToHiragana caselessTables specTables ⟨[]⟩ ⟨[]⟩ "zen'in".toList = "ぜんいん".toList ∧
      ToHiragana caselessTables specTables ⟨[]⟩ ⟨[]⟩ "zennin".toList = "ぜんにん".toList ∧
      ToRomaji caselessTables specTables ⟨[]⟩ ⟨[]⟩ "ぜんいん".toList false = "zen'in".toList ∧
      ToRomaji caselessTables specTables ⟨[]⟩ ⟨[]⟩ "ぜんにん".toList false =
        "zennin".toList) ∧
    (∀ e ∈ [("n'a", "んあ"), ("n'i", "んい"), ("n'u", "んう"), ("n'e", "んえ"), ("n'o", "んお"),
        ("n'ya", "んや"), ("n'yu", "んゆ"), ("n'yo", "んよ")],
      ToHiragana caselessTables specTables ⟨[]⟩ ⟨[]⟩ e.1.toList = e.2.toList) ∧
    (∀ e ∈ [("nna", "んな"), ("nni", "んに"), ("nnu", "んぬ"), ("nne", "んね"), ("nno", "んの")],
      ToHiragana caselessTables specTables ⟨[]⟩ ⟨[]⟩ e.1.toList = e.2.toList) := by
  decide!

/-- C20: on the modelled tables, `ToRomaji` writes ん/ン before a vowel kana or
a y-glide kana as `n`, an apostrophe and the romaji of what follows, and
before anything else as `n` and the romaji of what follows, without
apostrophe; `ToHiragana` reads `n'` before a vowel or `y` as ん and the
following mora, and `nn` before a vowel as ん and the n-row mora; in
particular `ToHiragana("zen'in") = "ぜんいん"`, `ToHiragana("zennin") =
"ぜんにん"`, `ToRomaji("ぜんいん") = "zen'in"` and `ToRomaji("ぜんにん") =
"zennin"`. -/
theorem moraic_n_disambiguated :
    (∀ (U : CaseTables) (a0 b0 a1 b1 : Buffer) (phonetic : Bool) (k v : Char) (m : GoString),
      k ∈ ['ん', 'ン'] → v ∈ vowelOrGlideKana →
      ToRomaji U specTables a0 b0 (k :: v :: m) phonetic =
        'n' :: apostrophe :: ToRomaji U specTables a1 b1 (v :: m) phonetic) ∧
    (∀ (U : CaseTables) (a0 b0 a1 b1 : Buffer) (phonetic : Bool) (k : Char) (m : GoString),
      k ∈ ['ん', 'ン'] → (∀ v ∈ vowelOrGlideKana, m.head? ≠ some v) →
      ToRomaji U specTables a0 b0 (k :: m) phonetic =
        'n' :: ToRomaji U specTables a1 b1 m phonetic) ∧
    (∀ e ∈ [("n'a", "んあ"), ("n'i", "んい"), ("n'u", "んう"), ("n'e", "んえ"), ("n'o", "んお"),
        ("n'ya", "んや"), ("n'yu", "んゆ"), ("n'yo", "んよ")],
      ToHiragana caselessTables specTables ⟨[]⟩ ⟨[]⟩ e.1.toList = e.2.toList) ∧
    (∀ e ∈ [("nna", "んな"), ("nni", "んに"), ("nnu", "んぬ"), ("nne", "んね"), ("nno", "んの")],
      ToHiragana caselessTables specTables ⟨[]⟩ ⟨[]⟩ e.1.toList = e.2.toList) ∧
    (ToHiragana caselessTables specTables ⟨[]⟩ ⟨[]⟩ "zen'in".toList = "ぜんいん".toList ∧
      ToHiragana caselessTables specTables ⟨[]⟩ ⟨[]⟩ "zennin".toList = "ぜんにん".toList ∧
      ToRomaji caselessTables specTables ⟨[]⟩ ⟨[]⟩ "ぜんいん".toList false = "zen'in".toList ∧
      ToRomaji caselessTables specTables ⟨[]⟩ ⟨[]⟩ "ぜんにん".toList false =
        "zennin".toList) :=
  ⟨fun U a0 b0 a1 b1 p k v m hk hv => nasal_before_vowel_romaji U a0 b0 a1 b1 p k v m hk hv,
    fun U a0 b0 a1 b1 p k m hk hm => nasal_alone_romaji U a0 b0 a1 b1 p k m hk hm,
    moraic_n_vectors.2.1, moraic_n_vectors.2.2, moraic_n_vectors.1⟩

/-! ## Theorems: the swap functions on every rune -/

/-- C26: for every rune, swapping to katakana and then to hiragana is
swapping to hiragana, and swapping to hiragana and then to katakana is
swapping to katakana; each swap function is idempotent; and the round trip
through katakana returns the rune exactly when it is outside the mapped
katakana ranges ァ..ヶ and ヽ..ヾ, the round trip through hiragana exactly when
it is outside the mapped hiragana ranges ぁ..ゖ and ゝ..ゞ. -/
theorem swap_absorbs_swap (r : Rune) :
    (KatakanaToHiragana (HiraganaToKatakana r) = KatakanaToHiragana r ∧
      HiraganaToKatakana (KatakanaToHiragana r) = HiraganaToKatakana r) ∧
    (HiraganaToKatakana (HiraganaToKatakana r) = HiraganaToKatakana r ∧
      KatakanaToHiragana (KatakanaToHiragana r) = KatakanaToHiragana r) ∧
    (KatakanaToHiragana (HiraganaToKatakana r) = r ↔
      ¬ ((0x30A1 ≤ r ∧ r ≤ 0x30F6) ∨ (0x30FD ≤ r ∧ r ≤ 0x30FE))) ∧
    (HiraganaToKatakana (KatakanaToHiragana r) = r ↔
      ¬ ((0x3041 ≤ r ∧ r ≤ 0x3096) ∨ (0x309D ≤ r ∧ r ≤ 0x309E))) := by
  unfold KatakanaToHiragana HiraganaToKatakana
  delta Rune at *
  refine ⟨⟨?_, ?_⟩, ⟨?_, ?_⟩, ?_, ?_⟩
  · split_ifs <;> omega
  · split_ifs <;> omega
  · split_ifs <;> omega
  · split_ifs <;> omega
  · split_ifs <;> constructor <;> intro _ <;> omega
  · split_ifs <;> constructor <;> intro _ <;> omega

/-! ## Theorems: the classification functions against each other -/

/-- The Katakana class lies in six blocks of code points. -/
theorem katakana_range (r : Int) (h : unicodeIn r unicodeKatakana = true) :
    (0x30A1 ≤ r ∧ r ≤ 0x30FF) ∨ (0x31F0 ≤ r ∧ r ≤ 0x3357) ∨ (0xFF66 ≤ r ∧ r ≤ 0xFF9D) ∨
    (0x1AFF0 ≤ r ∧ r ≤ 0x1B000) ∨ (0x1B120 ≤ r ∧ r ≤ 0x1B122) ∨
    (0x1B155 ≤ r ∧ r ≤ 0x1B167) := by
  simp only [unicodeIn, unicodeKatakana, List.any_cons, List.any_nil, Bool.or_eq_true,
    Bool.and_eq_true, decide_eq_true_eq, Bool.or_false] at h
  delta Rune at *
  by_contra hc
  simp only [not_or, not_and, not_le] at hc
  omega

/-- The members of the Hiragana class between U+1B001 and U+1B152. -/
theorem hiragana_range_supplement (r : Int) (h : unicodeIn r unicodeHiragana = true)
    (h1 : 0x1B001 ≤ r) (h2 : r ≤ 0x1B152) :
    r ≤ 0x1B11F ∨ r = 0x1B132 ∨ (0x1B150 ≤ r ∧ r ≤ 0x1B152) := by
  simp only [unicodeIn, unicodeHiragana, List.any_cons, List.any_nil, Bool.or_eq_true,
    Bool.and_eq_true, decide_eq_true_eq, Bool.or_false] at h
  delta Rune at *
  by_contra hc
  simp only [not_or, not_and, not_le] at hc
  omega

/-- No rune is in two of the three script classes. -/
theorem script_classes_disjoint (r : Int) :
    ¬ (unicodeIn r unicodeHiragana = true ∧ unicodeIn r unicodeKatakana = true) ∧
    ¬ (unicodeIn r unicodeHiragana = true ∧ unicodeIn r unicodeHan = true) ∧
    ¬ (unicodeIn r unicodeKatakana = true ∧ unicodeIn r unicodeHan = true) := by
  refine ⟨?_, ?_, ?_⟩
  · rintro ⟨h1, h2⟩
    have a := hiragana_range r h1
    have b := katakana_range r h2
    have c := hiragana_range_supplement r h1
    omega
  · rintro ⟨h1, h2⟩
    have := han_not_hiragana r h2
    rw [h1] at this
    exact Bool.noConfusion this
  · rintro ⟨h1, h2⟩
    have a := han_range r h2
    have b := katakana_range r h1
    omega

/-- The modelled sanitizers only delete scalars. -/
theorem specSanitizers_delete (x : GoString) :
    (∀ c ∈ specSanitizeIsChecks x, c ∈ x) ∧ (∀ c ∈ specSanitizeIsChecksKanji x, c ∈ x) := by
  rw [specSanitizeIsChecks_eq_filter, specSanitizeIsChecksKanji_eq_filter]
  exact ⟨fun c hc => (List.mem_filter.1 hc).1, fun c hc => (List.mem_filter.1 hc).1⟩

/-- C27: when the sanitizers only delete scalars of their input, `IsHiragana`
implies `ContainsHiragana`, `IsKatakana` implies `ContainsKatakana` and
`IsKanji` implies `ContainsKanji`. -/
theorem Is_implies_Contains (T : Tables) (s : GoString)
    (hT : ∀ x, ∀ c ∈ T.sanitizeIsChecks x, c ∈ x)
    (hK : ∀ x, ∀ c ∈ T.sanitizeIsChecksKanji x, c ∈ x) :
    (IsHiragana T s = true → ContainsHiragana s = true) ∧
    (IsKatakana T s = true → ContainsKatakana s = true) ∧
    (IsKanji T s = true → ContainsKanji s = true) := by
  have gen : ∀ (tab : RangeTable) (f : Replacer), (∀ x, ∀ c ∈ f x, c ∈ x) →
      (if f s = [] then false else rangeAllIn tab (f s)) = true → rangeAnyIn tab s = true := by
    intro tab f hf h
    cases hx : f s with
    | nil => simp [hx] at h
    | cons c cs =>
      rw [hx] at h
      simp only [List.cons_ne_nil, if_false] at h
      have hall := (rangeAllIn_iff tab _).1 h c (List.mem_cons_self _ _)
      exact (rangeAnyIn_iff tab s).2 ⟨c, hf s c (hx ▸ List.mem_cons_self _ _), hall⟩
  exact ⟨gen _ _ hT, gen _ _ hT, gen _ _ hK⟩

/-- Witness for C27: `ひら がな` and `漢 字` with the sample tables, whose
sanitizers delete the separators. -/
theorem Is_implies_Contains_witness :
    IsHiragana sampleTables "ひら がな".toList = true ∧
    ContainsHiragana "ひら がな".toList = true ∧
    IsKanji sampleTables "漢 字".toList = true ∧
    ContainsKanji "漢 字".toList = true :=
  have hw := fun s => Is_implies_Contains sampleTables s
    (fun x => (specSanitizers_delete x).1) (fun x => (specSanitizers_delete x).2)
  ⟨by decide, (hw "ひら がな".toList).1 (by decide), by decide,
    (hw "漢 字".toList).2.2 (by decide)⟩

/-- C28: with the sanitizers deleting the allowed separators, no two of
`IsHiragana`, `IsKatakana` and `IsKanji` are true of the same string. -/
theorem Is_mutually_exclusive (T : Tables) (s : GoString)
    (hT : T.sanitizeIsChecks = specSanitizeIsChecks)
    (hK : T.sanitizeIsChecksKanji = specSanitizeIsChecksKanji) :
    ¬ (IsHiragana T s = true ∧ IsKatakana T s = true) ∧
    ¬ (IsHiragana T s = true ∧ IsKanji T s = true) ∧
    ¬ (IsKatakana T s = true ∧ IsKanji T s = true) := by
  obtain ⟨hH, hKa, hKj⟩ := (Is_characterization T s hT hK).2.2
  have hex : s.filter (fun c => !isKanaSeparator c) ≠ [] →
      ∃ c ∈ s, isKanaSeparator c = false ∧ isSpace c = false := by
    intro hne
    obtain ⟨c, hc⟩ := List.exists_mem_of_ne_nil _ hne
    obtain ⟨hc1, hc2⟩ := List.mem_filter.1 hc
    refine ⟨c, hc1, by simpa using hc2, ?_⟩
    simp only [isKanaSeparator, isSpace, Bool.not_eq_true', Bool.or_eq_false_iff] at hc2 ⊢
    exact hc2.1
  refine ⟨?_, ?_, ?_⟩
  · rintro ⟨h1, h2⟩
    obtain ⟨hne, ha⟩ := hH.1 h1
    obtain ⟨_, hb⟩ := hKa.1 h2
    obtain ⟨c, hc, hsep, _⟩ := hex hne
    exact (script_classes_disjoint _).1 ⟨ha c hc hsep, hb c hc hsep⟩
  · rintro ⟨h1, h2⟩
    obtain ⟨hne, ha⟩ := hH.1 h1
    obtain ⟨_, hb⟩ := hKj.1 h2
    obtain ⟨c, hc, hsep, hsp⟩ := hex hne
    exact (script_classes_disjoint _).2.1 ⟨ha c hc hsep, hb c hc hsp⟩
  · rintro ⟨h1, h2⟩
    obtain ⟨hne, ha⟩ := hKa.1 h1
    obtain ⟨_, hb⟩ := hKj.1 h2
    obtain ⟨c, hc, hsep, hsp⟩ := hex hne
    exact (script_classes_disjoint _).2.2 ⟨ha c hc hsep, hb c hc hsp⟩

/-- Witness for C28: `ひらがな` with the sample tables is hiragana, hence
neither katakana nor kanji. -/
theorem Is_mutually_exclusive_witness :
    IsHiragana sampleTables "ひらがな".toList = true ∧
    ¬ (IsHiragana sampleTables "ひらがな".toList = true ∧
      IsKatakana sampleTables "ひらがな".toList = true) ∧
    ¬ (IsHiragana sampleTables "ひらがな".toList = true ∧
      IsKanji sampleTables "ひらがな".toList = true) :=
  have hw := Is_mutually_exclusive sampleTables "ひらがな".toList rfl rfl
  ⟨by decide, hw.1, hw.2.1⟩

/-- C29: `ExtractKanji` returns the empty slice exactly when `ContainsKanji`
is false, and `ExtractKanji` of a concatenation is the concatenation of the
two results. -/
theorem ExtractKanji_empty_iff_and_append (s a b : GoString) :
    (ExtractKanji s = [] ↔ ContainsKanji s = false) ∧
    ExtractKanji (a ++ b) = ExtractKanji a ++ ExtractKanji b := by
  have h : ∀ x : GoString, ExtractKanji x =
      (x.filter (fun c => unicodeIn (c.toNat : Int) unicodeHan)).map (fun c => [c]) := by
    intro x
    unfold ExtractKanji
    rw [extractKanjiLoop_eq]
    rfl
  constructor
  · rw [h, List.map_eq_nil_iff, List.filter_eq_nil_iff]
    unfold ContainsKanji
    constructor
    · intro hall
      cases hr : rangeAnyIn unicodeHan s with
      | false => rfl
      | true =>
        obtain ⟨c, hc, hin⟩ := (rangeAnyIn_iff _ s).1 hr
        exact absurd hin (hall c hc)
    · intro hr c hc hin
      have := (rangeAnyIn_iff _ s).2 ⟨c, hc, hin⟩
      rw [hr] at this
      exact Bool.noConfusion this
  · rw [h, h, h, List.filter_append, List.map_append]

/-! ## Theorems: `ToKana` and totality -/

/-- C25: `ToKana` is the composition, on the input as given, of `preHiragana`,
`preKatakana`, `romajiToHiragana`, `romajiToKatakana`, `postHiragana`,
`postKatakana` and `postKanaSpecial` in this order, with no case fold and no
swap pass; with the sample tables the kana of the vectors of
`TestToKanaShouldNotSwapKanas` stay in their script. -/
theorem ToKana_seven_rewrites (T : Tables) (a0 b0 : Buffer) (s : GoString) :
    ToKana T a0 b0 s =
      T.postKanaSpecial (T.postKatakana (T.postHiragana (T.romajiToKatakana
        (T.romajiToHiragana (T.preKatakana (T.preHiragana s)))))) ∧
    ToKana sampleTables a0 b0 "ばなな TABETE".toList = "ばなな タベテ".toList ∧
    ToKana sampleTables a0 b0 "バナナ tabete".toList = "バナナ たべて".toList ∧
    ToKana sampleTables a0 b0 "ぷでぃんぐ ベツバラ".toList = "ぷでぃんぐ ベツバラ".toList := by
  refine ⟨ToKana_eq_comp T a0 b0 s, ?_, ?_, ?_⟩ <;> rw [ToKana_eq_comp] <;> decide

/-- The index expression of `unsafeString` is never out of range. -/
theorem unsafeString_checked_eq (buf : Buffer) :
    unsafeString_checked buf = some (unsafeString buf) := by
  unfold unsafeString_checked unsafeString
  cases h : buf.contents <;> simp

/-- The conversions on the empty string, with the sample tables. -/
theorem conversions_of_empty (U : CaseTables) (a0 b0 : Buffer) (p : Bool) :
    ToRomajiCased sampleTables a0 b0 [] p = [] ∧ ToRomaji U sampleTables a0 b0 [] p = [] ∧
    ToHiragana U sampleTables a0 b0 [] = [] ∧
    ToKatakana U sampleTables a0 b0 [] = [] ∧ ToKana sampleTables a0 b0 [] = [] := by
  have h : ToRomajiCased sampleTables a0 b0 [] p = [] := by
    rw [ToRomajiCased_eq_comp]
    cases p <;> decide
  refine ⟨h, ?_, ?_, ?_, ?_⟩
  · show stringsToLower U (ToRomajiCased sampleTables a0 b0 [] p) = []
    rw [h]
    rfl
  · rw [ToHiragana_eq_comp]
    have : stringsToLower U [] = [] := rfl
    rw [this]
    decide
  · rw [ToKatakana_eq_comp]
    have : stringsToUpper U [] = [] := rfl
    rw [this]
    decide
  · rw [ToKana_eq_comp]
    decide

/-- C24: with the index expression `&tmp[0]` of `unsafeString` made explicit,
`unsafeString` returns the empty string for an empty buffer and the contents
of any other buffer, and each of `ToRomajiCased`, `ToRomaji`, `ToHiragana`,
`ToKatakana` and `ToKana` returns its result on every input, for every state
of the pooled buffers and every table; on the empty string, with the sample
tables, each returns the empty string. The classification functions and
`ExtractKanji` index nothing. -/
theorem conversions_total (U : CaseTables) (T : Tables) (a0 b0 : Buffer) (s : GoString)
    (phonetic : Bool) :
    (unsafeString_checked ⟨[]⟩ = some [] ∧
      unsafeString_checked a0 = some (unsafeString a0)) ∧
    (ToRomajiCased_checked T a0 b0 s phonetic = some (ToRomajiCased T a0 b0 s phonetic) ∧
      ToRomaji_checked U T a0 b0 s phonetic = some (ToRomaji U T a0 b0 s phonetic) ∧
      ToHiragana_checked U T a0 b0 s = some (ToHiragana U T a0 b0 s) ∧
      ToKatakana_checked U T a0 b0 s = some (ToKatakana U T a0 b0 s) ∧
      ToKana_checked T a0 b0 s = some (ToKana T a0 b0 s)) ∧
    (ToRomajiCased_checked sampleTables a0 b0 [] phonetic = some [] ∧
      ToRomaji_checked U sampleTables a0 b0 [] phonetic = some [] ∧
      ToHiragana_checked U sampleTables a0 b0 [] = some [] ∧
      ToKatakana_checked U sampleTables a0 b0 [] = some [] ∧
      ToKana_checked sampleTables a0 b0 [] = some []) ∧
    (ContainsHiragana [] = false ∧ ContainsKatakana [] = false ∧ ContainsKanji [] = false ∧
      IsHiragana sampleTables [] = false ∧ IsKatakana sampleTables [] = false ∧
      IsKanji sampleTables [] = false ∧ ExtractKanji [] = []) := by
  have hc : ∀ (T : Tables) (s : GoString), ToRomajiCased_checked T a0 b0 s phonetic =
      some (ToRomajiCased T a0 b0 s phonetic) := by
    intro T s
    cases phonetic <;>
      simp [ToRomajiCased_checked, ToRomajiCased, unsafeString_checked_eq]
  have hr : ∀ (T : Tables) (s : GoString), ToRomaji_checked U T a0 b0 s phonetic =
      some (ToRomaji U T a0 b0 s phonetic) := by
    intro T s
    simp [ToRomaji_checked, ToRomaji, hc]
  have hh : ∀ (T : Tables) (s : GoString), ToHiragana_checked U T a0 b0 s =
      some (ToHiragana U T a0 b0 s) := by
    intro T s
    simp [ToHiragana_checked, ToHiragana, unsafeString_checked_eq]
  have hk : ∀ (T : Tables) (s : GoString), ToKatakana_checked U T a0 b0 s =
      some (ToKatakana U T a0 b0 s) := by
    intro T s
    simp [ToKatakana_checked, ToKatakana, unsafeString_checked_eq]
  have hn : ∀ (T : Tables) (s : GoString), ToKana_checked T a0 b0 s =
      some (ToKana T a0 b0 s) := by
    intro T s
    simp [ToKana_checked, ToKana, unsafeString_checked_eq]
  obtain ⟨e1, e2, e3, e4, e5⟩ := conversions_of_empty U a0 b0 phonetic
  refine ⟨⟨rfl, unsafeString_checked_eq a0⟩, ⟨hc T s, hr T s, hh T s, hk T s, hn T s⟩,
    ⟨?_, ?_, ?_, ?_, ?_⟩, ⟨rfl, rfl, rfl, by decide, by decide, by decide, rfl⟩⟩
  · rw [hc, e1]
  · rw [hr, e2]
  · rw [hh, e3]
  · rw [hk, e4]
  · rw [hn, e5]

/-! ## Theorems: the phonetic flag -/

set_option maxRecDepth 100000 in
/-- The irregular syllables occur in no replacement of the moraic-n rules and
of the main kana-to-romaji table, and the patterns of the phonetic and of the
literal table are made of them. -/
theorem irregular_facts :
    (∀ e ∈ moraicNRules, ∀ c ∈ e.2, isIrregularKana c = false) ∧
    (∀ e ∈ kanaToRomajiRules, ∀ c ∈ e.2, isIrregularKana c = false) ∧
    (∀ e ∈ phoneticRules, ∀ c ∈ e.1, isIrregularKana c = true) ∧
    (∀ e ∈ unphoneticRules, ∀ c ∈ e.1, isIrregularKana c = true) := by
  decide

/-- The rewriter returns unchanged an input none of whose scalars occurs in a
pattern. -/
theorem rewrite_of_no_pattern_scalar (t : RuleTable) (x : GoString)
    (ht : ∀ e ∈ t, ∀ c ∈ e.1, c ∉ x) : rewrite t x = x := by
  have h := rewriteFrom_copy t x [] ht
  rw [List.append_nil] at h
  show rewriteFrom t 0 x = x
  rw [h]
  simp [rewriteFrom]

/-- On the modelled tables the phonetic flag changes nothing on an input
without irregular syllable. -/
theorem phonetic_flag_irrelevant (U : CaseTables) (a0 b0 a1 b1 : Buffer) (s : GoString)
    (hs : ∀ c ∈ s, isIrregularKana c = false) :
    ToRomajiCased specTables a0 b0 s true = ToRomajiCased specTables a1 b1 s false ∧
    ToRomaji U specTables a0 b0 s true = ToRomaji U specTables a1 b1 s false := by
  obtain ⟨f1, f2, f3, f4⟩ := irregular_facts
  have hclean : ∀ c ∈ rewrite kanaToRomajiRules (rewrite moraicNRules s),
      isIrregularKana c = false :=
    rewrite_clean _ isIrregularKana f2 _ (rewrite_clean _ isIrregularKana f1 _ hs)
  have hcopy : ∀ V : RuleTable, (∀ e ∈ V, ∀ c ∈ e.1, isIrregularKana c = true) →
      rewrite V (rewrite kanaToRomajiRules (rewrite moraicNRules s)) =
        rewrite kanaToRomajiRules (rewrite moraicNRules s) := by
    intro V fV
    apply rewrite_of_no_pattern_scalar
    intro e he c hc hin
    have := hclean c hin
    rw [fV e he c hc] at this
    exact Bool.noConfusion this
  have hcased : ToRomajiCased specTables a0 b0 s true =
      ToRomajiCased specTables a1 b1 s false := by
    rw [specTables_ToRomajiCased, specTables_ToRomajiCased]
    simp only [if_true, Bool.false_eq_true, if_false]
    rw [hcopy _ f3, hcopy _ f4]
  refine ⟨hcased, ?_⟩
  show stringsToLower U (ToRomajiCased specTables a0 b0 s true) =
    stringsToLower U (ToRomajiCased specTables a1 b1 s false)
  rw [hcased]

set_option maxRecDepth 100000 in
/-- The two irregular syllables on the modelled tables, literal and
pronounced. -/
theorem phonetic_examples :
    ToRomaji caselessTables specTables ⟨[]⟩ ⟨[]⟩ "づ".toList false = "du".toList ∧
    ToRomaji caselessTables specTables ⟨[]⟩ ⟨[]⟩ "ぢ".toList false = "di".toList ∧
    ToRomaji caselessTables specTables ⟨[]⟩ ⟨[]⟩ "づ".toList true = "zu".toList ∧
    ToRomaji caselessTables specTables ⟨[]⟩ ⟨[]⟩ "ぢ".toList true = "ji".toList := by
  decide!

/-- C22: on the modelled tables `ToRomaji("づ", false) = "du"`,
`ToRomaji("ぢ", false) = "di"`, `ToRomaji("づ", true) = "zu"` and
`ToRomaji("ぢ", true) = "ji"`, and on every input that holds neither づ/ヅ nor
ぢ/ヂ, `ToRomaji` and `ToRomajiCased` return the same result with the flag set
and with the flag clear. -/
theorem phonetic_flag_only_irregular (U : CaseTables) (a0 b0 a1 b1 : Buffer) (s : GoString)
    (hs : ∀ c ∈ s, isIrregularKana c = false) :
    (ToRomaji caselessTables specTables ⟨[]⟩ ⟨[]⟩ "づ".toList false = "du".toList ∧
      ToRomaji caselessTables specTables ⟨[]⟩ ⟨[]⟩ "ぢ".toList false = "di".toList ∧
      ToRomaji caselessTables specTables ⟨[]⟩ ⟨[]⟩ "づ".toList true = "zu".toList ∧
      ToRomaji caselessTables specTables ⟨[]⟩ ⟨[]⟩ "ぢ".toList true = "ji".toList) ∧
    ToRomajiCased specTables a0 b0 s true = ToRomajiCased specTables a1 b1 s false ∧
    ToRomaji U specTables a0 b0 s true = ToRomaji U specTables a1 b1 s false :=
  ⟨phonetic_examples, phonetic_flag_irrelevant U a0 b0 a1 b1 s hs⟩

set_option maxRecDepth 100000 in
/-- Witness for C22: `かんじ` holds no irregular syllable and is `kanji` with
the flag set and with the flag clear. -/
theorem phonetic_flag_only_irregular_witness :
    ToRomaji caselessTables specTables ⟨[]⟩ ⟨[]⟩ "かんじ".toList false = "kanji".toList ∧
    ToRomaji caselessTables specTables ⟨[]⟩ ⟨[]⟩ "かんじ".toList true =
      ToRomaji caselessTables specTables ⟨[]⟩ ⟨[]⟩ "かんじ".toList false :=
  ⟨by decide!, (phonetic_flag_only_irregular caselessTables ⟨[]⟩ ⟨[]⟩ ⟨[]⟩ ⟨[]⟩
    "かんじ".toList (by decide)).2.2⟩

/-! ## Theorems: the round trip through romaji -/

/-- The rewriter emits the replacement of the entry that `longestMatch`
returns and goes on behind its pattern. -/
theorem rewrite_of_longestMatch (t : RuleTable) (e : GoString × GoString) (rest : GoString)
    (h : longestMatch t (e.1 ++ rest) = some e) :
    rewrite t (e.1 ++ rest) = e.2 ++ rewrite t rest := by
  obtain ⟨_, hne, _, _⟩ := longestMatch_some t _ e h
  show rewriteFrom t 0 (e.1 ++ rest) = e.2 ++ rewriteFrom t 0 rest
  cases hp : e.1 with
  | nil => exact absurd hp hne
  | cons c p =>
    have h' : longestMatch t (c :: (p ++ rest)) = some e := by
      rw [hp] at h
      exact h
    show rewriteFrom t 0 (c :: (p ++ rest)) = _
    simp only [rewriteFrom, h']
    rw [rewriteFrom_skip, hp]
    simp

/-- The rewriter copies a span none of whose scalars begins a pattern. -/
theorem rewrite_copy_heads (t : RuleTable) (w v : GoString)
    (h : ∀ c ∈ w, ∀ e ∈ t, e.1.head? ≠ some c) :
    rewrite t (w ++ v) = w ++ rewrite t v := by
  induction w with
  | nil => rfl
  | cons c w ih =>
    show rewrite t (c :: (w ++ v)) = c :: (w ++ rewrite t v)
    rw [rewrite_cons_skip t c _ (h c (List.mem_cons_self _ _)),
      ih (fun d hd => h d (List.mem_cons_of_mem _ hd))]

set_option maxRecDepth 100000 in
/-- The patterns of the moraic-n rules begin with a nasal; behind its first
scalar no pattern of the main kana-to-romaji table holds a nasal or a letter
`n`; and the spellings of that table are letters. -/
theorem kanaToRomajiRules_facts :
    (∀ f ∈ moraicNRules, f.1.head? = some 'ん' ∨ f.1.head? = some 'ン') ∧
    (∀ f ∈ kanaToRomajiRules, ∀ c ∈ f.1.tail, c ∉ ['ん', 'ン', 'n', 'N']) ∧
    (∀ f ∈ kanaToRomajiRules, ∀ c ∈ f.2, isAsciiLetter c = true) := by
  decide

/-- The moraic-n stage copies a first scalar that is no nasal. -/
theorem moraicN_cons_plain (c : Char) (x : GoString) (hc : c ≠ 'ん' ∧ c ≠ 'ン') :
    rewrite moraicNRules (c :: x) = c :: rewrite moraicNRules x := by
  apply rewrite_cons_skip
  intro e he hh
  rcases kanaToRomajiRules_facts.1 e he with h | h
  · rw [h] at hh
    exact hc.1 (Option.some.inj hh).symm
  · rw [h] at hh
    exact hc.2 (Option.some.inj hh).symm

/-- The moraic-n stage writes a nasal or a letter `n` for a first nasal. -/
theorem moraicN_nasal_head (k : Char) (x : GoString) (hk : k = 'ん' ∨ k = 'ン') :
    ∃ h y, rewrite moraicNRules (k :: x) = h :: y ∧ h ∈ ['ん', 'ン', 'n', 'N'] := by
  by_cases hx : ∀ v ∈ vowelOrGlideKana, x.head? ≠ some v
  · refine ⟨k, _, moraicN_nasal_alone k x hx, ?_⟩
    rcases hk with rfl | rfl <;> simp
  · simp only [not_forall, not_not] at hx
    obtain ⟨v, hv, hxv⟩ := hx
    cases x with
    | nil => simp at hxv
    | cons d m =>
      simp only [List.head?_cons, Option.some.injEq] at hxv
      subst hxv
      rcases hk with rfl | rfl
      · exact ⟨'n', _, (moraicN_nasal_before_vowel 'ん' 'n' d m (Or.inl ⟨rfl, rfl⟩) hv).1,
          by simp⟩
      · exact ⟨'N', _, (moraicN_nasal_before_vowel 'ン' 'N' d m (Or.inr ⟨rfl, rfl⟩) hv).1,
          by simp⟩

/-- A pattern without nasal and without letter `n` matches the output of the
moraic-n stage exactly when it matches its input. -/
theorem hasPrefix_moraicN (q : GoString) (hq : ∀ c ∈ q, c ∉ ['ん', 'ン', 'n', 'N'])
    (x : GoString) : hasPrefix (rewrite moraicNRules x) q = hasPrefix x q := by
  induction q generalizing x with
  | nil => cases x <;> cases h : rewrite moraicNRules _ <;> simp [hasPrefix]
  | cons d q ih =>
    have hd := hq d (List.mem_cons_self _ _)
    simp only [List.mem_cons, List.mem_singleton, List.not_mem_nil, or_false, not_or] at hd
    cases x with
    | nil =>
      show hasPrefix [] (d :: q) = hasPrefix [] (d :: q)
      rfl
    | cons c x =>
      by_cases hc : c = 'ん' ∨ c = 'ン'
      · obtain ⟨h, y, hy, hh⟩ := moraicN_nasal_head c x hc
        rw [hy]
        simp only [List.mem_cons, List.mem_singleton, List.not_mem_nil, or_false] at hh
        have h1 : h ≠ d := by
          rcases hh with rfl | rfl | rfl | rfl
          · exact fun h => hd.1 h.symm
          · exact fun h => hd.2.1 h.symm
          · exact fun h => hd.2.2.1 h.symm
          · exact fun h => hd.2.2.2 h.symm
        have h2 : c ≠ d := by
          rcases hc with rfl | rfl
          · exact fun h => hd.1 h.symm
          · exact fun h => hd.2.1 h.symm
        have e1 : (h == d) = false := beq_eq_false_iff_ne.2 h1
        have e2 : (c == d) = false := beq_eq_false_iff_ne.2 h2
        simp only [hasPrefix, e1, e2, Bool.false_and]
      · simp only [not_or] at hc
        rw [moraicN_cons_plain c x hc]
        simp only [hasPrefix]
        rw [ih (fun e he => hq e (List.mem_cons_of_mem _ he))]

/-- A pattern without nasal and without letter `n` matches a span followed
by the output of the moraic-n stage exactly when it matches the span followed
by the input of the stage. -/
theorem hasPrefix_append_moraicN (k q x : GoString)
    (hq : ∀ c ∈ q, c ∉ ['ん', 'ン', 'n', 'N']) :
    hasPrefix (k ++ rewrite moraicNRules x) q = hasPrefix (k ++ x) q := by
  induction k generalizing q with
  | nil => exact hasPrefix_moraicN q hq x
  | cons c k ih =>
    cases q with
    | nil => rfl
    | cons d q =>
      show hasPrefix (c :: (k ++ rewrite moraicNRules x)) (d :: q) =
        hasPrefix (c :: (k ++ x)) (d :: q)
      simp only [hasPrefix]
      rw [ih q (fun e he => hq e (List.mem_cons_of_mem _ he))]

/-- The main kana-to-romaji table finds the same entry at a mora without
nasal before and behind the moraic-n stage. -/
theorem longestMatch_moraicN (k x : GoString) (hk : k ≠ []) :
    longestMatch kanaToRomajiRules (k ++ rewrite moraicNRules x) =
      longestMatch kanaToRomajiRules (k ++ x) := by
  apply longestMatch_congr
  intro f hf
  have ht := kanaToRomajiRules_facts.2.1 f hf
  cases k with
  | nil => exact absurd rfl hk
  | cons c k =>
    cases hp : f.1 with
    | nil => rfl
    | cons d q =>
      rw [hp] at ht
      show hasPrefix (c :: (k ++ rewrite moraicNRules x)) (d :: q) =
        hasPrefix (c :: (k ++ x)) (d :: q)
      simp only [hasPrefix]
      rw [hasPrefix_append_moraicN k q x ht]

set_option maxRecDepth 100000 in
/-- No pattern of the stages behind the main kana-to-romaji table holds a
letter, and the small-tsu marks are no letters. -/
theorem asciiLetter_facts :
    (∀ e ∈ phoneticRules, ∀ c ∈ e.1, isAsciiLetter c = false) ∧
    (∀ e ∈ unphoneticRules, ∀ c ∈ e.1, isAsciiLetter c = false) ∧
    (∀ e ∈ postRomajiRules, ∀ c ∈ e.1, isAsciiLetter c = false) ∧
    isAsciiLetter 'っ' = false ∧ isAsciiLetter 'ッ' = false := by
  decide

/-- `ToRomajiCased` on the modelled tables spells a first mora without nasal
as the main table does and goes on with the rest. -/
theorem romajiCased_peel (a0 b0 a1 b1 : Buffer) (phonetic : Bool)
    (e : GoString × GoString) (rest : GoString)
    (hk : ∀ c ∈ e.1, c ≠ 'ん' ∧ c ≠ 'ン')
    (hm : longestMatch kanaToRomajiRules (e.1 ++ rest) = some e) :
    ToRomajiCased specTables a0 b0 (e.1 ++ rest) phonetic =
      e.2 ++ ToRomajiCased specTables a1 b1 rest phonetic := by
  obtain ⟨he, hne, _, _⟩ := longestMatch_some _ _ e hm
  have hletters := kanaToRomajiRules_facts.2.2 e he
  obtain ⟨g1, g2, g3, g4, g5⟩ := asciiLetter_facts
  have hN : rewrite moraicNRules (e.1 ++ rest) = e.1 ++ rewrite moraicNRules rest := by
    apply rewrite_copy_heads
    intro c hc f hf hh
    rcases kanaToRomajiRules_facts.1 f hf with h | h
    · rw [h] at hh
      exact (hk c hc).1 (Option.some.inj hh).symm
    · rw [h] at hh
      exact (hk c hc).2 (Option.some.inj hh).symm
  have hK : rewrite kanaToRomajiRules (e.1 ++ rewrite moraicNRules rest) =
      e.2 ++ rewrite kanaToRomajiRules (rewrite moraicNRules rest) := by
    apply rewrite_of_longestMatch
    rw [longestMatch_moraicN e.1 rest hne]
    exact hm
  have hV : ∀ (V : RuleTable) (z : GoString), (∀ f ∈ V, ∀ c ∈ f.1, isAsciiLetter c = false) →
      rewriteFrom V 0 (e.2 ++ z) = e.2 ++ rewriteFrom V 0 z := by
    intro V z fV
    apply rewriteFrom_copy
    intro f hf c hc hin
    have := hletters c hin
    rw [fV f hf c hc] at this
    exact Bool.noConfusion this
  have hP : ∀ z, sampleParseRomajiDoubles (toRunes (e.2 ++ z)) =
      e.2 ++ sampleParseRomajiDoubles (toRunes z) := by
    intro z
    have : toRunes (e.2 ++ z) = toRunes e.2 ++ toRunes z := by simp [toRunes]
    rw [this]
    apply sampleParseRomajiDoubles_copy
    intro c hc
    constructor
    · rintro rfl
      have := hletters _ hc
      rw [g4] at this
      exact Bool.noConfusion this
    · rintro rfl
      have := hletters _ hc
      rw [g5] at this
      exact Bool.noConfusion this
  rw [specTables_ToRomajiCased, specTables_ToRomajiCased, hN, hK]
  cases phonetic
  · simp only [Bool.false_eq_true, if_false]
    show rewrite postRomajiRules (sampleParseRomajiDoubles (toRunes
      (rewriteFrom unphoneticRules 0 (e.2 ++ _)))) = _
    rw [hV _ _ g2, hP]
    exact hV _ _ g3
  · simp only [if_true]
    show rewrite postRomajiRules (sampleParseRomajiDoubles (toRunes
      (rewriteFrom phoneticRules 0 (e.2 ++ _)))) = _
    rw [hV _ _ g1, hP]
    exact hV _ _ g3

/-- `strings.ToUpper` is `strings.Map` with `unicode.ToUpper` on every string. -/
theorem stringsToUpper_eq_stringsMap (U : CaseTables) (s : GoString) :
    stringsToUpper U s = stringsMap (unicodeToUpper U) s := by
  by_cases ha : isASCII s = true
  · have ha' := (isASCII_iff s).1 ha
    have hval : ∀ c ∈ s, unicodeToUpper U (c.toNat : Int) =
        ((asciiToUpper c).toNat : Int) := by
      intro c hc
      have hlt := ha' c hc
      rw [asciiToUpper_toNat]
      unfold unicodeToUpper
      delta Rune
      split_ifs <;> omega
    rw [stringsToUpper_ascii U s ha', stringsMap_eq_map]
    · apply List.map_congr_left
      intro c hc
      rw [hval c hc, runeToChar_toNat]
    · intro c hc
      rw [hval c hc]
      exact Int.natCast_nonneg _
  · unfold stringsToUpper
    simp only [ha, Bool.false_eq_true, if_false]

/-- The case folds work on an all-ASCII first part byte by byte and on the
rest independently. -/
theorem strings_fold_append_ascii (U : CaseTables) (x y : GoString)
    (hx : ∀ c ∈ x, c.toNat < 0x80) :
    stringsToLower U (x ++ y) = x.map asciiToLower ++ stringsToLower U y ∧
    stringsToUpper U (x ++ y) = x.map asciiToUpper ++ stringsToUpper U y := by
  constructor
  · rw [stringsToLower_eq_stringsMap, stringsMap_append, ← stringsToLower_eq_stringsMap,
      ← stringsToLower_eq_stringsMap, stringsToLower_ascii U x hx]
  · rw [stringsToUpper_eq_stringsMap, stringsMap_append, ← stringsToUpper_eq_stringsMap,
      ← stringsToUpper_eq_stringsMap, stringsToUpper_ascii U x hx]

/-- A pattern no longer than `r` matches `r ++ z` exactly when it matches `r`. -/
theorem hasPrefix_append_of_length_le (p r z : GoString) (h : p.length ≤ r.length) :
    hasPrefix (r ++ z) p = hasPrefix r p := by
  induction p generalizing r with
  | nil => cases r <;> cases z <;> rfl
  | cons d p ih =>
    cases r with
    | nil => simp at h
    | cons c r =>
      show hasPrefix (c :: (r ++ z)) (d :: p) = hasPrefix (c :: r) (d :: p)
      simp only [hasPrefix]
      rw [ih r (by simpa using h)]

/-- A pattern longer than `r` does not match `r`. -/
theorem hasPrefix_of_length_lt (p r : GoString) (h : r.length < p.length) :
    hasPrefix r p = false := by
  cases hp : hasPrefix r p with
  | false => rfl
  | true =>
    obtain ⟨rest, hrest⟩ := (hasPrefix_iff p r).1 hp
    have := congrArg List.length hrest
    simp only [List.length_append] at this
    omega

/-- No mora spelling is a proper prefix of a mora spelling. -/
theorem isMoraSpelling_append (V : List Char) (p t : GoString)
    (hp : isMoraSpelling V p = true) (hpt : isMoraSpelling V (p ++ t) = true) : t = [] := by
  induction p with
  | nil => simp [isMoraSpelling] at hp
  | cons c p ih =>
    cases p with
    | nil =>
      cases t with
      | nil => rfl
      | cons d t =>
        simp only [isMoraSpelling] at hp
        simp only [List.cons_append, List.nil_append, isMoraSpelling, hp, Bool.not_true,
          Bool.false_and] at hpt
        exact Bool.noConfusion hpt
    | cons d p =>
      simp only [isMoraSpelling, Bool.and_eq_true] at hp
      simp only [List.cons_append, isMoraSpelling, Bool.and_eq_true] at hpt
      exact ih hp.2 hpt.2

/-- In a table of mora spellings and one-letter patterns, the table query at a
mora spelling does not depend on what follows it. -/
theorem longestMatch_append_of_spelling (V : List Char) (R : RuleTable) (r z : GoString)
    (hR : ∀ f ∈ R, f.1.length ≤ 1 ∨ isMoraSpelling V f.1 = true)
    (hr : isMoraSpelling V r = true) :
    longestMatch R (r ++ z) = longestMatch R r := by
  apply longestMatch_congr
  intro f hf
  have hr1 : 1 ≤ r.length := by
    cases r with
    | nil => simp [isMoraSpelling] at hr
    | cons c r => simp
  by_cases hlen : f.1.length ≤ r.length
  · exact hasPrefix_append_of_length_le f.1 r z hlen
  · rw [hasPrefix_of_length_lt f.1 r (by omega)]
    cases hp : hasPrefix (r ++ z) f.1 with
    | false => rfl
    | true =>
      exfalso
      obtain ⟨rest, hrest⟩ := (hasPrefix_iff f.1 (r ++ z)).1 hp
      rcases hR f hf with h1 | h1
      · omega
      · -- f.1 = r ++ t with t non-empty
        have hpre : ∃ t, f.1 = r ++ t := by
          have h2 : r <+: f.1 ++ rest := ⟨z, hrest.symm ▸ rfl⟩
          have h3 : f.1 <+: f.1 ++ rest := ⟨rest, rfl⟩
          rcases List.prefix_of_prefix_length_le h2 h3 (by omega) with ⟨t, ht⟩
          exact ⟨t, ht.symm⟩
        obtain ⟨t, ht⟩ := hpre
        rw [ht] at h1
        have := isMoraSpelling_append V r t hr h1
        subst this
        rw [ht] at hlen
        simp at hlen

/-- The rewriter over the empty table copies its input. -/
theorem rewrite_nil (x : GoString) : rewrite [] x = x :=
  rewrite_of_no_pattern_scalar [] x (fun _ he => absurd he (List.not_mem_nil _))

/-- `ToHiragana` on the modelled tables, stage by stage. -/
theorem specTables_ToHiragana (U : CaseTables) (a0 b0 : Buffer) (x : GoString) :
    ToHiragana U specTables a0 b0 x =
      rewrite postKanaRules (rewrite postHiraganaRules (stringsMap KatakanaToHiragana
        (rewrite (rules romajiHiragana) (stringsToLower U x)))) := by
  rw [ToHiragana_eq_comp]
  show rewrite postKanaRules (rewrite postHiraganaRules (stringsMap KatakanaToHiragana
    (rewrite (rules romajiHiragana) (rewrite [] (stringsToLower U x))))) = _
  rw [rewrite_nil]

/-- `ToKatakana` on the modelled tables, stage by stage. -/
theorem specTables_ToKatakana (U : CaseTables) (a0 b0 : Buffer) (x : GoString) :
    ToKatakana U specTables a0 b0 x =
      rewrite postKanaRules (rewrite postKatakanaRules (stringsMap HiraganaToKatakana
        (rewrite (rules romajiKatakana) (stringsToUpper U x)))) := by
  rw [ToKatakana_eq_comp]
  show rewrite postKanaRules (rewrite postKatakanaRules (stringsMap HiraganaToKatakana
    (rewrite (rules romajiKatakana) (rewrite [] (stringsToUpper U x))))) = _
  rw [rewrite_nil]

/-- The stages of a romaji-to-kana pipeline behind the case fold write the
kana `k` for a first spelling `r` that the main table reads as `k`, when the
swap fixes the scalars of `k` and none of them begins a pattern of the later
tables. -/
theorem kana_peel (R P Q : RuleTable) (f : Rune → Rune) (r k z : GoString)
    (hR : longestMatch R (r ++ z) = some (r, k))
    (hf : ∀ c ∈ k, f (c.toNat : Int) = (c.toNat : Int))
    (hP : ∀ c ∈ k, ∀ e ∈ P, e.1.head? ≠ some c)
    (hQ : ∀ c ∈ k, ∀ e ∈ Q, e.1.head? ≠ some c) :
    rewrite Q (rewrite P (stringsMap f (rewrite R (r ++ z)))) =
      k ++ rewrite Q (rewrite P (stringsMap f (rewrite R z))) := by
  have h1 : rewrite R (r ++ z) = k ++ rewrite R z := rewrite_of_longestMatch R (r, k) z hR
  rw [h1, stringsMap_append, stringsMap_of_fixed f k hf, rewrite_copy_heads P k _ hP,
    rewrite_copy_heads Q k _ hQ]

/-- The table query at a letter `n` that no vowel letter and no glide letter
follows is the query at the letter alone, when every longer pattern that
begins with `n` goes on with one of these letters. -/
theorem longestMatch_letterN (R : RuleTable) (n : Char) (VG : List Char) (z : GoString)
    (hR : ∀ f ∈ R, f.1.head? = some n → f.1.length ≤ 1 ∨ ∃ c ∈ VG, f.1.tail.head? = some c)
    (hz : ∀ c ∈ VG, z.head? ≠ some c) :
    longestMatch R (n :: z) = longestMatch R [n] := by
  apply longestMatch_congr
  intro f hf
  by_cases hlen : f.1.length ≤ 1
  · exact hasPrefix_append_of_length_le f.1 [n] z (by simpa using hlen)
  · rw [hasPrefix_of_length_lt f.1 [n] (by simp at hlen ⊢; omega)]
    cases hp : f.1 with
    | nil => simp [hp] at hlen
    | cons d q =>
      cases q with
      | nil => simp [hp] at hlen
      | cons d2 q =>
        by_cases hd : n = d
        · subst hd
          rcases hR f hf (by rw [hp]; rfl) with h1 | ⟨c, hc, h1⟩
          · exact absurd h1 hlen
          · rw [hp] at h1
            simp only [List.tail_cons, List.head?_cons, Option.some.injEq] at h1
            subst h1
            cases z with
            | nil => simp [hasPrefix]
            | cons c0 z =>
              have := hz d2 hc
              simp only [List.head?_cons, ne_eq, Option.some.injEq] at this
              have e1 : (c0 == d2) = false := beq_eq_false_iff_ne.2 this
              simp only [hasPrefix, e1, Bool.false_and, Bool.and_false]
        · have e1 : (n == d) = false := beq_eq_false_iff_ne.2 hd
          simp only [hasPrefix, e1, Bool.false_and]

/-- The stages of a romaji-to-kana pipeline behind the case fold delete a
first apostrophe that begins no pattern of the main and of the
post-normalization table. -/
theorem kana_drop_apostrophe (R P : RuleTable) (f : Rune → Rune) (z : GoString)
    (hR : ∀ e ∈ R, e.1.head? ≠ some apostrophe)
    (hf : f (apostrophe.toNat : Int) = (apostrophe.toNat : Int))
    (hP : ∀ e ∈ P, e.1.head? ≠ some apostrophe) :
    rewrite postKanaRules (rewrite P (stringsMap f (rewrite R (apostrophe :: z)))) =
      rewrite postKanaRules (rewrite P (stringsMap f (rewrite R z))) := by
  have hs : stringsMap f (apostrophe :: rewrite R z) =
      apostrophe :: stringsMap f (rewrite R z) := by
    have := stringsMap_append f [apostrophe] (rewrite R z)
    rw [stringsMap_of_fixed f [apostrophe] (by
      intro c hc
      rw [List.mem_singleton] at hc
      subst hc
      exact hf)] at this
    exact this
  rw [rewrite_cons_skip R _ _ hR, hs, rewrite_cons_skip P _ _ hP,
    rewrite_cons_single postKanaRules apostrophe [] _ (by decide) (by decide)]
  rfl

/-- One step of `builtFromMorae`. -/
theorem builtFromMorae_cons (t : RuleTable) (ok : GoString × GoString → Bool)
    (lone : Char → Bool) (n : Nat) (c : Char) (cs : GoString)
    (h : builtFromMorae t ok lone n (c :: cs) = true) :
    ∃ m, n = m + 1 ∧
      ((∃ e rest, longestMatch t (c :: cs) = some e ∧ ok e = true ∧
          c :: cs = e.1 ++ rest ∧ e.1.head? = some c ∧
          builtFromMorae t ok lone m rest = true) ∨
        (longestMatch t (c :: cs) = none ∧ lone c = true ∧
          builtFromMorae t ok lone m cs = true)) := by
  cases n with
  | zero => simp [builtFromMorae] at h
  | succ m =>
    refine ⟨m, rfl, ?_⟩
    simp only [builtFromMorae] at h
    cases hm : longestMatch t (c :: cs) with
    | none =>
      rw [hm] at h
      simp only [Bool.and_eq_true] at h
      exact Or.inr ⟨rfl, h.1, h.2⟩
    | some e =>
      rw [hm] at h
      simp only [Bool.and_eq_true] at h
      obtain ⟨_, hne, hp, _⟩ := longestMatch_some t _ e hm
      obtain ⟨rest, hrest⟩ := (hasPrefix_iff e.1 (c :: cs)).1 hp
      have hd : List.drop e.1.length (c :: cs) = rest := by
        rw [hrest, List.drop_left]
      have hh : e.1.head? = some c := by
        cases he : e.1 with
        | nil => exact absurd he hne
        | cons d p =>
          rw [he] at hrest
          simp only [List.cons_append, List.cons.injEq] at hrest
          rw [hrest.1]
          rfl
      rw [hd] at h
      exact Or.inl ⟨e, rest, rfl, h.1, hrest, hh, h.2⟩

/-- The round trip through romaji, from what the two directions do on one
mora at a time: `rom` spells the first mora and goes on with the rest, `back`
reads that spelling and goes on with what follows it; the nasal `ν` is spelled
`n`, with an apostrophe before a vowel kana or a glide kana. -/
theorem round_trip_of_peel (K : RuleTable) (ok : GoString × GoString → Bool)
    (lone : Char → Bool) (ν : Char) (rom back : GoString → GoString)
    (hnil : rom [] = [] ∧ back [] = [])
    (hKν : ∀ e rest, longestMatch K (ν :: rest) = some e → e.1 = [ν])
    (hlν : ∀ rest, longestMatch K (ν :: rest) ≠ none)
    (hplain : ∀ e rest, ok e = true → e.1.head? ≠ some ν →
      longestMatch K (e.1 ++ rest) = some e →
      ∃ h t, rom (e.1 ++ rest) = (h :: t) ++ rom rest ∧
        (∀ y, back ((h :: t) ++ y) = e.1 ++ back y) ∧ isLowerLetter h = true ∧
        (h ∈ "aiueoy".toList → ∃ v ∈ vowelOrGlideKana, e.1.head? = some v))
    (hlone : ∀ c rest, lone c = true → longestMatch K (c :: rest) = none →
      ∃ h t, rom (c :: rest) = (h :: t) ++ rom rest ∧
        (∀ y, back ((h :: t) ++ y) = c :: back y) ∧ isLowerLetter h = true ∧
        h ∉ "aiueoy".toList)
    (hrom_nv : ∀ v ∈ vowelOrGlideKana, ∀ m,
      rom (ν :: v :: m) = 'n' :: apostrophe :: rom (v :: m))
    (hrom_n : ∀ m, (∀ v ∈ vowelOrGlideKana, m.head? ≠ some v) → rom (ν :: m) = 'n' :: rom m)
    (hback_n : ∀ y, (∀ c ∈ "aiueoy".toList, y.head? ≠ some c) →
      (y = [] ∨ ∃ h y0, y = h :: y0 ∧ (h = apostrophe ∨ isLowerLetter h = true)) →
      back ('n' :: y) = ν :: back y)
    (hback_a : ∀ y, back (apostrophe :: y) = back y) :
    ∀ n s, builtFromMorae K ok lone n s = true → back (rom s) = s := by
  have hn_low : isLowerLetter 'n' = true := by decide
  have hn_nv : ∀ c ∈ "aiueoy".toList, (some 'n' : Option Char) ≠ some c := by decide
  have ha_nv : ∀ c ∈ "aiueoy".toList, (some apostrophe : Option Char) ≠ some c := by decide
  -- the first letter of the romaji of a non-empty sequence of morae
  have hhead : ∀ n c cs, builtFromMorae K ok lone n (c :: cs) = true →
      ∃ h y0, rom (c :: cs) = h :: y0 ∧ isLowerLetter h = true ∧
        (h ∈ "aiueoy".toList → c ∈ vowelOrGlideKana) := by
    intro n c cs hb
    obtain ⟨m, _, hcase⟩ := builtFromMorae_cons K ok lone n c cs hb
    by_cases hc : c = ν
    · subst hc
      by_cases hv : ∀ v ∈ vowelOrGlideKana, cs.head? ≠ some v
      · exact ⟨'n', _, hrom_n cs hv, hn_low, fun h => absurd rfl (hn_nv _ h)⟩
      · simp only [not_forall, not_not] at hv
        obtain ⟨v, hv1, hv2⟩ := hv
        cases cs with
        | nil => simp at hv2
        | cons d m' =>
          simp only [List.head?_cons, Option.some.injEq] at hv2
          subst hv2
          exact ⟨'n', _, hrom_nv d hv1 m', hn_low, fun h => absurd rfl (hn_nv _ h)⟩
    · rcases hcase with ⟨e, rest, hm, hok, hrest, hh, _⟩ | ⟨hm, hl, _⟩
      · have hne : e.1.head? ≠ some ν := by
          rw [hh]
          exact fun h => hc (Option.some.inj h)
        obtain ⟨h, t, h1, _, h3, h4⟩ := hplain e rest hok hne (hrest ▸ hm)
        refine ⟨h, t ++ rom rest, by rw [hrest, h1]; rfl, h3, ?_⟩
        intro hin
        obtain ⟨v, hv1, hv2⟩ := h4 hin
        rw [hh] at hv2
        rw [Option.some.inj hv2]
        exact hv1
      · obtain ⟨h, t, h1, _, h3, h4⟩ := hlone c cs hl hm
        exact ⟨h, t ++ rom cs, h1, h3, fun hin => absurd hin h4⟩
  intro n
  induction n with
  | zero =>
    intro s hb
    cases s with
    | nil => rw [hnil.1, hnil.2]
    | cons c cs => simp [builtFromMorae] at hb
  | succ n ih =>
    intro s hb
    cases s with
    | nil => rw [hnil.1, hnil.2]
    | cons c cs =>
      obtain ⟨m, hnm, hcase⟩ := builtFromMorae_cons K ok lone _ c cs hb
      have hmn : m = n := by omega
      subst hmn
      by_cases hc : c = ν
      · subst hc
        rcases hcase with ⟨e, rest, hm, hok, hrest, hh, hb'⟩ | ⟨hm, _, _⟩
        · have he1 := hKν e cs hm
          have hrest' : rest = cs := by
            rw [he1] at hrest
            simp only [List.cons_append, List.nil_append, List.cons.injEq, true_and] at hrest
            exact hrest.symm
          subst hrest'
          have ihr := ih rest hb'
          by_cases hv : ∀ v ∈ vowelOrGlideKana, rest.head? ≠ some v
          · rw [hrom_n rest hv]
            cases hcs : rest with
            | nil =>
              rw [hnil.1, hback_n [] (by simp) (Or.inl rfl), hnil.2]
            | cons c2 cs2 =>
              rw [hcs] at hb' ihr hv
              obtain ⟨h, y0, hy, hlow, hvow⟩ := hhead m c2 cs2 hb'
              rw [hy] at ihr ⊢
              rw [hback_n (h :: y0) ?_ (Or.inr ⟨h, y0, rfl, Or.inr hlow⟩), ihr]
              intro c0 hc0 heq
              simp only [List.head?_cons, Option.some.injEq] at heq
              subst heq
              exact hv c2 (hvow hc0) rfl
          · simp only [not_forall, not_not] at hv
            obtain ⟨v, hv1, hv2⟩ := hv
            cases hcs : rest with
            | nil => simp [hcs] at hv2
            | cons d m' =>
              rw [hcs] at hv2 ihr
              simp only [List.head?_cons, Option.some.injEq] at hv2
              subst hv2
              rw [hrom_nv d hv1 m', hback_n _ (fun c0 hc0 => by
                simpa using ha_nv c0 hc0) (Or.inr ⟨apostrophe, _, rfl, Or.inl rfl⟩),
                hback_a, ihr]
        · exact absurd hm (hlν cs)
      · rcases hcase with ⟨e, rest, hm, hok, hrest, hh, hb'⟩ | ⟨hm, hl, hb'⟩
        · have hne : e.1.head? ≠ some ν := by
            rw [hh]
            exact fun h => hc (Option.some.inj h)
          obtain ⟨h, t, h1, h2, _, _⟩ := hplain e rest hok hne (hrest ▸ hm)
          rw [hrest, h1, h2, ih rest hb']
        · obtain ⟨h, t, h1, h2, _, _⟩ := hlone c cs hl hm
          rw [h1, h2, ih cs hb']

set_option maxRecDepth 100000 in
/-- The romaji-to-hiragana table: every pattern is one letter or a mora
spelling; behind a first `n` a longer pattern goes on with a vowel or `y`;
`n` alone is read ん; no pattern begins with an apostrophe. -/
theorem romajiHiragana_facts :
    (∀ f ∈ rules romajiHiragana,
      f.1.length ≤ 1 ∨ isMoraSpelling "aiueo".toList f.1 = true) ∧
    (∀ f ∈ rules romajiHiragana, f.1.head? = some 'n' →
      f.1.length ≤ 1 ∨ ∃ c ∈ "aiueoy".toList, f.1.tail.head? = some c) ∧
    longestMatch (rules romajiHiragana) ['n'] = some (['n'], ['ん']) ∧
    (∀ e ∈ rules romajiHiragana, e.1.head? ≠ some apostrophe) := by
  decide

set_option maxRecDepth 100000 in
/-- The patterns of the hiragana post-normalization begin with an ASCII
scalar other than the apostrophe, and those of the kana special characters
lie below U+3000. -/
theorem postHiraganaRules_facts :
    (∀ e ∈ postHiraganaRules, ∀ c ∈ e.1.take 1, c.toNat < 0x80 ∧ c ≠ apostrophe) ∧
    (∀ e ∈ postKanaRules, ∀ c ∈ e.1, c.toNat < 0x3000) := by
  decide

/-- A scalar from the bound `b` on begins no pattern of a table whose
patterns begin below `b`. -/
theorem begins_no_pattern (P : RuleTable) (b : Nat)
    (hP : ∀ e ∈ P, ∀ c ∈ e.1.take 1, c.toNat < b) (c : Char) (hc : b ≤ c.toNat) :
    ∀ e ∈ P, e.1.head? ≠ some c := by
  intro e he hh
  cases hp : e.1 with
  | nil => simp [hp] at hh
  | cons d p =>
    rw [hp] at hh
    simp only [List.head?_cons, Option.some.injEq] at hh
    subst hh
    have := hP e he d (by rw [hp]; simp)
    omega

/-- The conversions on the empty string, with the modelled tables. -/
theorem specTables_of_empty (U : CaseTables) (a0 b0 : Buffer) (p : Bool) :
    ToRomaji U specTables a0 b0 [] p = [] ∧ ToHiragana U specTables a0 b0 [] = [] ∧
    ToKatakana U specTables a0 b0 [] = [] := by
  refine ⟨?_, ?_, ?_⟩
  · show stringsToLower U (ToRomajiCased specTables a0 b0 [] p) = []
    rw [specTables_ToRomajiCased]
    rfl
  · rw [specTables_ToHiragana]
    rfl
  · rw [specTables_ToKatakana]
    rfl

/-- The swap to hiragana fixes the hiragana of the mapped ranges. -/
theorem KatakanaToHiragana_fixes_hiragana (c : Char) (h : isSwappableHiragana c = true) :
    KatakanaToHiragana (c.toNat : Int) = (c.toNat : Int) ∧ 0x3000 ≤ c.toNat := by
  simp only [isSwappableHiragana, Bool.or_eq_true, Bool.and_eq_true, decide_eq_true_eq] at h
  constructor
  · unfold KatakanaToHiragana
    delta Rune
    rw [if_neg (by omega)]
  · omega

/-- The conditions met by a hiragana mora other than the nasal. -/
theorem isHiraganaMora_plain (e : GoString × GoString) (h : isHiraganaMora e = true)
    (hne : e.1.head? ≠ some 'ん') :
    (∀ c ∈ e.1, isSwappableHiragana c = true ∧ c ≠ 'ん') ∧
    (∀ c ∈ e.2, isLowerLetter c = true) ∧
    isMoraSpelling "aiueo".toList e.2 = true ∧
    longestMatch (rules romajiHiragana) e.2 = some (e.2, e.1) ∧
    (e.2.headD 'a' ∈ "aiueoy".toList → e.1.headD 'あ' ∈ vowelOrGlideKana) := by
  unfold isHiraganaMora at h
  simp only [Bool.or_eq_true, beq_iff_eq, Bool.and_eq_true, List.all_eq_true,
    bne_iff_ne, ne_eq, Bool.not_eq_true', List.contains_eq_any_beq, List.any_eq_true,
    List.any_eq_false] at h
  rcases h with h | ⟨⟨⟨⟨h1, h2⟩, h3⟩, h4⟩, h5⟩
  · rw [h] at hne
    exact absurd rfl hne
  · refine ⟨h1, h2, h3, h4, ?_⟩
    intro hin
    rcases h5 with h5 | ⟨v, hv, hv2⟩
    · exfalso
      have := h5 _ hin
      simp at this
    · rw [hv2]
      exact hv

/-- A string whose scalars are lowercase letters is fixed byte by byte by the
lowercase fold. -/
theorem map_asciiToLower_of_lower (r : GoString) (h : ∀ c ∈ r, isLowerLetter c = true) :
    r.map asciiToLower = r ∧ ∀ c ∈ r, c.toNat < 0x80 := by
  have hc : ∀ c ∈ r, 0x61 ≤ c.toNat ∧ c.toNat ≤ 0x7A := by
    intro c hc
    simpa [isLowerLetter] using h c hc
  constructor
  · have hid : ∀ c ∈ r, asciiToLower c = id c := by
      intro c hin
      have := hc c hin
      unfold asciiToLower
      rw [if_neg (by omega)]
      rfl
    rw [List.map_congr_left hid, List.map_id]
  · intro c hin
    have := hc c hin
    omega

/-- `ToHiragana` on the modelled tables reads the spelling of a plain
hiragana mora, whatever follows it. -/
theorem ToHiragana_mora (U : CaseTables) (a0 b0 a1 b1 : Buffer) (e : GoString × GoString)
    (y : GoString) (h : isHiraganaMora e = true) (hne : e.1.head? ≠ some 'ん') :
    ToHiragana U specTables a0 b0 (e.2 ++ y) = e.1 ++ ToHiragana U specTables a1 b1 y := by
  obtain ⟨h1, h2, h3, h4, _⟩ := isHiraganaMora_plain e h hne
  obtain ⟨f1, _, _, _⟩ := romajiHiragana_facts
  obtain ⟨g1, g2⟩ := postHiraganaRules_facts
  obtain ⟨hl1, hl2⟩ := map_asciiToLower_of_lower e.2 h2
  rw [specTables_ToHiragana, specTables_ToHiragana,
    (strings_fold_append_ascii U e.2 y hl2).1, hl1]
  apply kana_peel
  · rw [longestMatch_append_of_spelling _ _ _ _ f1 h3]
    exact h4
  · intro c hc
    exact (KatakanaToHiragana_fixes_hiragana c (h1 c hc).1).1
  · intro c hc
    exact begins_no_pattern _ 0x80 (fun e he d hd => (g1 e he d hd).1) c
      (by have := (KatakanaToHiragana_fixes_hiragana c (h1 c hc).1).2; omega)
  · intro c hc
    exact begins_no_pattern _ 0x3000
      (fun e he d hd => g2 e he d (List.mem_of_mem_take hd)) c
      (KatakanaToHiragana_fixes_hiragana c (h1 c hc).1).2

/-- `ToHiragana` on the modelled tables reads a letter `n` as ん when no vowel
letter and no `y` follows it. -/
theorem ToHiragana_nasal (U : CaseTables) (a0 b0 a1 b1 : Buffer) (y : GoString)
    (hy : ∀ c ∈ "aiueoy".toList, y.head? ≠ some c)
    (hy2 : y = [] ∨ ∃ h y0, y = h :: y0 ∧ (h = apostrophe ∨ isLowerLetter h = true)) :
    ToHiragana U specTables a0 b0 ('n' :: y) = 'ん' :: ToHiragana U specTables a1 b1 y := by
  obtain ⟨_, f2, f3, _⟩ := romajiHiragana_facts
  obtain ⟨g1, g2⟩ := postHiraganaRules_facts
  have hz : ∀ c ∈ "aiueoy".toList, (stringsToLower U y).head? ≠ some c := by
    rcases hy2 with rfl | ⟨h, y0, rfl, hh⟩
    · intro c _
      show (none : Option Char) ≠ some c
      simp
    · have hfix : stringsToLower U (h :: y0) = h :: stringsToLower U y0 := by
        rcases hh with rfl | hh
        · exact stringsToLower_cons_apostrophe U y0
        · exact stringsToLower_cons_fixed U h y0
            (unicodeToLower_lowercase U h (by simpa [isLowerLetter] using hh))
      rw [hfix]
      exact hy
  rw [specTables_ToHiragana, specTables_ToHiragana, stringsToLower_cons_n U 'n' y (Or.inl rfl)]
  have hk : ∀ c ∈ ['ん'], isSwappableHiragana c = true := by decide
  have := kana_peel (rules romajiHiragana) postHiraganaRules postKanaRules KatakanaToHiragana
    ['n'] ['ん'] (stringsToLower U y)
    (by
      show longestMatch _ ('n' :: stringsToLower U y) = _
      rw [longestMatch_letterN _ 'n' "aiueoy".toList _ f2 hz]
      exact f3)
    (fun c hc => (KatakanaToHiragana_fixes_hiragana c (hk c hc)).1)
    (fun c hc => begins_no_pattern _ 0x80 (fun e he d hd => (g1 e he d hd).1) c
      (by have := (KatakanaToHiragana_fixes_hiragana c (hk c hc)).2; omega))
    (fun c hc => begins_no_pattern _ 0x3000
      (fun e he d hd => g2 e he d (List.mem_of_mem_take hd)) c
      (KatakanaToHiragana_fixes_hiragana c (hk c hc)).2)
  exact this

/-- `ToHiragana` on the modelled tables deletes a first apostrophe. -/
theorem ToHiragana_apostrophe (U : CaseTables) (a0 b0 a1 b1 : Buffer) (y : GoString) :
    ToHiragana U specTables a0 b0 (apostrophe :: y) = ToHiragana U specTables a1 b1 y := by
  obtain ⟨_, _, _, f4⟩ := romajiHiragana_facts
  obtain ⟨g1, _⟩ := postHiraganaRules_facts
  rw [specTables_ToHiragana, specTables_ToHiragana, stringsToLower_cons_apostrophe]
  apply kana_drop_apostrophe _ _ _ _ f4 (by decide)
  intro e he hh
  cases hp : e.1 with
  | nil => simp [hp] at hh
  | cons d p =>
    rw [hp] at hh
    simp only [List.head?_cons, Option.some.injEq] at hh
    exact (g1 e he d (by rw [hp]; simp)).2 hh

/-- `ToRomaji` on the modelled tables spells a first mora without nasal as the
table does, in lowercase. -/
theorem ToRomaji_mora (U : CaseTables) (a0 b0 a1 b1 : Buffer) (phonetic : Bool)
    (e : GoString × GoString) (rest : GoString)
    (hk : ∀ c ∈ e.1, c ≠ 'ん' ∧ c ≠ 'ン')
    (hm : longestMatch kanaToRomajiRules (e.1 ++ rest) = some e) :
    ToRomaji U specTables a0 b0 (e.1 ++ rest) phonetic =
      e.2.map asciiToLower ++ ToRomaji U specTables a1 b1 rest phonetic := by
  obtain ⟨he, _, _, _⟩ := longestMatch_some _ _ e hm
  have hletters := kanaToRomajiRules_facts.2.2 e he
  show stringsToLower U (ToRomajiCased specTables a0 b0 (e.1 ++ rest) phonetic) =
    e.2.map asciiToLower ++ stringsToLower U (ToRomajiCased specTables a1 b1 rest phonetic)
  rw [romajiCased_peel a0 b0 a1 b1 phonetic e rest hk hm]
  apply (strings_fold_append_ascii U e.2 _ _).1
  intro c hc
  have := hletters c hc
  simp only [isAsciiLetter, Bool.or_eq_true, Bool.and_eq_true, decide_eq_true_eq] at this
  omega

/-- The rewriter copies a scalar at which no pattern matches. -/
theorem rewrite_cons_of_none (t : RuleTable) (c : Char) (x : GoString)
    (h : longestMatch t (c :: x) = none) : rewrite t (c :: x) = c :: rewrite t x := by
  show rewriteFrom t 0 (c :: x) = c :: rewriteFrom t 0 x
  simp only [rewriteFrom, h]

set_option maxRecDepth 100000 in
/-- The pronounced and the literal table: no two rules begin alike, and the
spellings are letters. -/
theorem irregularRules_facts :
    (∀ e ∈ phoneticRules, ∀ f ∈ phoneticRules, e.1.head? = f.1.head? → e = f) ∧
    (∀ e ∈ phoneticRules, ∀ d ∈ e.2, isAsciiLetter d = true) ∧
    (∀ e ∈ unphoneticRules, ∀ f ∈ unphoneticRules, e.1.head? = f.1.head? → e = f) ∧
    (∀ e ∈ unphoneticRules, ∀ d ∈ e.2, isAsciiLetter d = true) := by
  decide

/-- `ToRomajiCased` on the modelled tables spells an irregular syllable that
the main table does not read with what follows it as the table chosen by the
flag does. -/
theorem romajiCased_irregular (a0 b0 a1 b1 : Buffer) (phonetic : Bool) (c : Char)
    (r rest : GoString) (hc : c ≠ 'ん' ∧ c ≠ 'ン')
    (hnone : longestMatch kanaToRomajiRules (c :: rest) = none)
    (hV : ([c], r) ∈ (if phonetic then phoneticRules else unphoneticRules)) :
    ToRomajiCased specTables a0 b0 (c :: rest) phonetic =
      r ++ ToRomajiCased specTables a1 b1 rest phonetic := by
  obtain ⟨p1, p2, u1, u2⟩ := irregularRules_facts
  obtain ⟨g1, g2, g3, g4, g5⟩ := asciiLetter_facts
  have hletters : ∀ d ∈ r, isAsciiLetter d = true := by
    cases phonetic
    · exact u2 _ hV
    · exact p2 _ hV
  have hK : rewrite kanaToRomajiRules (c :: rewrite moraicNRules rest) =
      c :: rewrite kanaToRomajiRules (rewrite moraicNRules rest) := by
    apply rewrite_cons_of_none
    have := longestMatch_moraicN [c] rest (by simp)
    simp only [List.cons_append, List.nil_append] at this
    rw [this]
    exact hnone
  have hVs : ∀ z, rewrite (if phonetic then phoneticRules else unphoneticRules) (c :: z) =
      r ++ rewrite (if phonetic then phoneticRules else unphoneticRules) z := by
    intro z
    apply rewrite_cons_single _ c r z hV
    intro e he hh
    cases phonetic
    · exact u1 e he _ hV (by rw [hh]; rfl)
    · exact p1 e he _ hV (by rw [hh]; rfl)
  have hP : ∀ z, sampleParseRomajiDoubles (toRunes (r ++ z)) =
      r ++ sampleParseRomajiDoubles (toRunes z) := by
    intro z
    have : toRunes (r ++ z) = toRunes r ++ toRunes z := by simp [toRunes]
    rw [this]
    apply sampleParseRomajiDoubles_copy
    intro d hd
    constructor
    · rintro rfl
      have := hletters _ hd
      rw [g4] at this
      exact Bool.noConfusion this
    · rintro rfl
      have := hletters _ hd
      rw [g5] at this
      exact Bool.noConfusion this
  have hQ : ∀ z, rewriteFrom postRomajiRules 0 (r ++ z) = r ++ rewriteFrom postRomajiRules 0 z := by
    intro z
    apply rewriteFrom_copy
    intro f hf d hd hin
    have := hletters d hin
    rw [g3 f hf d hd] at this
    exact Bool.noConfusion this
  rw [specTables_ToRomajiCased, specTables_ToRomajiCased, moraicN_cons_plain c rest hc, hK,
    hVs, hP]
  exact hQ _

set_option maxRecDepth 100000 in
/-- The irregular syllables with their literal spelling are morae with a
unique canonical spelling. -/
theorem irregular_morae :
    (isHiraganaMora (['づ'], "du".toList) = true ∧ isHiraganaMora (['ぢ'], "di".toList) = true) ∧
    ((['づ'], "du".toList) ∈ unphoneticRules ∧ (['ぢ'], "di".toList) ∈ unphoneticRules) ∧
    ((['ヅ'], "DU".toList) ∈ unphoneticRules ∧ (['ヂ'], "DI".toList) ∈ unphoneticRules) := by
  decide

/-- On the modelled tables, a sequence of hiragana morae with a unique
canonical spelling is read back by `ToHiragana` from its romaji. -/
theorem hiragana_round_trip (U : CaseTables) (a0 b0 a1 b1 : Buffer) (n : Nat) (s : GoString)
    (hs : builtFromMorae kanaToRomajiRules isHiraganaMora isIrregularHiragana n s = true) :
    ToHiragana U specTables a1 b1 (ToRomaji U specTables a0 b0 s false) = s := by
  refine round_trip_of_peel kanaToRomajiRules isHiraganaMora isIrregularHiragana 'ん'
    (fun s => ToRomaji U specTables a0 b0 s false) (ToHiragana U specTables a1 b1)
    ⟨(specTables_of_empty U a0 b0 false).1, (specTables_of_empty U a1 b1 false).2.1⟩
    ?_ ?_ ?_ ?_ ?_ ?_ ?_ ?_ n s hs
  · intro e rest hm
    obtain ⟨he, hne, hp, _⟩ := longestMatch_some _ _ e hm
    have hh : e.1.head? = some 'ん' := by
      cases hp1 : e.1 with
      | nil => exact absurd hp1 hne
      | cons d p =>
        rw [hp1] at hp
        simp only [hasPrefix, Bool.and_eq_true, beq_iff_eq] at hp
        rw [hp.1]
        rfl
    rw [(kanaToRomajiRules_nasal.2 e he).1 hh]
  · intro rest hnone
    have := longestMatch_none _ _ hnone _ kanaToRomajiRules_nasal.1.1 (by simp)
    simp [hasPrefix] at this
  · intro e rest hok hne hm
    obtain ⟨h1, h2, h3, h4, h5⟩ := isHiraganaMora_plain e hok hne
    have hk : ∀ c ∈ e.1, c ≠ 'ん' ∧ c ≠ 'ン' := by
      intro c hc
      refine ⟨(h1 c hc).2, ?_⟩
      rintro rfl
      have := (h1 _ hc).1
      revert this
      decide
    have hrom := ToRomaji_mora U a0 b0 a0 b0 false e rest hk hm
    rw [(map_asciiToLower_of_lower e.2 h2).1] at hrom
    obtain ⟨_, hne1, _, _⟩ := longestMatch_some _ _ e hm
    cases hr : e.2 with
    | nil =>
      rw [hr] at h3
      simp [isMoraSpelling] at h3
    | cons h t =>
      refine ⟨h, t, ?_, ?_, ?_, ?_⟩
      · rw [← hr]
        exact hrom
      · intro y
        rw [← hr]
        exact ToHiragana_mora U a1 b1 a1 b1 e y hok hne
      · exact h2 h (by rw [hr]; simp)
      · intro hin
        rw [hr] at h5
        have h6 := h5 hin
        cases hk1 : e.1 with
        | nil => exact absurd hk1 hne1
        | cons d p =>
          rw [hk1] at h6
          exact ⟨d, h6, rfl⟩
  · intro c rest hl hnone
    obtain ⟨⟨m1, m2⟩, ⟨v1, v2⟩, _⟩ := irregular_morae
    have key : ∀ (c : Char) (t : GoString), (c ≠ 'ん' ∧ c ≠ 'ン') →
        longestMatch kanaToRomajiRules (c :: rest) = none →
        isHiraganaMora ([c], 'd' :: t) = true → ([c], 'd' :: t) ∈ unphoneticRules →
        ∃ h t, ToRomaji U specTables a0 b0 (c :: rest) false =
            (h :: t) ++ ToRomaji U specTables a0 b0 rest false ∧
          (∀ y, ToHiragana U specTables a1 b1 ((h :: t) ++ y) =
            c :: ToHiragana U specTables a1 b1 y) ∧
          isLowerLetter h = true ∧ h ∉ "aiueoy".toList := by
      intro c t hc hn hmora hmem
      refine ⟨'d', t, ?_, ?_, by decide, by decide⟩
      · show stringsToLower U (ToRomajiCased specTables a0 b0 (c :: rest) false) =
          ('d' :: t) ++ stringsToLower U (ToRomajiCased specTables a0 b0 rest false)
        have hpl := isHiraganaMora_plain ([c], 'd' :: t) hmora (by
          show (some c : Option Char) ≠ some 'ん'
          exact fun h => hc.1 (Option.some.inj h))
        obtain ⟨hl1, hl2⟩ := map_asciiToLower_of_lower ('d' :: t) hpl.2.1
        rw [romajiCased_irregular a0 b0 a0 b0 false c ('d' :: t) rest hc hn hmem,
          (strings_fold_append_ascii U _ _ hl2).1, hl1]
      · intro y
        exact ToHiragana_mora U a1 b1 a1 b1 ([c], 'd' :: t) y hmora (by
          show (some c : Option Char) ≠ some 'ん'
          exact fun h => hc.1 (Option.some.inj h))
    simp only [isIrregularHiragana, Bool.or_eq_true, beq_iff_eq] at hl
    rcases hl with rfl | rfl
    · exact key 'づ' _ (by decide) hnone m1 v1
    · exact key 'ぢ' _ (by decide) hnone m2 v2
  · intro v hv m
    exact nasal_before_vowel_romaji U a0 b0 a0 b0 false 'ん' v m (by simp) hv
  · intro m hm
    exact nasal_alone_romaji U a0 b0 a0 b0 false 'ん' m (by simp) hm
  · intro y hy hy2
    exact ToHiragana_nasal U a1 b1 a1 b1 y hy hy2
  · intro y
    exact ToHiragana_apostrophe U a1 b1 a1 b1 y

set_option maxRecDepth 100000 in
/-- The romaji-to-katakana table: every pattern is one letter or a mora
spelling; behind a first `N` a longer pattern goes on with a vowel or `Y`;
`N` alone is read ン; no pattern begins with an apostrophe. -/
theorem romajiKatakana_facts :
    (∀ f ∈ rules romajiKatakana,
      f.1.length ≤ 1 ∨ isMoraSpelling "AIUEO".toList f.1 = true) ∧
    (∀ f ∈ rules romajiKatakana, f.1.head? = some 'N' →
      f.1.length ≤ 1 ∨ ∃ c ∈ "AIUEOY".toList, f.1.tail.head? = some c) ∧
    longestMatch (rules romajiKatakana) ['N'] = some (['N'], ['ン']) ∧
    (∀ e ∈ rules romajiKatakana, e.1.head? ≠ some apostrophe) := by
  decide

set_option maxRecDepth 100000 in
/-- The patterns of the katakana post-normalization begin with an ASCII
scalar other than the apostrophe. -/
theorem postKatakanaRules_facts :
    ∀ e ∈ postKatakanaRules, ∀ c ∈ e.1.take 1, c.toNat < 0x80 ∧ c ≠ apostrophe := by
  decide

/-- The swap to katakana fixes the katakana of the mapped ranges. -/
theorem HiraganaToKatakana_fixes_katakana (c : Char) (h : isSwappableKatakana c = true) :
    HiraganaToKatakana (c.toNat : Int) = (c.toNat : Int) ∧ 0x3000 ≤ c.toNat := by
  simp only [isSwappableKatakana, Bool.or_eq_true, Bool.and_eq_true, decide_eq_true_eq] at h
  constructor
  · unfold HiraganaToKatakana
    delta Rune
    rw [if_neg (by omega)]
  · omega

/-- The conditions met by a katakana mora other than the nasal. -/
theorem isKatakanaMora_plain (e : GoString × GoString) (h : isKatakanaMora e = true)
    (hne : e.1.head? ≠ some 'ン') :
    (∀ c ∈ e.1, isSwappableKatakana c = true ∧ c ≠ 'ン') ∧
    (∀ c ∈ e.2, isUpperLetter c = true) ∧
    isMoraSpelling "AIUEO".toList e.2 = true ∧
    longestMatch (rules romajiKatakana) e.2 = some (e.2, e.1) ∧
    (e.2.headD 'A' ∈ "AIUEOY".toList → e.1.headD 'ア' ∈ vowelOrGlideKana) := by
  unfold isKatakanaMora at h
  simp only [Bool.or_eq_true, beq_iff_eq, Bool.and_eq_true, List.all_eq_true,
    bne_iff_ne, ne_eq, Bool.not_eq_true', List.contains_eq_any_beq, List.any_eq_true,
    List.any_eq_false] at h
  rcases h with h | ⟨⟨⟨⟨h1, h2⟩, h3⟩, h4⟩, h5⟩
  · rw [h] at hne
    exact absurd rfl hne
  · refine ⟨h1, h2, h3, h4, ?_⟩
    intro hin
    rcases h5 with h5 | ⟨v, hv, hv2⟩
    · exfalso
      have := h5 _ hin
      simp at this
    · rw [hv2]
      exact hv

/-- The uppercase fold undoes the lowercase fold on uppercase letters. -/
theorem map_upper_lower_of_upper (r : GoString) (h : ∀ c ∈ r, isUpperLetter c = true) :
    (r.map asciiToLower).map asciiToUpper = r ∧
    (∀ c ∈ r.map asciiToLower, c.toNat < 0x80) ∧
    (∀ c ∈ r.map asciiToLower, isLowerLetter c = true) := by
  have hc : ∀ c ∈ r, 0x41 ≤ c.toNat ∧ c.toNat ≤ 0x5A := by
    intro c hc
    simpa [isUpperLetter] using h c hc
  have hlow : ∀ c ∈ r, 0x61 ≤ (asciiToLower c).toNat ∧ (asciiToLower c).toNat ≤ 0x7A := by
    intro c hin
    have := hc c hin
    rw [asciiToLower_toNat, if_pos this]
    omega
  refine ⟨?_, ?_, ?_⟩
  · rw [List.map_map]
    have hid : ∀ c ∈ r, (asciiToUpper ∘ asciiToLower) c = id c := by
      intro c hin
      have h1 := hc c hin
      have h2 := hlow c hin
      apply char_eq_of_toNat_eq
      simp only [Function.comp_apply, id]
      rw [asciiToUpper_toNat, if_pos h2, asciiToLower_toNat, if_pos h1]
      omega
    rw [List.map_congr_left hid, List.map_id]
  · intro c hin
    obtain ⟨d, hd, rfl⟩ := List.mem_map.1 hin
    have := hlow d hd
    omega
  · intro c hin
    obtain ⟨d, hd, rfl⟩ := List.mem_map.1 hin
    have := hlow d hd
    simp only [isLowerLetter, Bool.and_eq_true, decide_eq_true_eq]
    exact this

/-- `strings.ToUpper` folds a first ASCII scalar on its own. -/
theorem stringsToUpper_cons_ascii (U : CaseTables) (c : Char) (y : GoString)
    (hc : c.toNat < 0x80) :
    stringsToUpper U (c :: y) = asciiToUpper c :: stringsToUpper U y :=
  (strings_fold_append_ascii U [c] y (by
    intro d hd
    rw [List.mem_singleton] at hd
    subst hd
    exact hc)).2

/-- `ToKatakana` on the modelled tables reads the lowercase spelling of a
plain katakana mora, whatever follows it. -/
theorem ToKatakana_mora (U : CaseTables) (a0 b0 a1 b1 : Buffer) (e : GoString × GoString)
    (y : GoString) (h : isKatakanaMora e = true) (hne : e.1.head? ≠ some 'ン') :
    ToKatakana U specTables a0 b0 (e.2.map asciiToLower ++ y) =
      e.1 ++ ToKatakana U specTables a1 b1 y := by
  obtain ⟨h1, h2, h3, h4, _⟩ := isKatakanaMora_plain e h hne
  obtain ⟨f1, _, _, _⟩ := romajiKatakana_facts
  have g1 := postKatakanaRules_facts
  obtain ⟨_, g2⟩ := postHiraganaRules_facts
  obtain ⟨hl1, hl2, _⟩ := map_upper_lower_of_upper e.2 h2
  rw [specTables_ToKatakana, specTables_ToKatakana,
    (strings_fold_append_ascii U _ y hl2).2, hl1]
  apply kana_peel
  · rw [longestMatch_append_of_spelling _ _ _ _ f1 h3]
    exact h4
  · intro c hc
    exact (HiraganaToKatakana_fixes_katakana c (h1 c hc).1).1
  · intro c hc
    exact begins_no_pattern _ 0x80 (fun e he d hd => (g1 e he d hd).1) c
      (by have := (HiraganaToKatakana_fixes_katakana c (h1 c hc).1).2; omega)
  · intro c hc
    exact begins_no_pattern _ 0x3000
      (fun e he d hd => g2 e he d (List.mem_of_mem_take hd)) c
      (HiraganaToKatakana_fixes_katakana c (h1 c hc).1).2

/-- `ToKatakana` on the modelled tables reads a letter `n` as ン when no vowel
letter and no `y` follows it. -/
theorem ToKatakana_nasal (U : CaseTables) (a0 b0 a1 b1 : Buffer) (y : GoString)
    (hy : ∀ c ∈ "aiueoy".toList, y.head? ≠ some c)
    (hy2 : y = [] ∨ ∃ h y0, y = h :: y0 ∧ (h = apostrophe ∨ isLowerLetter h = true)) :
    ToKatakana U specTables a0 b0 ('n' :: y) = 'ン' :: ToKatakana U specTables a1 b1 y := by
  obtain ⟨_, f2, f3, _⟩ := romajiKatakana_facts
  have g1 := postKatakanaRules_facts
  obtain ⟨_, g2⟩ := postHiraganaRules_facts
  have hz : ∀ c ∈ "AIUEOY".toList, (stringsToUpper U y).head? ≠ some c := by
    rcases hy2 with rfl | ⟨h, y0, rfl, hh⟩
    · intro c _
      show (none : Option Char) ≠ some c
      simp
    · have hlt : h.toNat < 0x80 := by
        rcases hh with rfl | hh
        · decide
        · simp only [isLowerLetter, Bool.and_eq_true, decide_eq_true_eq] at hh
          omega
      rw [stringsToUpper_cons_ascii U h y0 hlt]
      intro c hc heq
      simp only [List.head?_cons, Option.some.injEq] at heq
      -- the letter whose uppercase fold is c
      have hyh : ∀ d ∈ "aiueoy".toList, h ≠ d := by
        intro d hd hhd
        exact hy d hd (by rw [hhd]; rfl)
      have hn : (asciiToUpper h).toNat = c.toNat := by rw [heq]
      rw [asciiToUpper_toNat] at hn
      have hcs : c.toNat = 0x41 ∨ c.toNat = 0x49 ∨ c.toNat = 0x55 ∨ c.toNat = 0x45 ∨
          c.toNat = 0x4F ∨ c.toNat = 0x59 := by
        simp only [String.toList, List.mem_cons, List.mem_singleton, List.not_mem_nil,
          or_false] at hc
        rcases hc with rfl | rfl | rfl | rfl | rfl | rfl <;> decide
      have hne : ∀ d : Char, h ≠ d → h.toNat ≠ d.toNat :=
        fun d hd heq => hd (char_eq_of_toNat_eq h d heq)
      have va := hne 'a' (hyh 'a' (by decide))
      have vi := hne 'i' (hyh 'i' (by decide))
      have vu := hne 'u' (hyh 'u' (by decide))
      have ve := hne 'e' (hyh 'e' (by decide))
      have vo := hne 'o' (hyh 'o' (by decide))
      have vy := hne 'y' (hyh 'y' (by decide))
      have ta : ('a' : Char).toNat = 0x61 := by decide
      have ti : ('i' : Char).toNat = 0x69 := by decide
      have tu : ('u' : Char).toNat = 0x75 := by decide
      have te : ('e' : Char).toNat = 0x65 := by decide
      have to' : ('o' : Char).toNat = 0x6F := by decide
      have ty : ('y' : Char).toNat = 0x79 := by decide
      rcases hh with rfl | hh
      · have tp : apostrophe.toNat = 0x27 := by decide
        rw [tp] at hn
        rw [if_neg (by omega)] at hn
        omega
      · simp only [isLowerLetter, Bool.and_eq_true, decide_eq_true_eq] at hh
        rw [if_pos hh] at hn
        omega
  have hfold : stringsToUpper U ('n' :: y) = 'N' :: stringsToUpper U y := by
    rw [stringsToUpper_cons_ascii U 'n' y (by decide)]
    rfl
  rw [specTables_ToKatakana, specTables_ToKatakana, hfold]
  have hk : ∀ c ∈ ['ン'], isSwappableKatakana c = true := by decide
  have := kana_peel (rules romajiKatakana) postKatakanaRules postKanaRules HiraganaToKatakana
    ['N'] ['ン'] (stringsToUpper U y)
    (by
      show longestMatch _ ('N' :: stringsToUpper U y) = _
      rw [longestMatch_letterN _ 'N' "AIUEOY".toList _ f2 hz]
      exact f3)
    (fun c hc => (HiraganaToKatakana_fixes_katakana c (hk c hc)).1)
    (fun c hc => begins_no_pattern _ 0x80 (fun e he d hd => (g1 e he d hd).1) c
      (by have := (HiraganaToKatakana_fixes_katakana c (hk c hc)).2; omega))
    (fun c hc => begins_no_pattern _ 0x3000
      (fun e he d hd => g2 e he d (List.mem_of_mem_take hd)) c
      (HiraganaToKatakana_fixes_katakana c (hk c hc)).2)
  exact this

/-- `ToKatakana` on the modelled tables deletes a first apostrophe. -/
theorem ToKatakana_apostrophe (U : CaseTables) (a0 b0 a1 b1 : Buffer) (y : GoString) :
    ToKatakana U specTables a0 b0 (apostrophe :: y) = ToKatakana U specTables a1 b1 y := by
  obtain ⟨_, _, _, f4⟩ := romajiKatakana_facts
  have g1 := postKatakanaRules_facts
  have hfold : stringsToUpper U (apostrophe :: y) = apostrophe :: stringsToUpper U y := by
    rw [stringsToUpper_cons_ascii U apostrophe y (by decide)]
    rfl
  rw [specTables_ToKatakana, specTables_ToKatakana, hfold]
  apply kana_drop_apostrophe _ _ _ _ f4 (by decide)
  intro e he hh
  cases hp : e.1 with
  | nil => simp [hp] at hh
  | cons d p =>
    rw [hp] at hh
    simp only [List.head?_cons, Option.some.injEq] at hh
    exact (g1 e he d (by rw [hp]; simp)).2 hh

set_option maxRecDepth 100000 in
/-- The irregular katakana syllables with their literal spelling are morae
with a unique canonical spelling. -/
theorem irregular_katakana_morae :
    isKatakanaMora (['ヅ'], "DU".toList) = true ∧ isKatakanaMora (['ヂ'], "DI".toList) = true := by
  decide

/-- The lowercase fold of an uppercase letter is a vowel letter or `y` only
for the uppercase vowel letters and `Y`. -/
theorem asciiToLower_vowel (c : Char) (hc : isUpperLetter c = true)
    (h : asciiToLower c ∈ "aiueoy".toList) : c ∈ "AIUEOY".toList := by
  simp only [isUpperLetter, Bool.and_eq_true, decide_eq_true_eq] at hc
  have hn : (asciiToLower c).toNat = c.toNat + 0x20 := by
    rw [asciiToLower_toNat, if_pos hc]
  have key : ∀ d D : Char, d.toNat = D.toNat + 0x20 → asciiToLower c = d → c = D := by
    intro d D hd heq
    apply char_eq_of_toNat_eq
    rw [heq] at hn
    omega
  simp only [String.toList, List.mem_cons, List.mem_singleton, List.not_mem_nil,
    or_false] at h ⊢
  rcases h with h | h | h | h | h | h
  · exact Or.inl (key _ 'A' (by decide) h)
  · exact Or.inr (Or.inl (key _ 'I' (by decide) h))
  · exact Or.inr (Or.inr (Or.inl (key _ 'U' (by decide) h)))
  · exact Or.inr (Or.inr (Or.inr (Or.inl (key _ 'E' (by decide) h))))
  · exact Or.inr (Or.inr (Or.inr (Or.inr (Or.inl (key _ 'O' (by decide) h)))))
  · exact Or.inr (Or.inr (Or.inr (Or.inr (Or.inr (key _ 'Y' (by decide) h)))))

/-- On the modelled tables, a sequence of katakana morae with a unique
canonical spelling is read back by `ToKatakana` from its romaji. -/
theorem katakana_round_trip (U : CaseTables) (a0 b0 a1 b1 : Buffer) (n : Nat) (s : GoString)
    (hs : builtFromMorae kanaToRomajiRules isKatakanaMora isIrregularKatakana n s = true) :
    ToKatakana U specTables a1 b1 (ToRomaji U specTables a0 b0 s false) = s := by
  refine round_trip_of_peel kanaToRomajiRules isKatakanaMora isIrregularKatakana 'ン'
    (fun s => ToRomaji U specTables a0 b0 s false) (ToKatakana U specTables a1 b1)
    ⟨(specTables_of_empty U a0 b0 false).1, (specTables_of_empty U a1 b1 false).2.2⟩
    ?_ ?_ ?_ ?_ ?_ ?_ ?_ ?_ n s hs
  · intro e rest hm
    obtain ⟨he, hne, hp, _⟩ := longestMatch_some _ _ e hm
    have hh : e.1.head? = some 'ン' := by
      cases hp1 : e.1 with
      | nil => exact absurd hp1 hne
      | cons d p =>
        rw [hp1] at hp
        simp only [hasPrefix, Bool.and_eq_true, beq_iff_eq] at hp
        rw [hp.1]
        rfl
    rw [(kanaToRomajiRules_nasal.2 e he).2 hh]
  · intro rest hnone
    have := longestMatch_none _ _ hnone _ kanaToRomajiRules_nasal.1.2 (by simp)
    simp [hasPrefix] at this
  · intro e rest hok hne hm
    obtain ⟨h1, h2, h3, h4, h5⟩ := isKatakanaMora_plain e hok hne
    have hk : ∀ c ∈ e.1, c ≠ 'ん' ∧ c ≠ 'ン' := by
      intro c hc
      refine ⟨?_, (h1 c hc).2⟩
      rintro rfl
      have := (h1 _ hc).1
      revert this
      decide
    have hrom := ToRomaji_mora U a0 b0 a0 b0 false e rest hk hm
    obtain ⟨_, _, hlow⟩ := map_upper_lower_of_upper e.2 h2
    obtain ⟨_, hne1, _, _⟩ := longestMatch_some _ _ e hm
    cases hr : e.2 with
    | nil =>
      rw [hr] at h3
      simp [isMoraSpelling] at h3
    | cons h t =>
      refine ⟨asciiToLower h, t.map asciiToLower, ?_, ?_, ?_, ?_⟩
      · rw [hr] at hrom
        exact hrom
      · intro y
        have := ToKatakana_mora U a1 b1 a1 b1 e y hok hne
        rw [hr] at this
        exact this
      · exact hlow _ (by rw [hr]; simp)
      · intro hin
        rw [hr] at h5
        have h6 := h5 (asciiToLower_vowel h (h2 h (by rw [hr]; simp)) hin)
        cases hk1 : e.1 with
        | nil => exact absurd hk1 hne1
        | cons d p =>
          rw [hk1] at h6
          exact ⟨d, h6, rfl⟩
  · intro c rest hl hnone
    obtain ⟨_, _, ⟨v1, v2⟩⟩ := irregular_morae
    obtain ⟨m1, m2⟩ := irregular_katakana_morae
    have key : ∀ (c : Char) (t : GoString), (c ≠ 'ん' ∧ c ≠ 'ン') →
        longestMatch kanaToRomajiRules (c :: rest) = none →
        isKatakanaMora ([c], 'D' :: t) = true → ([c], 'D' :: t) ∈ unphoneticRules →
        ∃ h t, ToRomaji U specTables a0 b0 (c :: rest) false =
            (h :: t) ++ ToRomaji U specTables a0 b0 rest false ∧
          (∀ y, ToKatakana U specTables a1 b1 ((h :: t) ++ y) =
            c :: ToKatakana U specTables a1 b1 y) ∧
          isLowerLetter h = true ∧ h ∉ "aiueoy".toList := by
      intro c t hc hn hmora hmem
      have hne : ([c], 'D' :: t).1.head? ≠ some 'ン' := by
        show (some c : Option Char) ≠ some 'ン'
        exact fun h => hc.2 (Option.some.inj h)
      have hpl := isKatakanaMora_plain ([c], 'D' :: t) hmora hne
      obtain ⟨_, hl2, _⟩ := map_upper_lower_of_upper ('D' :: t) hpl.2.1
      refine ⟨'d', t.map asciiToLower, ?_, ?_, by decide, by decide⟩
      · show stringsToLower U (ToRomajiCased specTables a0 b0 (c :: rest) false) =
          ('d' :: t.map asciiToLower) ++
            stringsToLower U (ToRomajiCased specTables a0 b0 rest false)
        have hasc : ∀ d ∈ ('D' :: t), d.toNat < 0x80 := by
          intro d hd
          have := hpl.2.1 d hd
          simp only [isUpperLetter, Bool.and_eq_true, decide_eq_true_eq] at this
          omega
        rw [romajiCased_irregular a0 b0 a0 b0 false c ('D' :: t) rest hc hn hmem,
          (strings_fold_append_ascii U _ _ hasc).1]
        rfl
      · intro y
        exact ToKatakana_mora U a1 b1 a1 b1 ([c], 'D' :: t) y hmora hne
    simp only [isIrregularKatakana, Bool.or_eq_true, beq_iff_eq] at hl
    rcases hl with rfl | rfl
    · exact key 'ヅ' _ (by decide) hnone m1 v1
    · exact key 'ヂ' _ (by decide) hnone m2 v2
  · intro v hv m
    exact nasal_before_vowel_romaji U a0 b0 a0 b0 false 'ン' v m (by simp) hv
  · intro m hm
    exact nasal_alone_romaji U a0 b0 a0 b0 false 'ン' m (by simp) hm
  · intro y hy hy2
    exact ToKatakana_nasal U a1 b1 a1 b1 y hy hy2
  · intro y
    exact ToKatakana_apostrophe U a1 b1 a1 b1 y


/-- C21: on the modelled tables, every string that the kana-to-romaji table
reads as a sequence of hiragana morae with a unique canonical romaji spelling
(the nasal ん, the irregular づ and ぢ with their literal spelling, and every
mora whose spelling the romaji-to-hiragana table reads back as the mora) is
returned by `ToHiragana` from its `ToRomaji` with the flag clear, and every
such string of katakana morae is returned by `ToKatakana` from its
`ToRomaji` with the flag clear. -/
theorem round_trip_through_romaji (U : CaseTables) (a0 b0 a1 b1 : Buffer) (s : GoString) :
    (builtFromMorae kanaToRomajiRules isHiraganaMora isIrregularHiragana s.length s = true →
      ToHiragana U specTables a1 b1 (ToRomaji U specTables a0 b0 s false) = s) ∧
    (builtFromMorae kanaToRomajiRules isKatakanaMora isIrregularKatakana s.length s = true →
      ToKatakana U specTables a1 b1 (ToRomaji U specTables a0 b0 s false) = s) :=
  ⟨hiragana_round_trip U a0 b0 a1 b1 s.length s, katakana_round_trip U a0 b0 a1 b1 s.length s⟩

set_option maxRecDepth 1000000 in
/-- Witness for C21: `ぜんいん` and `ヅラ` are sequences of such morae, spelled
`zen'in` and `dura`, and make the round trip. -/
theorem round_trip_through_romaji_witness :
    (builtFromMorae kanaToRomajiRules isHiraganaMora isIrregularHiragana
        "ぜんいん".toList.length "ぜんいん".toList = true ∧
      ToRomaji caselessTables specTables ⟨[]⟩ ⟨[]⟩ "ぜんいん".toList false = "zen'in".toList ∧
      ToHiragana caselessTables specTables ⟨[]⟩ ⟨[]⟩
        (ToRomaji caselessTables specTables ⟨[]⟩ ⟨[]⟩ "ぜんいん".toList false) =
        "ぜんいん".toList) ∧
    (builtFromMorae kanaToRomajiRules isKatakanaMora isIrregularKatakana
        "ヅラ".toList.length "ヅラ".toList = true ∧
      ToRomaji caselessTables specTables ⟨[]⟩ ⟨[]⟩ "ヅラ".toList false = "dura".toList ∧
      ToKatakana caselessTables specTables ⟨[]⟩ ⟨[]⟩
        (ToRomaji caselessTables specTables ⟨[]⟩ ⟨[]⟩ "ヅラ".toList false) = "ヅラ".toList) :=
  have h1 : builtFromMorae kanaToRomajiRules isHiraganaMora isIrregularHiragana
      "ぜんいん".toList.length "ぜんいん".toList = true := by decide!
  have h2 : builtFromMorae kanaToRomajiRules isKatakanaMora isIrregularKatakana
      "ヅラ".toList.length "ヅラ".toList = true := by decide!
  ⟨⟨h1, by decide!,
      (round_trip_through_romaji caselessTables ⟨[]⟩ ⟨[]⟩ ⟨[]⟩ ⟨[]⟩ "ぜんいん".toList).1 h1⟩,
    ⟨h2, by decide!,
      (round_trip_through_romaji caselessTables ⟨[]⟩ ⟨[]⟩ ⟨[]⟩ ⟨[]⟩ "ヅラ".toList).2 h2⟩⟩

/-! ## Theorems: romaji of the two scripts -/

/-- The swap to katakana of a hiragana of the mapped ranges. -/
theorem swap_of_hiragana (c : Char) (h : isSwappableHiragana c = true) :
    ((runeToChar (HiraganaToKatakana (c.toNat : Int))).toNat : Int) = (c.toNat : Int) + 0x60 := by
  simp only [isSwappableHiragana, Bool.or_eq_true, Bool.and_eq_true, decide_eq_true_eq] at h
  have hk : HiraganaToKatakana (c.toNat : Int) = (c.toNat : Int) + 0x60 := by
    unfold HiraganaToKatakana
    delta Rune
    rw [if_pos (by omega)]
  rw [hk]
  exact toNat_runeToChar_of_bounds _ (by omega) (by omega)

/-- The swap pass to katakana, scalar by scalar. -/
theorem swapToKatakana_cons (c : Char) (x : GoString) :
    stringsMap HiraganaToKatakana (c :: x) =
      runeToChar (HiraganaToKatakana (c.toNat : Int)) :: stringsMap HiraganaToKatakana x := by
  have hnn : 0 ≤ HiraganaToKatakana (c.toNat : Int) := by
    obtain ⟨k, hk, hcase⟩ := HiraganaToKatakana_cases (c.toNat : Int)
    rw [hk]
    show (0 : Int) ≤ k
    omega
  simp only [stringsMap, List.filterMap_cons, hnn, if_true]

/-- The vowel kana and glide kana of the two scripts correspond under the
swap. -/
theorem vowelOrGlideKana_facts :
    (∀ v ∈ vowelOrGlideKana, isSwappableHiragana v = true →
      runeToChar (HiraganaToKatakana (v.toNat : Int)) ∈ vowelOrGlideKana) ∧
    (∀ w ∈ vowelOrGlideKana, 0x30A1 ≤ w.toNat →
      ∃ a ∈ vowelOrGlideKana, a.toNat + 0x60 = w.toNat) := by
  decide

/-- A hiragana is a vowel kana or a glide kana exactly when its katakana is. -/
theorem vowelOrGlide_swap (d : Char) (h : isSwappableHiragana d = true) :
    d ∈ vowelOrGlideKana ↔
      runeToChar (HiraganaToKatakana (d.toNat : Int)) ∈ vowelOrGlideKana := by
  constructor
  · intro hd
    exact vowelOrGlideKana_facts.1 d hd h
  · intro hw
    have hs := swap_of_hiragana d h
    simp only [isSwappableHiragana, Bool.or_eq_true, Bool.and_eq_true, decide_eq_true_eq] at h
    obtain ⟨a, ha, hav⟩ := vowelOrGlideKana_facts.2 _ hw (by omega)
    have : d = a := char_eq_of_toNat_eq _ _ (by omega)
    rw [this]
    exact ha

/-- `ToRomaji` on the modelled tables: the table rewrites, the gemination
step, the special characters and the lowercase fold. -/
theorem specTables_ToRomaji (U : CaseTables) (a0 b0 : Buffer) (s : GoString) (phonetic : Bool) :
    ToRomaji U specTables a0 b0 s phonetic =
      stringsToLower U (rewrite postRomajiRules (sampleParseRomajiDoubles (toRunes
        (romajiRewrites phonetic s)))) := by
  show stringsToLower U (ToRomajiCased specTables a0 b0 s phonetic) = _
  rw [specTables_ToRomajiCased]
  rfl

/-- The gemination step at a small tsu っ that a rune follows. -/
theorem sampleParseRomajiDoubles_hiragana_tsu (n : Rune) (t : List Rune) :
    sampleParseRomajiDoubles (0x3063 :: n :: t) =
      (if (decide ((0x61 : Int) ≤ n ∧ n ≤ 0x7A) &&
          !(decide (n - 0x61 = 0) || decide (n - 0x61 = 4) || decide (n - 0x61 = 8) ||
            decide (n - 0x61 = 14) || decide (n - 0x61 = 20))) = true
        then (if n - 0x61 = 2 then runeToChar (0x61 + 19) else runeToChar n) else 'x') ::
        sampleParseRomajiDoubles (n :: t) := by
  conv_lhs => rw [sampleParseRomajiDoubles]
  simp only [if_true]

/-- The gemination step at a small tsu ッ that a rune follows. -/
theorem sampleParseRomajiDoubles_katakana_tsu (n : Rune) (t : List Rune) :
    sampleParseRomajiDoubles (0x30C3 :: n :: t) =
      (if (decide ((0x41 : Int) ≤ n ∧ n ≤ 0x5A) &&
          !(decide (n - 0x41 = 0) || decide (n - 0x41 = 4) || decide (n - 0x41 = 8) ||
            decide (n - 0x41 = 14) || decide (n - 0x41 = 20))) = true
        then (if n - 0x41 = 2 then runeToChar (0x41 + 19) else runeToChar n) else 'X') ::
        sampleParseRomajiDoubles (n :: t) := by
  conv_lhs => rw [sampleParseRomajiDoubles]
  have h : ¬ ((0x30C3 : Rune) = 0x3063) := by decide
  simp only [if_true, h, if_false]

/-- The code point of the katakana-register counterpart of a scalar. -/
theorem upperRegister_toNat (c : Char) :
    (upperRegister c).toNat =
      if c.toNat = 0x3063 then 0x30C3
      else if 0x61 ≤ c.toNat ∧ c.toNat ≤ 0x7A then c.toNat - 0x20 else c.toNat := by
  have v1 : ('っ' : Char).toNat = 0x3063 := by decide
  have v2 : ('ッ' : Char).toNat = 0x30C3 := by decide
  unfold upperRegister
  by_cases h : c = 'っ'
  · subst h
    simp [v1, v2]
  · have hn : c.toNat ≠ 0x3063 := fun hh => h (char_eq_of_toNat_eq c 'っ' (by omega))
    simp only [beq_iff_eq, h, if_false, hn]
    exact asciiToUpper_toNat c

/-- The letter written for a small tsu before a scalar of the hiragana
register, in uppercase, is the letter written for ッ before its counterpart. -/
theorem tsu_letter_upperRegister (d : Char) (hd : isUpperLetter d = false) (hk : d ≠ 'ッ') :
    (if (decide ((0x41 : Int) ≤ ((upperRegister d).toNat : Int) ∧
            ((upperRegister d).toNat : Int) ≤ 0x5A) &&
          !(decide (((upperRegister d).toNat : Int) - 0x41 = 0) ||
            decide (((upperRegister d).toNat : Int) - 0x41 = 4) ||
            decide (((upperRegister d).toNat : Int) - 0x41 = 8) ||
            decide (((upperRegister d).toNat : Int) - 0x41 = 14) ||
            decide (((upperRegister d).toNat : Int) - 0x41 = 20))) = true
        then (if ((upperRegister d).toNat : Int) - 0x41 = 2 then runeToChar (0x41 + 19)
          else runeToChar ((upperRegister d).toNat : Int)) else 'X') =
      asciiToUpper
        (if (decide ((0x61 : Int) ≤ (d.toNat : Int) ∧ (d.toNat : Int) ≤ 0x7A) &&
          !(decide ((d.toNat : Int) - 0x61 = 0) || decide ((d.toNat : Int) - 0x61 = 4) ||
            decide ((d.toNat : Int) - 0x61 = 8) || decide ((d.toNat : Int) - 0x61 = 14) ||
            decide ((d.toNat : Int) - 0x61 = 20))) = true
        then (if (d.toNat : Int) - 0x61 = 2 then runeToChar (0x61 + 19)
          else runeToChar (d.toNat : Int)) else 'x') := by
  have hu := upperRegister_toNat d
  have v2 : ('ッ' : Char).toNat = 0x30C3 := by decide
  have hkn : d.toNat ≠ 0x30C3 := fun hh => hk (char_eq_of_toNat_eq d 'ッ' (by omega))
  simp only [isUpperLetter, Bool.and_eq_false_iff, decide_eq_false_iff_not] at hd
  have hX : 'X' = asciiToUpper 'x' := by decide
  have hT : runeToChar (0x41 + 19) = asciiToUpper (runeToChar (0x61 + 19)) := by decide
  by_cases hl : 0x61 ≤ d.toNat ∧ d.toNat ≤ 0x7A
  · have hn : (upperRegister d).toNat = d.toNat - 0x20 := by
      rw [hu, if_neg (by omega), if_pos hl]
    have hup : upperRegister d = asciiToUpper d := by
      apply char_eq_of_toNat_eq
      rw [hn, asciiToUpper_toNat, if_pos hl]
    have hcast : ((upperRegister d).toNat : Int) = (d.toNat : Int) - 0x20 := by
      rw [hn]
      omega
    rw [hcast]
    have e0 : ((d.toNat : Int) - 0x20 - 0x41 = 0) ↔ ((d.toNat : Int) - 0x61 = 0) := by omega
    have e4 : ((d.toNat : Int) - 0x20 - 0x41 = 4) ↔ ((d.toNat : Int) - 0x61 = 4) := by omega
    have e8 : ((d.toNat : Int) - 0x20 - 0x41 = 8) ↔ ((d.toNat : Int) - 0x61 = 8) := by omega
    have e14 : ((d.toNat : Int) - 0x20 - 0x41 = 14) ↔ ((d.toNat : Int) - 0x61 = 14) := by omega
    have e20 : ((d.toNat : Int) - 0x20 - 0x41 = 20) ↔ ((d.toNat : Int) - 0x61 = 20) := by omega
    have e2 : ((d.toNat : Int) - 0x20 - 0x41 = 2) ↔ ((d.toNat : Int) - 0x61 = 2) := by omega
    have er : ((0x41 : Int) ≤ (d.toNat : Int) - 0x20 ∧ (d.toNat : Int) - 0x20 ≤ 0x5A) ↔
        ((0x61 : Int) ≤ (d.toNat : Int) ∧ (d.toNat : Int) ≤ 0x7A) := by omega
    simp only [e0, e4, e8, e14, e20, e2, er]
    have hr : runeToChar ((d.toNat : Int) - 0x20) = asciiToUpper (runeToChar (d.toNat : Int)) := by
      rw [runeToChar_toNat, ← hup, ← hcast, runeToChar_toNat]
    split_ifs
    · exact hT
    · exact hr
    · exact hX
  · have hr1 : ¬ ((0x61 : Int) ≤ (d.toNat : Int) ∧ (d.toNat : Int) ≤ 0x7A) := by omega
    have hr2 : ¬ ((0x41 : Int) ≤ ((upperRegister d).toNat : Int) ∧
        ((upperRegister d).toNat : Int) ≤ 0x5A) := by
      rw [hu]
      split_ifs <;> omega
    simp only [hr1, hr2, decide_False, Bool.false_and, Bool.false_eq_true, if_false]
    exact hX

/-- The gemination step on the katakana-register counterpart of a romaji
without uppercase letter and without ッ gives the uppercase of what it gives
on the romaji. -/
theorem sampleParseRomajiDoubles_upperRegister (x : GoString)
    (hx : ∀ c ∈ x, isUpperLetter c = false ∧ c ≠ 'ッ') :
    sampleParseRomajiDoubles (toRunes (x.map upperRegister)) =
      (sampleParseRomajiDoubles (toRunes x)).map asciiToUpper := by
  have v1 : ('っ' : Char).toNat = 0x3063 := by decide
  have v2 : ('ッ' : Char).toNat = 0x30C3 := by decide
  induction x with
  | nil => rfl
  | cons c x ih =>
    have ihx := ih (fun d hd => hx d (List.mem_cons_of_mem _ hd))
    obtain ⟨hcu, hck⟩ := hx c (List.mem_cons_self _ _)
    by_cases hc : c = 'っ'
    · subst hc
      cases x with
      | nil => decide
      | cons d x =>
        obtain ⟨hdu, hdk⟩ := hx d (List.mem_cons_of_mem _ (List.mem_cons_self _ _))
        have hL : toRunes (('っ' :: d :: x).map upperRegister) =
            0x30C3 :: ((upperRegister d).toNat : Int) :: toRunes (x.map upperRegister) := rfl
        have hR : toRunes ('っ' :: d :: x) = 0x3063 :: (d.toNat : Int) :: toRunes x := rfl
        have hL' : ((upperRegister d).toNat : Int) :: toRunes (x.map upperRegister) =
            toRunes ((d :: x).map upperRegister) := rfl
        have hR' : (d.toNat : Int) :: toRunes x = toRunes (d :: x) := rfl
        rw [hL, hR, sampleParseRomajiDoubles_katakana_tsu, sampleParseRomajiDoubles_hiragana_tsu,
          hL', hR', ihx, List.map_cons, tsu_letter_upperRegister d hdu hdk]
    · have hn : c.toNat ≠ 0x3063 := fun hh => hc (char_eq_of_toNat_eq c 'っ' (by omega))
      have hkn : c.toNat ≠ 0x30C3 := fun hh => hck (char_eq_of_toNat_eq c 'ッ' (by omega))
      have hu := upperRegister_toNat c
      rw [if_neg hn] at hu
      have hup : upperRegister c = asciiToUpper c := by
        apply char_eq_of_toNat_eq
        rw [hu, asciiToUpper_toNat]
      have n1 : ¬ (((upperRegister c).toNat : Int) = 0x3063) := by
        rw [hu]
        split_ifs <;> omega
      have n2 : ¬ (((upperRegister c).toNat : Int) = 0x30C3) := by
        rw [hu]
        split_ifs <;> omega
      have m1 : ¬ ((c.toNat : Int) = 0x3063) := by omega
      have m2 : ¬ ((c.toNat : Int) = 0x30C3) := by omega
      have hL : toRunes ((c :: x).map upperRegister) =
          ((upperRegister c).toNat : Int) :: toRunes (x.map upperRegister) := rfl
      have hR : toRunes (c :: x) = (c.toNat : Int) :: toRunes x := rfl
      rw [hL, hR, sampleParseRomajiDoubles_cons_plain _ _ n1 n2,
        sampleParseRomajiDoubles_cons_plain _ _ m1 m2, ihx, List.map_cons, runeToChar_toNat,
        runeToChar_toNat, hup]

/-- The romaji special-character stage commutes with the uppercase of the
ASCII letters. -/
theorem postRomaji_map_upper (y : GoString) :
    rewrite postRomajiRules (y.map asciiToUpper) =
      (rewrite postRomajiRules y).map asciiToUpper := by
  have hmark : ([('ー' : Char)], [('-' : Char)]) ∈ postRomajiRules := by
    rw [postRomajiRules_eq]
    exact List.mem_singleton.2 rfl
  have huniq : ∀ e ∈ postRomajiRules, e.1.head? = some 'ー' → e = (['ー'], ['-']) := by
    intro e he _
    rw [postRomajiRules_eq] at he
    exact List.mem_singleton.1 he
  have vm : ('ー' : Char).toNat = 0x30FC := by decide
  induction y with
  | nil => rfl
  | cons c y ih =>
    by_cases hc : c = 'ー'
    · subst hc
      have h1 : asciiToUpper 'ー' = 'ー' := by decide
      have h2 : asciiToUpper '-' = '-' := by decide
      rw [List.map_cons, h1, rewrite_cons_single _ 'ー' ['-'] _ hmark huniq,
        rewrite_cons_single _ 'ー' ['-'] _ hmark huniq, ih]
      simp [h2]
    · have hn : c.toNat ≠ 0x30FC := fun hh => hc (char_eq_of_toNat_eq c 'ー' (by omega))
      have hu : asciiToUpper c ≠ 'ー' := by
        intro hh
        have := asciiToUpper_toNat c
        rw [hh, vm] at this
        split_ifs at this <;> omega
      rw [List.map_cons, postRomaji_cons_copy _ _ hu, postRomaji_cons_copy _ _ hc, ih,
        List.map_cons]

/-- The lowercase fold of a string is that of the string with its ASCII
letters in uppercase. -/
theorem stringsToLower_map_upper (U : CaseTables) (z : GoString) :
    stringsToLower U (z.map asciiToUpper) = stringsToLower U z := by
  rw [stringsToLower_eq_stringsMap, stringsToLower_eq_stringsMap]
  induction z with
  | nil => rfl
  | cons c z ih =>
    have hc : unicodeToLower U ((asciiToUpper c).toNat : Int) =
        unicodeToLower U (c.toNat : Int) := by
      rw [asciiToUpper_toNat]
      by_cases hl : 0x61 ≤ c.toNat ∧ c.toNat ≤ 0x7A
      · rw [if_pos hl]
        unfold unicodeToLower
        delta Rune
        rw [if_pos (by omega), if_pos (by omega), if_pos (by omega), if_neg (by omega)]
        omega
      · rw [if_neg hl]
    have hs : ∀ (d : Char) (w : GoString), stringsMap (unicodeToLower U) (d :: w) =
        (if 0 ≤ unicodeToLower U (d.toNat : Int)
          then some (runeToChar (unicodeToLower U (d.toNat : Int))) else none).toList ++
          stringsMap (unicodeToLower U) w := by
      intro d w
      simp only [stringsMap, List.filterMap_cons]
      split_ifs <;> rfl
    rw [List.map_cons, hs, hs, hc, ih]

/-- The table rewrites spell a first mora without nasal as the main table
does and go on with the rest. -/
theorem romajiRewrites_mora (phonetic : Bool) (e : GoString × GoString) (rest : GoString)
    (hk : ∀ c ∈ e.1, c ≠ 'ん' ∧ c ≠ 'ン')
    (hm : longestMatch kanaToRomajiRules (e.1 ++ rest) = some e) :
    romajiRewrites phonetic (e.1 ++ rest) = e.2 ++ romajiRewrites phonetic rest := by
  obtain ⟨he, hne, _, _⟩ := longestMatch_some _ _ e hm
  have hletters := kanaToRomajiRules_facts.2.2 e he
  obtain ⟨g1, g2, _, _, _⟩ := asciiLetter_facts
  have hN : rewrite moraicNRules (e.1 ++ rest) = e.1 ++ rewrite moraicNRules rest := by
    apply rewrite_copy_heads
    intro c hc f hf hh
    rcases kanaToRomajiRules_facts.1 f hf with h | h
    · rw [h] at hh
      exact (hk c hc).1 (Option.some.inj hh).symm
    · rw [h] at hh
      exact (hk c hc).2 (Option.some.inj hh).symm
  have hK : rewrite kanaToRomajiRules (e.1 ++ rewrite moraicNRules rest) =
      e.2 ++ rewrite kanaToRomajiRules (rewrite moraicNRules rest) := by
    apply rewrite_of_longestMatch
    rw [longestMatch_moraicN e.1 rest hne]
    exact hm
  have hV : ∀ (V : RuleTable) (z : GoString), (∀ f ∈ V, ∀ c ∈ f.1, isAsciiLetter c = false) →
      rewrite V (e.2 ++ z) = e.2 ++ rewrite V z := by
    intro V z fV
    apply rewriteFrom_copy
    intro f hf c hc hin
    have := hletters c hin
    rw [fV f hf c hc] at this
    exact Bool.noConfusion this
  unfold romajiRewrites
  rw [hN, hK]
  cases phonetic
  · exact hV _ _ g2
  · exact hV _ _ g1

/-- The table rewrites copy a first scalar that is no nasal, that the main
table does not read with what follows it, and that begins no pattern of the
pronounced and of the literal table. -/
theorem romajiRewrites_lone (phonetic : Bool) (c : Char) (rest : GoString)
    (hc : c ≠ 'ん' ∧ c ≠ 'ン')
    (hnone : longestMatch kanaToRomajiRules (c :: rest) = none)
    (hV : (∀ e ∈ phoneticRules, e.1.head? ≠ some c) ∧
      (∀ e ∈ unphoneticRules, e.1.head? ≠ some c)) :
    romajiRewrites phonetic (c :: rest) = c :: romajiRewrites phonetic rest := by
  have hK : rewrite kanaToRomajiRules (c :: rewrite moraicNRules rest) =
      c :: rewrite kanaToRomajiRules (rewrite moraicNRules rest) := by
    apply rewrite_cons_of_none
    have := longestMatch_moraicN [c] rest (by simp)
    simp only [List.cons_append, List.nil_append] at this
    rw [this]
    exact hnone
  unfold romajiRewrites
  rw [moraicN_cons_plain c rest hc, hK]
  cases phonetic
  · exact rewrite_cons_skip _ c _ hV.2
  · exact rewrite_cons_skip _ c _ hV.1

/-- The table rewrites spell an irregular syllable that the main table does
not read with what follows it as the table chosen by the flag does. -/
theorem romajiRewrites_irregular (phonetic : Bool) (c : Char) (r rest : GoString)
    (hc : c ≠ 'ん' ∧ c ≠ 'ン')
    (hnone : longestMatch kanaToRomajiRules (c :: rest) = none)
    (hV : ([c], r) ∈ (if phonetic then phoneticRules else unphoneticRules)) :
    romajiRewrites phonetic (c :: rest) = r ++ romajiRewrites phonetic rest := by
  obtain ⟨p1, _, u1, _⟩ := irregularRules_facts
  have hK : rewrite kanaToRomajiRules (c :: rewrite moraicNRules rest) =
      c :: rewrite kanaToRomajiRules (rewrite moraicNRules rest) := by
    apply rewrite_cons_of_none
    have := longestMatch_moraicN [c] rest (by simp)
    simp only [List.cons_append, List.nil_append] at this
    rw [this]
    exact hnone
  have hVs : ∀ z, rewrite (if phonetic then phoneticRules else unphoneticRules) (c :: z) =
      r ++ rewrite (if phonetic then phoneticRules else unphoneticRules) z := by
    intro z
    apply rewrite_cons_single _ c r z hV
    intro e he hh
    cases phonetic
    · exact u1 e he _ hV (by rw [hh]; rfl)
    · exact p1 e he _ hV (by rw [hh]; rfl)
  unfold romajiRewrites
  rw [moraicN_cons_plain c rest hc, hK, hVs]

/-- The table rewrites copy a first letter `n`, `N` or apostrophe behind the
moraic-n stage. -/
theorem romajiRewrites_letter (phonetic : Bool) (c : Char)
    (hc : c ∈ ['n', 'N', apostrophe]) (z : GoString) :
    rewrite (if phonetic then phoneticRules else unphoneticRules)
        (rewrite kanaToRomajiRules (c :: z)) =
      c :: rewrite (if phonetic then phoneticRules else unphoneticRules)
        (rewrite kanaToRomajiRules z) := by
  obtain ⟨_, f2, f3, _, _⟩ := romaji_letters_pass c hc
  rw [romaji_letter_main c hc]
  cases phonetic
  · exact rewrite_cons_skip _ c _ f3
  · exact rewrite_cons_skip _ c _ f2

/-- The table rewrites write a nasal that no vowel kana or glide kana follows
as its letter alone, followed by the romaji of the rest. -/
theorem romajiRewrites_nasal_alone (phonetic : Bool) (k l : Char) (m : GoString)
    (hk : (k = 'ん' ∧ l = 'n') ∨ (k = 'ン' ∧ l = 'N'))
    (hm : ∀ v ∈ vowelOrGlideKana, m.head? ≠ some v) :
    romajiRewrites phonetic (k :: m) = l :: romajiRewrites phonetic m := by
  have hl : l ∈ ['n', 'N', apostrophe] := by
    rcases hk with ⟨_, rfl⟩ | ⟨_, rfl⟩ <;> simp
  obtain ⟨_, f2, f3, _, _⟩ := romaji_letters_pass l hl
  have hmain : ∀ z, rewrite kanaToRomajiRules (k :: z) = l :: rewrite kanaToRomajiRules z := by
    intro z
    obtain ⟨⟨m1, m2⟩, hu⟩ := kanaToRomajiRules_nasal
    rcases hk with ⟨rfl, rfl⟩ | ⟨rfl, rfl⟩
    · exact rewrite_cons_single _ 'ん' ['n'] z m1 (fun e he => (hu e he).1)
    · exact rewrite_cons_single _ 'ン' ['N'] z m2 (fun e he => (hu e he).2)
  unfold romajiRewrites
  rw [moraicN_nasal_alone k m hm, hmain]
  cases phonetic
  · exact rewrite_cons_skip _ l _ f3
  · exact rewrite_cons_skip _ l _ f2

/-- The table rewrites write a nasal before a vowel kana or glide kana as its
letter and an apostrophe, followed by the romaji of the rest. -/
theorem romajiRewrites_nasal_before_vowel (phonetic : Bool) (k l v : Char) (m : GoString)
    (hk : (k = 'ん' ∧ l = 'n') ∨ (k = 'ン' ∧ l = 'N')) (hv : v ∈ vowelOrGlideKana) :
    romajiRewrites phonetic (k :: v :: m) =
      l :: apostrophe :: romajiRewrites phonetic (v :: m) := by
  obtain ⟨h1, h2⟩ := moraicN_nasal_before_vowel k l v m hk hv
  have hl : l ∈ ['n', 'N', apostrophe] := by
    rcases hk with ⟨_, rfl⟩ | ⟨_, rfl⟩ <;> simp
  have ha : apostrophe ∈ ['n', 'N', apostrophe] := by simp
  unfold romajiRewrites
  rw [h1, h2, romajiRewrites_letter phonetic l hl, romajiRewrites_letter phonetic apostrophe ha]

/-- The main kana-to-romaji table is its hiragana half followed by its
katakana half. -/
theorem kanaToRomajiRules_halves :
    kanaToRomajiRules = hiraganaToRomajiRules ++ katakanaToRomajiRules := by
  unfold kanaToRomajiRules hiraganaToRomajiRules katakanaToRomajiRules rules
  rw [List.filter_append, List.map_append]

set_option maxRecDepth 1000000 in
/-- Every pattern of the hiragana half begins with a hiragana of the swapped
ranges and no pattern of the katakana half does. -/
theorem halves_head_facts :
    (∀ e ∈ hiraganaToRomajiRules, e.1.head?.any isSwappableHiragana = true) ∧
    (∀ f ∈ katakanaToRomajiRules, f.1.head?.any isSwappableHiragana = false) := by
  constructor <;> decide!

set_option maxRecDepth 1000000 in
set_option maxHeartbeats 4000000 in
/-- A pattern of the katakana half that is the swap of a pattern of the
hiragana half is spelled as that pattern, in uppercase. -/
theorem halves_spelling_facts :
    ∀ e ∈ hiraganaToRomajiRules, ∀ f ∈ katakanaToRomajiRules,
      f.1 = stringsMap HiraganaToKatakana e.1 → f.2 = e.2.map asciiToUpper := by
  decide!

/-- In the main kana-to-romaji table, the pattern that is the swap to
katakana of a hiragana pattern is spelled as that pattern, in uppercase. -/
theorem register_spelling_facts (e f : GoString × GoString)
    (he : e ∈ kanaToRomajiRules) (hne : e.1 ≠ [])
    (hall : ∀ d ∈ e.1, isSwappableHiragana d = true) (hf : f ∈ kanaToRomajiRules)
    (hfe : f.1 = stringsMap HiraganaToKatakana e.1) : f.2 = e.2.map asciiToUpper := by
  obtain ⟨g1, g2⟩ := halves_head_facts
  rw [kanaToRomajiRules_halves, List.mem_append] at he hf
  cases he1 : e.1 with
  | nil => exact absurd he1 hne
  | cons d p =>
    have hd : isSwappableHiragana d = true := hall d (by rw [he1]; exact List.mem_cons_self _ _)
    have heH : e ∈ hiraganaToRomajiRules := by
      rcases he with he | he
      · exact he
      · have := g2 e he
        rw [he1] at this
        simp only [List.head?_cons, Option.any_some] at this
        rw [hd] at this
        exact Bool.noConfusion this
    have hfK : f ∈ katakanaToRomajiRules := by
      rcases hf with hf | hf
      · have := g1 f hf
        rw [hfe, he1, swapToKatakana_cons] at this
        simp only [List.head?_cons, Option.any_some] at this
        have hclean := stringsMap_HiraganaToKatakana_clean [d]
          (runeToChar (HiraganaToKatakana (d.toNat : Int))) (by
            rw [swapToKatakana_cons]
            exact List.mem_cons_self _ _)
        rw [hclean] at this
        exact Bool.noConfusion this
      · exact hf
    exact halves_spelling_facts e heH f hfK hfe

set_option maxRecDepth 100000 in
/-- In the main kana-to-romaji table a hiragana pattern is spelled in
lowercase letters. -/
theorem hiragana_spelling_facts :
    ∀ e ∈ kanaToRomajiRules, e.1.all isSwappableHiragana = true →
      e.2.all isLowerLetter = true := by
  decide!

set_option maxRecDepth 100000 in
/-- The small tsu and the long-vowel mark: neither is a nasal, a vowel kana,
a glide kana, an uppercase letter or ッ, neither begins a pattern of the
pronounced or of the literal table, and the swap to katakana of each is its
counterpart in the katakana register, of which the same holds. -/
theorem lone_scalar_facts :
    ∀ c ∈ ['っ', 'ー'],
      ((c ≠ 'ん' ∧ c ≠ 'ン') ∧ c ∉ vowelOrGlideKana ∧
        (isUpperLetter c = false ∧ c ≠ 'ッ') ∧
        (∀ e ∈ phoneticRules, e.1.head? ≠ some c) ∧
        (∀ e ∈ unphoneticRules, e.1.head? ≠ some c)) ∧
      runeToChar (HiraganaToKatakana (c.toNat : Int)) = upperRegister c ∧
      ((upperRegister c ≠ 'ん' ∧ upperRegister c ≠ 'ン') ∧
        upperRegister c ∉ vowelOrGlideKana ∧
        (∀ e ∈ phoneticRules, e.1.head? ≠ some (upperRegister c)) ∧
        (∀ e ∈ unphoneticRules, e.1.head? ≠ some (upperRegister c))) := by
  decide

set_option maxRecDepth 100000 in
/-- Each irregular hiragana syllable has, in the pronounced and in the literal
table, a rule with a lowercase spelling, and its katakana has the rule with
that spelling in uppercase. -/
theorem irregular_register_facts :
    ∀ c ∈ ['づ', 'ぢ'], ∀ V ∈ [phoneticRules, unphoneticRules],
      ∃ e ∈ V, e.1 = [c] ∧
        ([runeToChar (HiraganaToKatakana (c.toNat : Int))], e.2.map asciiToUpper) ∈ V ∧
        e.2.all isLowerLetter = true := by
  decide

/-- A lowercase spelling in the katakana register is the spelling in
uppercase; it holds no uppercase letter and no ッ. -/
theorem map_upperRegister_of_lower (r : GoString) (h : ∀ c ∈ r, isLowerLetter c = true) :
    r.map upperRegister = r.map asciiToUpper ∧
    ∀ c ∈ r, isUpperLetter c = false ∧ c ≠ 'ッ' := by
  have hc : ∀ c ∈ r, 0x61 ≤ c.toNat ∧ c.toNat ≤ 0x7A := by
    intro c hc
    simpa [isLowerLetter] using h c hc
  have v1 : ('っ' : Char).toNat = 0x3063 := by decide
  have v2 : ('ッ' : Char).toNat = 0x30C3 := by decide
  constructor
  · apply List.map_congr_left
    intro c hcr
    have := hc c hcr
    have hne : c ≠ 'っ' := by
      rintro rfl
      omega
    simp [upperRegister, hne]
  · intro c hcr
    have := hc c hcr
    constructor
    · simp only [isUpperLetter, Bool.and_eq_false_iff, decide_eq_false_iff_not]
      omega
    · rintro rfl
      omega

/-- One step of `readInBothRegisters`. -/
theorem readInBothRegisters_cons (n : Nat) (c : Char) (cs : GoString)
    (h : readInBothRegisters n (c :: cs) = true) :
    ∃ m, n = m + 1 ∧
      ((∃ e f rest, longestMatch kanaToRomajiRules (c :: cs) = some e ∧
          longestMatch kanaToRomajiRules (stringsMap HiraganaToKatakana (c :: cs)) = some f ∧
          c :: cs = e.1 ++ rest ∧ (∀ d ∈ e.1, isSwappableHiragana d = true) ∧
          f.1 = stringsMap HiraganaToKatakana e.1 ∧ readInBothRegisters m rest = true) ∨
        (longestMatch kanaToRomajiRules (c :: cs) = none ∧
          longestMatch kanaToRomajiRules (stringsMap HiraganaToKatakana (c :: cs)) = none ∧
          (c ∈ ['づ', 'ぢ'] ∨ c ∈ ['っ', 'ー']) ∧ readInBothRegisters m cs = true)) := by
  cases n with
  | zero => simp [readInBothRegisters] at h
  | succ m =>
    refine ⟨m, rfl, ?_⟩
    simp only [readInBothRegisters] at h
    cases hm : longestMatch kanaToRomajiRules (c :: cs) with
    | none =>
      rw [hm] at h
      cases hm' : longestMatch kanaToRomajiRules (stringsMap HiraganaToKatakana (c :: cs)) with
      | none =>
        rw [hm'] at h
        simp only [Bool.and_eq_true, Bool.or_eq_true, beq_iff_eq, isIrregularHiragana] at h
        refine Or.inr ⟨rfl, rfl, ?_, h.2⟩
        rcases h.1 with (h1 | h1) | h1
        · rcases h1 with rfl | rfl <;> simp
        · subst h1
          simp
        · subst h1
          simp
      | some f =>
        rw [hm'] at h
        exact Bool.noConfusion h
    | some e =>
      rw [hm] at h
      cases hm' : longestMatch kanaToRomajiRules (stringsMap HiraganaToKatakana (c :: cs)) with
      | none =>
        rw [hm'] at h
        exact Bool.noConfusion h
      | some f =>
        rw [hm'] at h
        simp only [Bool.and_eq_true, List.all_eq_true, beq_iff_eq] at h
        obtain ⟨⟨h1, h2⟩, h4⟩ := h
        obtain ⟨_, hne, hp, _⟩ := longestMatch_some _ _ e hm
        obtain ⟨rest, hrest⟩ := (hasPrefix_iff e.1 (c :: cs)).1 hp
        have hd : List.drop e.1.length (c :: cs) = rest := by
          rw [hrest, List.drop_left]
        rw [hd] at h4
        exact Or.inl ⟨e, f, rest, rfl, rfl, hrest, h1, h2, h4⟩

/-- A string that is read in both registers begins with a hiragana of the
swapped ranges or with a long-vowel mark. -/
theorem readInBothRegisters_head (n : Nat) (c : Char) (cs : GoString)
    (h : readInBothRegisters n (c :: cs) = true) :
    isSwappableHiragana c = true ∨ c = 'ー' := by
  obtain ⟨m, _, hcase⟩ := readInBothRegisters_cons n c cs h
  rcases hcase with ⟨e, f, rest, hm, _, hrest, h1, _, _⟩ | ⟨_, _, hc, _⟩
  · obtain ⟨_, hne, _, _⟩ := longestMatch_some _ _ e hm
    left
    apply h1
    cases he : e.1 with
    | nil => exact absurd he hne
    | cons d p =>
      rw [he] at hrest
      simp only [List.cons_append, List.cons.injEq] at hrest
      rw [hrest.1]
      exact List.mem_cons_self _ _
  · simp only [List.mem_cons, List.mem_singleton, List.not_mem_nil, or_false] at hc
    rcases hc with (rfl | rfl) | (rfl | rfl)
    · left
      decide
    · left
      decide
    · left
      decide
    · right
      rfl

/-- The first scalar of a string that is read in both registers is a vowel
kana or a glide kana exactly when its swap to katakana is. -/
theorem vowelOrGlide_swap_head (d : Char) (h : isSwappableHiragana d = true ∨ d = 'ー') :
    d ∈ vowelOrGlideKana ↔
      runeToChar (HiraganaToKatakana (d.toNat : Int)) ∈ vowelOrGlideKana := by
  rcases h with h | rfl
  · exact vowelOrGlide_swap d h
  · decide

/-- On the modelled tables, the table rewrites of `ToRomajiCased` give on the
swap to katakana of a hiragana string that is read in both registers the
katakana-register counterpart of what they give on the string, which holds no
uppercase letter and no ッ. -/
theorem romajiRewrites_swap (phonetic : Bool) :
    ∀ n s, readInBothRegisters n s = true →
      romajiRewrites phonetic (stringsMap HiraganaToKatakana s) =
          (romajiRewrites phonetic s).map upperRegister ∧
        ∀ c ∈ romajiRewrites phonetic s, isUpperLetter c = false ∧ c ≠ 'ッ' := by
  have hnil : stringsMap HiraganaToKatakana [] = [] := rfl
  have hRnil : romajiRewrites phonetic [] = [] := by
    cases phonetic <;> rfl
  have hnasal : runeToChar (HiraganaToKatakana (('ん' : Char).toNat : Int)) = 'ン' := by decide
  have hbase : romajiRewrites phonetic (stringsMap HiraganaToKatakana []) =
        (romajiRewrites phonetic []).map upperRegister ∧
      ∀ c ∈ romajiRewrites phonetic [], isUpperLetter c = false ∧ c ≠ 'ッ' := by
    rw [hnil, hRnil]
    exact ⟨rfl, fun c hc => absurd hc (List.not_mem_nil c)⟩
  have t1 : ('ん' : Char).toNat = 0x3093 := by decide
  have t2 : ('ン' : Char).toNat = 0x30F3 := by decide
  intro n
  induction n with
  | zero =>
    intro s hs
    cases s with
    | nil => exact hbase
    | cons c cs => simp [readInBothRegisters] at hs
  | succ n ih =>
    intro s hs
    cases s with
    | nil => exact hbase
    | cons c cs =>
      obtain ⟨m, hnm, hcase⟩ := readInBothRegisters_cons _ c cs hs
      have hmn : m = n := by omega
      subst hmn
      rcases hcase with ⟨e, f, rest, hm, hm', hrest, h1, h2, h4⟩ | ⟨hm, hm', hlone, h4⟩
      · obtain ⟨he, hne, hp, _⟩ := longestMatch_some _ _ e hm
        obtain ⟨hf, _, _, _⟩ := longestMatch_some _ _ f hm'
        have hhead : e.1.head? = some c := by
          cases he1 : e.1 with
          | nil => exact absurd he1 hne
          | cons d p =>
            rw [he1] at hrest
            simp only [List.cons_append, List.cons.injEq] at hrest
            rw [hrest.1]
            rfl
        have hchira : isSwappableHiragana c = true := by
          apply h1
          cases he1 : e.1 with
          | nil => exact absurd he1 hne
          | cons d p =>
            rw [he1] at hhead
            simp only [List.head?_cons, Option.some.injEq] at hhead
            rw [hhead]
            exact List.mem_cons_self _ _
        have hcn : c ≠ 'ン' := by
          rintro rfl
          revert hchira
          decide
        by_cases hc : c = 'ん'
        · subst hc
          have he1 : e = (['ん'], ['n']) := (kanaToRomajiRules_nasal.2 e he).1 hhead
          have hrest' : rest = cs := by
            rw [he1] at hrest
            simp only [List.cons_append, List.nil_append, List.cons.injEq, true_and] at hrest
            exact hrest.symm
          subst hrest'
          obtain ⟨ih1, ih2⟩ := ih rest h4
          have hn1 : upperRegister 'n' = 'N' := by decide
          have hn2 : upperRegister apostrophe = apostrophe := by decide
          have hn3 : isUpperLetter 'n' = false ∧ 'n' ≠ 'ッ' := by decide
          have hn4 : isUpperLetter apostrophe = false ∧ apostrophe ≠ 'ッ' := by decide
          rw [swapToKatakana_cons, hnasal]
          by_cases hv : ∀ v ∈ vowelOrGlideKana, rest.head? ≠ some v
          · have hv' : ∀ v ∈ vowelOrGlideKana,
                (stringsMap HiraganaToKatakana rest).head? ≠ some v := by
              cases hcs : rest with
              | nil =>
                intro v _
                rw [hnil]
                simp
              | cons d m' =>
                rw [hcs] at h4 hv
                have hd := readInBothRegisters_head _ d m' h4
                rw [swapToKatakana_cons]
                intro v hvv heq
                simp only [List.head?_cons, Option.some.injEq] at heq
                rw [← heq] at hvv
                exact hv d ((vowelOrGlide_swap_head d hd).2 hvv) rfl
            rw [romajiRewrites_nasal_alone phonetic 'ん' 'n' rest (Or.inl ⟨rfl, rfl⟩) hv,
              romajiRewrites_nasal_alone phonetic 'ン' 'N' _ (Or.inr ⟨rfl, rfl⟩) hv', ih1,
              List.map_cons, hn1]
            refine ⟨rfl, ?_⟩
            intro d hd
            rcases List.mem_cons.1 hd with rfl | hd
            · exact hn3
            · exact ih2 d hd
          · simp only [not_forall, not_not] at hv
            obtain ⟨v, hv1, hv2⟩ := hv
            cases hcs : rest with
            | nil => simp [hcs] at hv2
            | cons d m' =>
              rw [hcs] at hv2 ih1 ih2 h4
              simp only [List.head?_cons, Option.some.injEq] at hv2
              subst hv2
              have hd := readInBothRegisters_head _ d m' h4
              rw [swapToKatakana_cons] at ih1 ⊢
              rw [romajiRewrites_nasal_before_vowel phonetic 'ん' 'n' d m' (Or.inl ⟨rfl, rfl⟩) hv1,
                romajiRewrites_nasal_before_vowel phonetic 'ン' 'N' _ _ (Or.inr ⟨rfl, rfl⟩)
                  ((vowelOrGlide_swap_head d hd).1 hv1), ih1, List.map_cons, List.map_cons,
                hn1, hn2]
              refine ⟨rfl, ?_⟩
              intro x hx
              rcases List.mem_cons.1 hx with rfl | hx
              · exact hn3
              · rcases List.mem_cons.1 hx with rfl | hx
                · exact hn4
                · exact ih2 x hx
        · -- a mora without nasal, in both scripts
          obtain ⟨ih1, ih2⟩ := ih rest h4
          have htail := kanaToRomajiRules_facts.2.1
          have hke : ∀ d ∈ e.1, d ≠ 'ん' ∧ d ≠ 'ン' := by
            intro d hd
            cases he1 : e.1 with
            | nil => exact absurd he1 hne
            | cons d0 p =>
              rw [he1] at hd hhead
              simp only [List.head?_cons, Option.some.injEq] at hhead
              subst hhead
              rcases List.mem_cons.1 hd with rfl | hd
              · exact ⟨hc, hcn⟩
              · have := htail e he d (by rw [he1]; exact hd)
                simp only [List.mem_cons, List.mem_singleton, List.not_mem_nil, or_false,
                  not_or] at this
                exact ⟨this.1, this.2.1⟩
          have hswap : stringsMap HiraganaToKatakana (c :: cs) =
              f.1 ++ stringsMap HiraganaToKatakana rest := by
            rw [hrest, stringsMap_append, h2]
          have hkf : ∀ d ∈ f.1, d ≠ 'ん' ∧ d ≠ 'ン' := by
            intro d hd
            cases he1 : e.1 with
            | nil => exact absurd he1 hne
            | cons d0 p =>
              rw [he1] at hhead
              simp only [List.head?_cons, Option.some.injEq] at hhead
              subst hhead
              rw [he1, swapToKatakana_cons] at h2
              rw [h2] at hd
              rcases List.mem_cons.1 hd with rfl | hd
              · have hs := swap_of_hiragana d0 hchira
                have hr : isSwappableHiragana d0 = true := hchira
                simp only [isSwappableHiragana, Bool.or_eq_true, Bool.and_eq_true,
                  decide_eq_true_eq] at hr
                have hne' : d0.toNat ≠ ('ん' : Char).toNat :=
                  fun h => hc (char_eq_of_toNat_eq _ _ h)
                constructor
                · intro heq
                  rw [heq] at hs
                  omega
                · intro heq
                  rw [heq] at hs
                  omega
              · have := htail f hf d (by rw [h2]; exact hd)
                simp only [List.mem_cons, List.mem_singleton, List.not_mem_nil, or_false,
                  not_or] at this
                exact ⟨this.1, this.2.1⟩
          have hall : e.1.all isSwappableHiragana = true := List.all_eq_true.2 h1
          have hspell : f.2 = e.2.map asciiToUpper :=
            register_spelling_facts e f he hne h1 hf h2
          have hlow : ∀ d ∈ e.2, isLowerLetter d = true :=
            List.all_eq_true.1 (hiragana_spelling_facts e he hall)
          obtain ⟨hup, hclean⟩ := map_upperRegister_of_lower e.2 hlow
          rw [hswap, hrest, romajiRewrites_mora phonetic e rest hke (hrest ▸ hm),
            romajiRewrites_mora phonetic f _ hkf (hswap ▸ hm'), hspell, ih1, List.map_append,
            hup]
          refine ⟨rfl, ?_⟩
          intro d hd
          rcases List.mem_append.1 hd with hd | hd
          · exact hclean d hd
          · exact ih2 d hd
      · obtain ⟨ih1, ih2⟩ := ih cs h4
        rw [swapToKatakana_cons] at hm' ⊢
        rcases hlone with hirr | hmark
        · -- an irregular syllable
          have hchira : isSwappableHiragana c = true := by
            simp only [List.mem_cons, List.mem_singleton, List.not_mem_nil, or_false] at hirr
            rcases hirr with rfl | rfl <;> decide
          have hc : c ≠ 'ん' := by
            rintro rfl
            revert hirr
            decide
          have hcn : c ≠ 'ン' := by
            rintro rfl
            revert hchira
            decide
          have hVin : (if phonetic then phoneticRules else unphoneticRules) ∈
              [phoneticRules, unphoneticRules] := by
            cases phonetic <;> simp
          obtain ⟨e, he, he1, hf, hlow⟩ := irregular_register_facts c hirr _ hVin
          have hs := swap_of_hiragana c hchira
          have hr : isSwappableHiragana c = true := hchira
          simp only [isSwappableHiragana, Bool.or_eq_true, Bool.and_eq_true,
            decide_eq_true_eq] at hr
          have hne' : c.toNat ≠ ('ん' : Char).toNat := fun h => hc (char_eq_of_toNat_eq _ _ h)
          have hc' : runeToChar (HiraganaToKatakana (c.toNat : Int)) ≠ 'ん' ∧
              runeToChar (HiraganaToKatakana (c.toNat : Int)) ≠ 'ン' := by
            constructor
            · intro heq
              rw [heq] at hs
              omega
            · intro heq
              rw [heq] at hs
              omega
          have hVe : ([c], e.2) ∈ (if phonetic then phoneticRules else unphoneticRules) := by
            rw [← he1]
            exact he
          obtain ⟨hup, hclean⟩ := map_upperRegister_of_lower e.2 (List.all_eq_true.1 hlow)
          rw [romajiRewrites_irregular phonetic c e.2 cs ⟨hc, hcn⟩ hm hVe,
            romajiRewrites_irregular phonetic _ _ _ hc' hm' hf, ih1, List.map_append, hup]
          refine ⟨rfl, ?_⟩
          intro d hd
          rcases List.mem_append.1 hd with hd | hd
          · exact hclean d hd
          · exact ih2 d hd
        · -- a small tsu or a long-vowel mark
          obtain ⟨⟨g1, _, g3, g4, g5⟩, gs, ⟨k1, _, k4, k5⟩⟩ := lone_scalar_facts c hmark
          rw [gs] at hm' ⊢
          rw [romajiRewrites_lone phonetic c cs g1 hm ⟨g4, g5⟩,
            romajiRewrites_lone phonetic _ _ k1 hm' ⟨k4, k5⟩, ih1, List.map_cons]
          refine ⟨rfl, ?_⟩
          intro d hd
          rcases List.mem_cons.1 hd with rfl | hd
          · exact g3
          · exact ih2 d hd

set_option maxRecDepth 1000000 in
/-- Strings of `conversion_test.go` that are read in both registers: the
nasal before a vowel in `ぜんいん`, gemination in `きって`, long-vowel marks in
`ぱーてぃー`, the irregular syllable `づ`; and the two hiragana morae of the
tests whose katakana no test vector of `ToRomaji` spells, `ふぅ` and `ゐ`,
which are not. -/
theorem readInBothRegisters_examples :
    (["ぜんいん", "きって", "ぱーてぃー", "づ"].all
      (fun x => readInBothRegisters x.toList.length x.toList)) = true ∧
    (["ふぅ", "ゐ"].all
      (fun x => !readInBothRegisters x.toList.length x.toList)) = true := by
  decide!

/-- C23: on the modelled tables, `ToRomaji` returns the same result for a
hiragana string and for that string with every scalar swapped to katakana by
`HiraganaToKatakana`, with the flag set and with the flag clear, whatever the
case tables and the pooled buffers held, for every string that the
kana-to-romaji table reads with the same mora boundaries in both registers:
morae, the nasal with and without apostrophe, the irregular syllables づ/ぢ,
the small tsu and the long-vowel mark. The condition compares the patterns
only: that a katakana mora is spelled as its hiragana mora, in uppercase, is
a fact of the tables. The length of `s` bounds the number of its morae. -/
theorem ToRomaji_register_independent (U : CaseTables) (a0 b0 a1 b1 : Buffer)
    (phonetic : Bool) (s : GoString) (h : readInBothRegisters s.length s = true) :
    ToRomaji U specTables a0 b0 s phonetic =
      ToRomaji U specTables a1 b1 (stringsMap HiraganaToKatakana s) phonetic := by
  obtain ⟨h1, h2⟩ := romajiRewrites_swap phonetic s.length s h
  rw [specTables_ToRomaji, specTables_ToRomaji, h1,
    sampleParseRomajiDoubles_upperRegister _ h2, postRomaji_map_upper, stringsToLower_map_upper]

set_option maxRecDepth 1000000 in
/-- Witness for C23: `まっちゃ` is read in both registers, its swap is `マッチャ`,
and both are `matcha`. -/
theorem ToRomaji_register_independent_witness :
    readInBothRegisters "まっちゃ".toList.length "まっちゃ".toList = true ∧
    stringsMap HiraganaToKatakana "まっちゃ".toList = "マッチャ".toList ∧
    ToRomaji caselessTables specTables ⟨[]⟩ ⟨[]⟩ "マッチャ".toList false = "matcha".toList ∧
    ToRomaji caselessTables specTables ⟨[]⟩ ⟨[]⟩ "まっちゃ".toList false =
      ToRomaji caselessTables specTables ⟨[]⟩ ⟨[]⟩
        (stringsMap HiraganaToKatakana "まっちゃ".toList) false :=
  have h : readInBothRegisters "まっちゃ".toList.length "まっちゃ".toList = true := by decide!
  ⟨h, by decide!, by decide!,
    ToRomaji_register_independent caselessTables ⟨[]⟩ ⟨[]⟩ ⟨[]⟩ ⟨[]⟩ false "まっちゃ".toList h⟩

end Kana
